import Mathlib

/-!
# Mean pooling layer: `methods/ann/layer/mean_pooling_impl.hpp`

A shallow embedding of `mlpack::ann::MeanPooling` (constructor,
`InitializeSamePadding`, `Forward`, `Backward`) together with the statements
of its specification that have been checked against it.

Modelling conventions.

* `size_t` values are natural numbers; every `size_t` operation of the source
  is written with its 64-bit wrap-around (`addSz`, `subSz`, `mulSz`).
* `double` values of the geometry are rationals, and every conversion to
  `double` and every `double` operation rounds to binary64 (`toDouble`: round to
  nearest, ties to even, 53-bit significand).  The exponent range is not
  modelled: every value that occurs is 0 or has a magnitude between `2^-116`
  and `2^65`, inside the normal range of binary64.  A division by a zero
  `double` (an infinity or NaN in C++) has no rational value and is `none`.
* An execution whose behaviour C++ leaves undefined (integer division by zero,
  conversion of a `double` outside `[0, 2^64)` to `size_t`) is `none`.
* Armadillo matrices and cubes are a shape together with an element function;
  their memory is column-major, which is what `Mat.mem`, `Mat.ofMem`,
  `Cube.mem` and `Cube.ofMem` spell out.
* `Pooling`, `Unpooling` (declared in `mean_pooling.hpp`) and the `Padding`
  layer are not part of the sources at hand and are modelled from the
  specification, whose element values are real numbers (exact rationals here).
-/

namespace mlpack.ann

open Finset

/-! ## Machine arithmetic -/

/-- Number of values of a 64-bit `size_t`. -/
def sizeMod : Nat := 2 ^ 64

/-- Addition of two `size_t` values. -/
def addSz (a b : Nat) : Nat := (a + b) % sizeMod

/-- Subtraction of two `size_t` values (wraps around below zero). -/
def subSz (a b : Nat) : Nat := (a % sizeMod + sizeMod - b % sizeMod) % sizeMod

/-- Multiplication of two `size_t` values. -/
def mulSz (a b : Nat) : Nat := (a * b) % sizeMod

/-- Rounding of a rational to the nearest integer, ties to the even one. -/
def roundEven (q : ℚ) : ℤ :=
  if q - (⌊q⌋ : ℚ) < 1 / 2 then ⌊q⌋
  else if 1 / 2 < q - (⌊q⌋ : ℚ) then ⌊q⌋ + 1
  else if ⌊q⌋ % 2 = 0 then ⌊q⌋ else ⌊q⌋ + 1

/-- Rounding of a real value to binary64: with `2^e ≤ |q| < 2^(e+1)` the result
is the multiple of `2^(e-52)` nearest to `q`, ties to the even multiple.  This is
the conversion of a `size_t` to `double` and the rounding of every `double`
operation. -/
def toDouble (q : ℚ) : ℚ :=
  if q = 0 then 0
  else (roundEven (q / (2 : ℚ) ^ (Int.log 2 |q| - 52)) : ℚ) * (2 : ℚ) ^ (Int.log 2 |q| - 52)

/-- Subtraction of two `double` values. -/
def subDouble (a b : ℚ) : ℚ := toDouble (a - b)

/-- Addition of two `double` values. -/
def addDouble (a b : ℚ) : ℚ := toDouble (a + b)

/-- Division of two `double` values; dividing by zero gives an infinity or a
NaN, which has no rational value. -/
def divDouble (a b : ℚ) : Option ℚ := if b = 0 then none else some (toDouble (a / b))

/-- Conversion of an integral `double` value to `size_t`; undefined outside
`[0, 2^64)`. -/
def toSizeT (z : ℤ) : Option Nat :=
  if 0 ≤ z ∧ z < (sizeMod : ℤ) then some z.toNat else none

/-- The lowering `std::transform(..., std::tolower)` of the constructor. -/
def toLowerStr (s : List Char) : List Char := s.map Char.toLower

/-! ## Matrices and cubes -/

/-- An `arma::Mat`: shape and elements (`get i j` is the element in row `i`,
column `j`). -/
structure Mat where
  n_rows : Nat
  n_cols : Nat
  get : Nat → Nat → ℚ

/-- An `arma::Cube`: shape and elements (`get i j s`: row, column, slice). -/
structure Cube where
  n_rows : Nat
  n_cols : Nat
  n_slices : Nat
  get : Nat → Nat → Nat → ℚ

/-- Number of elements of a matrix. -/
def Mat.n_elem (m : Mat) : Nat := m.n_rows * m.n_cols

/-- Column-major memory of a matrix (`memptr()`). -/
def Mat.mem (m : Mat) (k : Nat) : ℚ := m.get (k % m.n_rows) (k / m.n_rows)

/-- The matrix `arma::Mat(mem, rows, cols)` laid over a memory block. -/
def Mat.ofMem (mem : Nat → ℚ) (rows cols : Nat) : Mat :=
  { n_rows := rows, n_cols := cols, get := fun i j => mem (i + j * rows) }

/-- The matrix `arma::zeros(rows, cols)`. -/
def Mat.zeros (rows cols : Nat) : Mat :=
  { n_rows := rows, n_cols := cols, get := fun _ _ => 0 }

/-- Number of elements of a cube. -/
def Cube.n_elem (c : Cube) : Nat := c.n_rows * c.n_cols * c.n_slices

/-- Column-major, slice after slice, memory of a cube (`memptr()`). -/
def Cube.mem (c : Cube) (k : Nat) : ℚ :=
  c.get (k % c.n_rows) (k / c.n_rows % c.n_cols) (k / (c.n_rows * c.n_cols))

/-- The cube `arma::cube(mem, rows, cols, slices, false, false)` laid over a
memory block. -/
def Cube.ofMem (mem : Nat → ℚ) (rows cols slices : Nat) : Cube :=
  { n_rows := rows, n_cols := cols, n_slices := slices,
    get := fun i j s => mem (i + j * rows + s * (rows * cols)) }

/-- The cube `arma::zeros(rows, cols, slices)`. -/
def Cube.zeros (rows cols slices : Nat) : Cube :=
  { n_rows := rows, n_cols := cols, n_slices := slices, get := fun _ _ _ => 0 }

/-- The empty cube of a default-constructed member. -/
def Cube.empty : Cube := Cube.zeros 0 0 0

/-- The matrix `c.slice(s)`. -/
def Cube.slice (c : Cube) (s : Nat) : Mat :=
  { n_rows := c.n_rows, n_cols := c.n_cols, get := fun i j => c.get i j s }

/-- Writing through the reference `c.slice(s)`: the slice has a fixed shape, so
only the elements change. -/
def Cube.setSlice (c : Cube) (s : Nat) (m : Mat) : Cube :=
  { c with get := fun i j t => if t = s then m.get i j else c.get i j t }

/-! ## The zero-padding layer -/

/-- Modelled from the spec: the `ann::Padding` layer object (its sources are not
at hand); it holds the four pad widths it was constructed with. -/
structure Padding where
  padWLeft : Nat
  padWRight : Nat
  padHTop : Nat
  padHBottom : Nat

/-- Modelled from the spec: `Padding::Forward`, "embeds a 2-D slice into a
larger zero-filled slice at a given offset". -/
def Padding.Forward (p : Padding) (input : Mat) : Mat :=
  { n_rows := input.n_rows + p.padWLeft + p.padWRight
    n_cols := input.n_cols + p.padHTop + p.padHBottom
    get := fun i j =>
      if p.padWLeft ≤ i ∧ i < p.padWLeft + input.n_rows ∧
          p.padHTop ≤ j ∧ j < p.padHTop + input.n_cols
      then input.get (i - p.padWLeft) (j - p.padHTop) else 0 }

/-- Modelled from the spec: `Padding::Backward`, "extracts the corresponding
sub-region from a gradient slice". -/
def Padding.Backward (p : Padding) (gy : Mat) : Mat :=
  { n_rows := gy.n_rows - p.padWLeft - p.padWRight
    n_cols := gy.n_cols - p.padHTop - p.padHBottom
    get := fun i j => gy.get (i + p.padWLeft) (j + p.padHTop) }

/-! ## The layer -/

/-- The data members of `MeanPooling`. -/
structure MeanPooling where
  kernelWidth : Nat
  kernelHeight : Nat
  strideWidth : Nat
  strideHeight : Nat
  floor : Bool
  padWLeft : Nat
  padWRight : Nat
  padHBottom : Nat
  padHTop : Nat
  isPadded : Bool
  inSize : Nat
  outSize : Nat
  inputWidth : Nat
  inputHeight : Nat
  outputWidth : Nat
  outputHeight : Nat
  reset : Bool
  deterministic : Bool
  offset : Nat
  batchSize : Nat
  padding : Padding
  inputTemp : Cube
  inputPaddedTemp : Cube
  outputTemp : Cube
  gTemp : Cube

/-- `MeanPooling::InitializeSamePadding`. -/
def InitializeSamePadding (L : MeanPooling) : MeanPooling :=
  let totalVerticalPadding :=
    subSz (addSz (mulSz (subSz L.strideWidth 1) L.inputWidth) L.kernelWidth) L.strideWidth
  let totalHorizontalPadding :=
    subSz (addSz (mulSz (subSz L.strideHeight 1) L.inputHeight) L.kernelHeight) L.strideHeight
  { L with
    padWLeft := totalVerticalPadding / 2
    padWRight := subSz totalVerticalPadding (totalVerticalPadding / 2)
    padHTop := totalHorizontalPadding / 2
    padHBottom := subSz totalHorizontalPadding (totalHorizontalPadding / 2) }

/-- The member initialiser list of the constructor taking padding tuples. -/
def initMembers (kernelWidth kernelHeight strideWidth strideHeight : Nat) (floor : Bool)
    (padW padH : Nat × Nat) (inputWidth inputHeight : Nat) : MeanPooling :=
  { kernelWidth := kernelWidth
    kernelHeight := kernelHeight
    strideWidth := strideWidth
    strideHeight := strideHeight
    floor := floor
    padWLeft := padW.1
    padWRight := padW.2
    padHBottom := padH.2
    padHTop := padH.1
    isPadded := false
    inSize := 0
    outSize := 0
    inputWidth := inputWidth
    inputHeight := inputHeight
    outputWidth := 0
    outputHeight := 0
    reset := false
    deterministic := false
    offset := 0
    batchSize := 0
    padding := ⟨0, 0, 0, 0⟩
    inputTemp := Cube.empty
    inputPaddedTemp := Cube.empty
    outputTemp := Cube.empty
    gTemp := Cube.empty }

/-- The constructor `MeanPooling::MeanPooling` taking the padding as tuples
`(left, right)` and `(top, bottom)`. -/
def mkMeanPooling (kernelWidth kernelHeight strideWidth strideHeight : Nat) (floor : Bool)
    (padW padH : Nat × Nat) (inputWidth inputHeight : Nat) (paddingType : List Char) :
    MeanPooling :=
  let L0 := initMembers kernelWidth kernelHeight strideWidth strideHeight floor padW padH
    inputWidth inputHeight
  let paddingTypeLow := toLowerStr paddingType
  let L1 :=
    if paddingTypeLow = "valid".toList then
      { L0 with padWLeft := 0, padWRight := 0, padHTop := 0, padHBottom := 0 }
    else if paddingTypeLow = "same".toList then
      InitializeSamePadding L0
    else L0
  let isPadded :=
    decide (L1.padWLeft ≠ 0 ∨ L1.padWRight ≠ 0 ∨ L1.padHTop ≠ 0 ∨ L1.padHBottom ≠ 0)
  if isPadded then
    { L1 with
      isPadded := isPadded
      padding := ⟨L1.padWLeft, L1.padWRight, L1.padHTop, L1.padHBottom⟩ }
  else { L1 with isPadded := isPadded }

/-- The constructor `MeanPooling::MeanPooling` taking one pad width per axis; it
delegates with `(padW, padW)` and `(padH, padH)`. -/
def mkMeanPoolingSym (kernelWidth kernelHeight strideWidth strideHeight : Nat) (floor : Bool)
    (padW padH : Nat) (inputWidth inputHeight : Nat) (paddingType : List Char) :
    MeanPooling :=
  mkMeanPooling kernelWidth kernelHeight strideWidth strideHeight floor (padW, padW)
    (padH, padH) inputWidth inputHeight paddingType

/-! ## Pooling and unpooling of one slice -/

/-- Modelled from the spec: the rows of the effective window of output row `i`,
the kernel rows `[i·strideWidth, i·strideWidth + kernelWidth)` that lie inside
the slice (the sources of `Pooling` are not at hand). -/
def windowRows (L : MeanPooling) (input : Mat) (i : Nat) : Finset Nat :=
  (Finset.Ico (i * L.strideWidth) (i * L.strideWidth + L.kernelWidth)).filter
    (fun r => r < input.n_rows)

/-- Modelled from the spec: the columns of the effective window of output
column `j`, the kernel columns `[j·strideHeight, j·strideHeight + kernelHeight)`
that lie inside the slice. -/
def windowCols (L : MeanPooling) (input : Mat) (j : Nat) : Finset Nat :=
  (Finset.Ico (j * L.strideHeight) (j * L.strideHeight + L.kernelHeight)).filter
    (fun c => c < input.n_cols)

/-- Modelled from the spec: the divisor of output cell `(i, j)`, the number of
cells of its effective window. -/
def windowCount (L : MeanPooling) (input : Mat) (i j : Nat) : Nat :=
  (windowRows L input i).card * (windowCols L input j).card

/-- Modelled from the spec: `Pooling(input, output)` of `mean_pooling.hpp`, whose
sources are not at hand; every cell of the output slice receives the sum of its
effective window divided by the number of cells of that window. -/
def Pooling (L : MeanPooling) (input output : Mat) : Mat :=
  { output with
    get := fun i j =>
      (∑ r ∈ windowRows L input i, ∑ c ∈ windowCols L input j, input.get r c) /
        (windowCount L input i j : ℚ) }

/-- Modelled from the spec: the contribution of output cell `ij` to the
gradient slice, `g / n` added to every cell of its effective window. -/
def unpoolCell (L : MeanPooling) (input error : Mat) (acc : Mat) (ij : Nat × Nat) : Mat :=
  { acc with
    get := fun r c =>
      if r ∈ windowRows L input ij.1 ∧ c ∈ windowCols L input ij.2 then
        acc.get r c + error.get ij.1 ij.2 / (windowCount L input ij.1 ij.2 : ℚ)
      else acc.get r c }

/-- Modelled from the spec: `Unpooling(input, error, output)` of
`mean_pooling.hpp`, whose sources are not at hand; `input` gives the shape of
the forward slice, and every cell of `error` is spread over its effective window
and accumulated into `output`. -/
def Unpooling (L : MeanPooling) (input error output : Mat) : Mat :=
  (List.range error.n_cols).foldl
    (fun acc j =>
      (List.range error.n_rows).foldl (fun acc2 i => unpoolCell L input error acc2 (i, j)) acc)
    output

/-! ## Forward and backward pass -/

/-- The `double` expression `(sum - (double) kernel) / (double) stride + 1` that
`Forward` hands to `std::floor` or `std::ceil`, where `sum` is the `size_t` value
`input + padBefore + padAfter`: the sum and the stride are converted to `double`,
and the subtraction, the division and the addition each round. -/
def axisDouble (sum kernel stride : Nat) : Option ℚ :=
  (divDouble (subDouble (toDouble (sum : ℚ)) (toDouble (kernel : ℚ)))
    (toDouble (stride : ℚ))).map fun w => addDouble w 1

/-- The geometry of `Forward` (the `if (floor)` statement): the output width,
the output height and the offset. -/
def outputGeometry (L : MeanPooling) : Option (Nat × Nat × Nat) :=
  if L.floor then
    (axisDouble (addSz (addSz L.inputWidth L.padWLeft) L.padWRight) L.kernelWidth
      L.strideWidth).bind fun w =>
    (toSizeT ⌊w⌋).bind fun outputWidth =>
    (axisDouble (addSz (addSz L.inputHeight L.padHTop) L.padHBottom) L.kernelHeight
      L.strideHeight).bind fun h =>
    (toSizeT ⌊h⌋).bind fun outputHeight =>
    some (outputWidth, outputHeight, 0)
  else
    (axisDouble (addSz (addSz L.inputWidth L.padWLeft) L.padWRight) L.kernelWidth
      L.strideWidth).bind fun w =>
    (toSizeT ⌈w⌉).bind fun outputWidth =>
    (axisDouble (addSz (addSz L.inputHeight L.padHTop) L.padHBottom) L.kernelHeight
      L.strideHeight).bind fun h =>
    (toSizeT ⌈h⌉).bind fun outputHeight =>
    some (outputWidth, outputHeight, 1)

/-- The loop `for s: Pooling(src.slice(s), dst.slice(s))` of `Forward`. -/
def poolSlices (L : MeanPooling) (src dst : Cube) : Cube :=
  (List.range src.n_slices).foldl
    (fun out s => out.setSlice s (Pooling L (src.slice s) (out.slice s))) dst

/-- The loop `for i: padding.Forward(inputTemp.slice(i), inputPaddedTemp.slice(i))`
of `Forward`. -/
def padSlices (L : MeanPooling) (src dst : Cube) : Cube :=
  (List.range src.n_slices).foldl
    (fun out i => out.setSlice i (L.padding.Forward (src.slice i))) dst

/-- `MeanPooling::Forward`: the layer after the call and the matrix `output`. -/
def Forward (L : MeanPooling) (input : Mat) : Option (MeanPooling × Mat) :=
  let batchSize := input.n_cols
  if mulSz (mulSz L.inputWidth L.inputHeight) batchSize = 0 then none
  else
    let inSize := input.n_elem / mulSz (mulSz L.inputWidth L.inputHeight) batchSize
    let inputTemp := Cube.ofMem input.mem L.inputWidth L.inputHeight (mulSz batchSize inSize)
    (outputGeometry L).bind fun geo =>
    let outputTemp0 := Cube.zeros geo.1 geo.2.1 (mulSz batchSize inSize)
    let inputPaddedTemp :=
      if L.isPadded then
        padSlices L inputTemp
          (Cube.zeros (addSz (addSz inputTemp.n_rows L.padWLeft) L.padWRight)
            (addSz (addSz inputTemp.n_cols L.padHTop) L.padHBottom) inputTemp.n_slices)
      else L.inputPaddedTemp
    let outputTemp :=
      if L.isPadded then poolSlices L inputPaddedTemp outputTemp0
      else poolSlices L inputTemp outputTemp0
    some
      ({ L with
          batchSize := batchSize
          inSize := inSize
          inputTemp := inputTemp
          offset := geo.2.2
          inputPaddedTemp := inputPaddedTemp
          outputTemp := outputTemp
          outputWidth := outputTemp.n_rows
          outputHeight := outputTemp.n_cols
          outSize := mulSz batchSize inSize },
        Mat.ofMem outputTemp.mem (outputTemp.n_elem / batchSize) batchSize)

/-- The loop `for s: Unpooling(..., mappedError.slice(s), gTemp.slice(s))` of
`Backward`. -/
def unpoolSlices (L : MeanPooling) (mappedError gTemp : Cube) : Cube :=
  (List.range mappedError.n_slices).foldl
    (fun g s =>
      if L.isPadded then
        g.setSlice s (Unpooling L (L.inputPaddedTemp.slice s) (mappedError.slice s) (g.slice s))
      else
        g.setSlice s (Unpooling L (L.inputTemp.slice s) (mappedError.slice s) (g.slice s)))
    gTemp

/-- `MeanPooling::Backward`: the layer after the call and the matrix `g`; the
first argument of the source is unused there as well. -/
def Backward (L : MeanPooling) (_input gy : Mat) : Option (MeanPooling × Mat) :=
  let mappedError := Cube.ofMem gy.mem L.outputWidth L.outputHeight L.outSize
  let gTemp := unpoolSlices L mappedError
    (Cube.zeros L.inputTemp.n_rows L.inputTemp.n_cols L.inputTemp.n_slices)
  if L.batchSize = 0 then none
  else some ({ L with gTemp := gTemp }, Mat.ofMem gTemp.mem (gTemp.n_elem / L.batchSize) L.batchSize)

/-! ## Rounding to binary64 -/

theorem roundEven_intCast (z : ℤ) : roundEven (z : ℚ) = z := by
  unfold roundEven
  simp

theorem roundEven_abs_sub_le (q : ℚ) : |((roundEven q : ℤ) : ℚ) - q| ≤ 1 / 2 := by
  have h0 : (⌊q⌋ : ℚ) ≤ q := Int.floor_le q
  have h1 : q < (⌊q⌋ : ℚ) + 1 := Int.lt_floor_add_one q
  unfold roundEven
  rw [abs_le]
  split_ifs with a b c
  · constructor <;> linarith
  · push_cast; constructor <;> linarith
  · constructor <;> linarith
  · push_cast; constructor <;> linarith

theorem toDouble_zero : toDouble 0 = 0 := by
  unfold toDouble
  simp

/-- The relative error of one rounding is at most `2^-53`. -/
theorem toDouble_abs_sub_le (x : ℚ) : |toDouble x - x| ≤ |x| / 2 ^ 53 := by
  by_cases hx : x = 0
  · subst hx
    simp [toDouble_zero]
  · have hpos : 0 < |x| := abs_pos.mpr hx
    have hu : (0 : ℚ) < (2 : ℚ) ^ (Int.log 2 |x| - 52) := zpow_pos (by norm_num) _
    have hlog : ((2 : ℕ) : ℚ) ^ Int.log 2 |x| ≤ |x| := Int.zpow_log_le_self (by norm_num) hpos
    have hr := roundEven_abs_sub_le (x / (2 : ℚ) ^ (Int.log 2 |x| - 52))
    unfold toDouble
    rw [if_neg hx]
    have e1 : ((roundEven (x / (2 : ℚ) ^ (Int.log 2 |x| - 52)) : ℤ) : ℚ) *
        (2 : ℚ) ^ (Int.log 2 |x| - 52) - x =
        (((roundEven (x / (2 : ℚ) ^ (Int.log 2 |x| - 52)) : ℤ) : ℚ) -
          x / (2 : ℚ) ^ (Int.log 2 |x| - 52)) * (2 : ℚ) ^ (Int.log 2 |x| - 52) := by
      field_simp
    rw [e1, abs_mul, abs_of_pos hu]
    have e2 : (2 : ℚ) ^ (Int.log 2 |x| - 52) = (2 : ℚ) ^ Int.log 2 |x| / 2 ^ 52 := by
      rw [zpow_sub₀ (by norm_num : (2 : ℚ) ≠ 0)]
      norm_num
    have hlog' : (2 : ℚ) ^ Int.log 2 |x| ≤ |x| := by exact_mod_cast hlog
    calc |((roundEven (x / (2 : ℚ) ^ (Int.log 2 |x| - 52)) : ℤ) : ℚ) -
          x / (2 : ℚ) ^ (Int.log 2 |x| - 52)| * (2 : ℚ) ^ (Int.log 2 |x| - 52)
        ≤ 1 / 2 * (2 : ℚ) ^ (Int.log 2 |x| - 52) := mul_le_mul_of_nonneg_right hr hu.le
      _ = (2 : ℚ) ^ Int.log 2 |x| / 2 ^ 53 := by rw [e2]; ring
      _ ≤ |x| / 2 ^ 53 := div_le_div_of_nonneg_right hlog' (by norm_num)

/-- Integers of magnitude below `2^53` are binary64 values. -/
theorem toDouble_intCast (z : ℤ) (hz : |z| < 2 ^ 53) : toDouble (z : ℚ) = (z : ℚ) := by
  by_cases h0 : z = 0
  · subst h0
    simp [toDouble_zero]
  · have hzq : (z : ℚ) ≠ 0 := by exact_mod_cast h0
    have habs : |(z : ℚ)| = ((z.natAbs : ℕ) : ℚ) := by
      rw [Nat.cast_natAbs, Int.cast_abs]
    have hn0 : z.natAbs ≠ 0 := Int.natAbs_ne_zero.mpr h0
    have hnlt : z.natAbs < 2 ^ 53 := by
      have : ((z.natAbs : ℕ) : ℤ) < 2 ^ 53 := by rw [← Int.abs_eq_natAbs]; exact hz
      exact_mod_cast this
    have hlog : Int.log 2 |(z : ℚ)| = (Nat.log 2 z.natAbs : ℤ) := by
      rw [habs]; exact Int.log_natCast 2 _
    have hle : Nat.log 2 z.natAbs ≤ 52 := by
      have := (Nat.lt_pow_iff_log_lt (by norm_num : 1 < 2) hn0).mp hnlt
      omega
    unfold toDouble
    rw [if_neg hzq, hlog]
    obtain ⟨t, ht⟩ : ∃ t : ℕ, Nat.log 2 z.natAbs + t = 52 := ⟨52 - Nat.log 2 z.natAbs, by omega⟩
    have hexp : ((Nat.log 2 z.natAbs : ℕ) : ℤ) - 52 = -(t : ℤ) := by omega
    rw [hexp, zpow_neg, zpow_natCast, div_inv_eq_mul]
    have hint : (z : ℚ) * (2 : ℚ) ^ t = ((z * 2 ^ t : ℤ) : ℚ) := by push_cast; ring
    rw [hint, roundEven_intCast]
    push_cast
    field_simp

theorem toDouble_natCast (n : ℕ) (hn : n < 2 ^ 53) : toDouble (n : ℚ) = (n : ℚ) := by
  have h := toDouble_intCast (n : ℤ) (by
    rw [abs_of_nonneg (Int.natCast_nonneg n)]
    exact_mod_cast hn)
  simpa using h

/-- Below `2^50` the two roundings of `d / s + 1` do not move its floor or its
ceiling. -/
theorem double_quot_exact (d : ℤ) (s : ℕ) (hs : 1 ≤ s) (hd : |d| < 2 ^ 50) (hs2 : s < 2 ^ 50) :
    ⌊toDouble (toDouble ((d : ℚ) / (s : ℚ)) + 1)⌋ = ⌊(d : ℚ) / (s : ℚ)⌋ + 1 ∧
    ⌈toDouble (toDouble ((d : ℚ) / (s : ℚ)) + 1)⌉ = ⌈(d : ℚ) / (s : ℚ)⌉ + 1 := by
  have hs0 : (0 : ℚ) < (s : ℚ) := by exact_mod_cast hs
  have hs1 : (1 : ℚ) ≤ (s : ℚ) := by exact_mod_cast hs
  have hsb : (s : ℚ) < 2 ^ 50 := by exact_mod_cast hs2
  have hdb : |(d : ℚ)| < 2 ^ 50 := by
    have : ((|d| : ℤ) : ℚ) < ((2 ^ 50 : ℤ) : ℚ) := by exact_mod_cast hd
    simpa using this
  have hxs : (d : ℚ) / (s : ℚ) * (s : ℚ) = (d : ℚ) := div_mul_cancel₀ _ hs0.ne'
  have habs : |(d : ℚ) / (s : ℚ)| * (s : ℚ) = |(d : ℚ)| := by
    rw [abs_div, abs_of_pos hs0]; exact div_mul_cancel₀ _ hs0.ne'
  have hxle : |(d : ℚ) / (s : ℚ)| ≤ |(d : ℚ)| := by
    rw [abs_div, abs_of_pos hs0]; exact div_le_self (abs_nonneg _) hs1
  have hfl : (⌊(d : ℚ) / (s : ℚ)⌋ : ℚ) ≤ (d : ℚ) / (s : ℚ) := Int.floor_le _
  have hfl2 : (d : ℚ) / (s : ℚ) < (⌊(d : ℚ) / (s : ℚ)⌋ : ℚ) + 1 := Int.lt_floor_add_one _
  by_cases hint : ((⌊(d : ℚ) / (s : ℚ)⌋ : ℤ) : ℚ) = (d : ℚ) / (s : ℚ)
  · -- the quotient is an integer
    have hnb : |⌊(d : ℚ) / (s : ℚ)⌋| < 2 ^ 50 := by
      have : |((⌊(d : ℚ) / (s : ℚ)⌋ : ℤ) : ℚ)| < 2 ^ 50 := by
        rw [hint]; exact lt_of_le_of_lt hxle hdb
      have h2 : ((|⌊(d : ℚ) / (s : ℚ)⌋| : ℤ) : ℚ) < ((2 ^ 50 : ℤ) : ℚ) := by
        push_cast; exact this
      exact_mod_cast h2
    have hnb1 : |⌊(d : ℚ) / (s : ℚ)⌋ + 1| < 2 ^ 53 := by
      have := abs_add (⌊(d : ℚ) / (s : ℚ)⌋) 1
      have h1 : |(1 : ℤ)| = 1 := abs_one
      omega
    have hnb0 : |⌊(d : ℚ) / (s : ℚ)⌋| < 2 ^ 53 := by omega
    have e1 : toDouble ((d : ℚ) / (s : ℚ)) = ((⌊(d : ℚ) / (s : ℚ)⌋ : ℤ) : ℚ) := by
      calc toDouble ((d : ℚ) / (s : ℚ)) = toDouble ((⌊(d : ℚ) / (s : ℚ)⌋ : ℤ) : ℚ) := by
            rw [hint]
        _ = ((⌊(d : ℚ) / (s : ℚ)⌋ : ℤ) : ℚ) := toDouble_intCast _ hnb0
    have e2 : toDouble (((⌊(d : ℚ) / (s : ℚ)⌋ : ℤ) : ℚ) + 1) =
        ((⌊(d : ℚ) / (s : ℚ)⌋ + 1 : ℤ) : ℚ) := by
      have := toDouble_intCast _ hnb1
      push_cast at this ⊢
      exact this
    rw [e1, e2, Int.floor_intCast, Int.ceil_intCast]
    refine ⟨rfl, ?_⟩
    rw [← hint, Int.ceil_intCast, hint]
  · -- the quotient is not an integer: it keeps a distance `1 / s` from the integers
    have hlt : (⌊(d : ℚ) / (s : ℚ)⌋ : ℚ) < (d : ℚ) / (s : ℚ) := lt_of_le_of_ne hfl hint
    have hlo : (⌊(d : ℚ) / (s : ℚ)⌋ : ℚ) + 1 / (s : ℚ) ≤ (d : ℚ) / (s : ℚ) := by
      have h1 : (⌊(d : ℚ) / (s : ℚ)⌋ : ℚ) * (s : ℚ) < (d : ℚ) := by
        calc (⌊(d : ℚ) / (s : ℚ)⌋ : ℚ) * (s : ℚ) < (d : ℚ) / (s : ℚ) * (s : ℚ) :=
              mul_lt_mul_of_pos_right hlt hs0
          _ = (d : ℚ) := hxs
      have h2 : ⌊(d : ℚ) / (s : ℚ)⌋ * (s : ℤ) < d := by exact_mod_cast h1
      have h3 : ⌊(d : ℚ) / (s : ℚ)⌋ * (s : ℤ) + 1 ≤ d := h2
      have h4 : (⌊(d : ℚ) / (s : ℚ)⌋ : ℚ) * (s : ℚ) + 1 ≤ (d : ℚ) := by exact_mod_cast h3
      rw [le_div_iff₀ hs0, add_mul, one_div, inv_mul_cancel₀ hs0.ne']
      exact h4
    have hhi : (d : ℚ) / (s : ℚ) ≤ (⌊(d : ℚ) / (s : ℚ)⌋ : ℚ) + 1 - 1 / (s : ℚ) := by
      have h1 : (d : ℚ) < ((⌊(d : ℚ) / (s : ℚ)⌋ : ℚ) + 1) * (s : ℚ) := by
        calc (d : ℚ) = (d : ℚ) / (s : ℚ) * (s : ℚ) := hxs.symm
          _ < ((⌊(d : ℚ) / (s : ℚ)⌋ : ℚ) + 1) * (s : ℚ) := mul_lt_mul_of_pos_right hfl2 hs0
      have h2 : d < (⌊(d : ℚ) / (s : ℚ)⌋ + 1) * (s : ℤ) := by exact_mod_cast h1
      have h3 : d + 1 ≤ (⌊(d : ℚ) / (s : ℚ)⌋ + 1) * (s : ℤ) := h2
      have h4 : (d : ℚ) + 1 ≤ ((⌊(d : ℚ) / (s : ℚ)⌋ : ℚ) + 1) * (s : ℚ) := by exact_mod_cast h3
      rw [div_le_iff₀ hs0, sub_mul, one_div, inv_mul_cancel₀ hs0.ne']
      linarith
    -- the two rounding errors
    have E1 := toDouble_abs_sub_le ((d : ℚ) / (s : ℚ))
    have E2 := toDouble_abs_sub_le (toDouble ((d : ℚ) / (s : ℚ)) + 1)
    have hane : (0 : ℚ) ≤ |(d : ℚ) / (s : ℚ)| := abs_nonneg _
    have hq : |toDouble ((d : ℚ) / (s : ℚ))| ≤ 2 * |(d : ℚ) / (s : ℚ)| := by
      have h1 : |toDouble ((d : ℚ) / (s : ℚ))| ≤
          |toDouble ((d : ℚ) / (s : ℚ)) - (d : ℚ) / (s : ℚ)| + |(d : ℚ) / (s : ℚ)| := by
        have := abs_add (toDouble ((d : ℚ) / (s : ℚ)) - (d : ℚ) / (s : ℚ)) ((d : ℚ) / (s : ℚ))
        simpa using this
      have h2 : |(d : ℚ) / (s : ℚ)| / 2 ^ 53 ≤ |(d : ℚ) / (s : ℚ)| :=
        div_le_self hane (by norm_num)
      linarith
    have hq1 : |toDouble ((d : ℚ) / (s : ℚ)) + 1| ≤ 2 * |(d : ℚ) / (s : ℚ)| + 1 := by
      have := abs_add (toDouble ((d : ℚ) / (s : ℚ))) 1
      have h1 : |(1 : ℚ)| = 1 := abs_one
      linarith
    have herr : |toDouble (toDouble ((d : ℚ) / (s : ℚ)) + 1) - ((d : ℚ) / (s : ℚ) + 1)| ≤
        (3 * |(d : ℚ) / (s : ℚ)| + 1) / 2 ^ 53 := by
      have h1 : toDouble (toDouble ((d : ℚ) / (s : ℚ)) + 1) - ((d : ℚ) / (s : ℚ) + 1) =
          (toDouble (toDouble ((d : ℚ) / (s : ℚ)) + 1) - (toDouble ((d : ℚ) / (s : ℚ)) + 1)) +
          (toDouble ((d : ℚ) / (s : ℚ)) - (d : ℚ) / (s : ℚ)) := by ring
      rw [h1]
      have h2 := abs_add
        (toDouble (toDouble ((d : ℚ) / (s : ℚ)) + 1) - (toDouble ((d : ℚ) / (s : ℚ)) + 1))
        (toDouble ((d : ℚ) / (s : ℚ)) - (d : ℚ) / (s : ℚ))
      have h3 : |toDouble ((d : ℚ) / (s : ℚ)) + 1| / 2 ^ 53 ≤
          (2 * |(d : ℚ) / (s : ℚ)| + 1) / 2 ^ 53 :=
        div_le_div_of_nonneg_right hq1 (by norm_num)
      have h4 : (3 * |(d : ℚ) / (s : ℚ)| + 1) / 2 ^ 53 =
          (2 * |(d : ℚ) / (s : ℚ)| + 1) / 2 ^ 53 + |(d : ℚ) / (s : ℚ)| / 2 ^ 53 := by ring
      linarith
    have hsmall : (3 * |(d : ℚ) / (s : ℚ)| + 1) / 2 ^ 53 < 1 / (s : ℚ) := by
      rw [div_lt_div_iff₀ (by norm_num) hs0]
      have h1 : (3 * |(d : ℚ) / (s : ℚ)| + 1) * (s : ℚ) = 3 * |(d : ℚ)| + (s : ℚ) := by
        rw [← habs]; ring
      have c50 : (2 : ℚ) ^ 50 = 1125899906842624 := by norm_num
      have c53 : (2 : ℚ) ^ 53 = 9007199254740992 := by norm_num
      rw [h1, c53]
      rw [c50] at hdb hsb
      linarith
    have hb := abs_le.mp (le_trans herr hsmall.le)
    have hb' := abs_lt.mp (lt_of_le_of_lt herr hsmall)
    have plo : ((⌊(d : ℚ) / (s : ℚ)⌋ : ℚ) + 1) <
        toDouble (toDouble ((d : ℚ) / (s : ℚ)) + 1) := by linarith [hb'.1]
    have phi : toDouble (toDouble ((d : ℚ) / (s : ℚ)) + 1) <
        ((⌊(d : ℚ) / (s : ℚ)⌋ : ℚ) + 1) + 1 := by linarith [hb'.2]
    constructor
    · rw [Int.floor_eq_iff]
      push_cast
      exact ⟨plo.le, phi⟩
    · have hc : ⌈(d : ℚ) / (s : ℚ)⌉ = ⌊(d : ℚ) / (s : ℚ)⌋ + 1 := by
        rw [Int.ceil_eq_iff]
        push_cast
        constructor <;> linarith
      rw [hc, Int.ceil_eq_iff]
      push_cast
      constructor <;> linarith

theorem axisDouble_stride_ne_zero {N k s : Nat} {w : ℚ} (h : axisDouble N k s = some w) :
    s ≠ 0 := by
  intro hs
  subst hs
  simp [axisDouble, divDouble, toDouble_zero] at h

/-- With all three operands below `2^50` the rounded expression has the floor
and the ceiling of the exact quotient plus one. -/
theorem axisDouble_exact (N k s : Nat) (hs : 1 ≤ s) (hN : N < 2 ^ 50) (hk : k < 2 ^ 50)
    (hs2 : s < 2 ^ 50) :
    ∃ w, axisDouble N k s = some w ∧
      ⌊w⌋ = ⌊((N : ℚ) - (k : ℚ)) / (s : ℚ)⌋ + 1 ∧
      ⌈w⌉ = ⌈((N : ℚ) - (k : ℚ)) / (s : ℚ)⌉ + 1 := by
  have hs0 : (s : ℚ) ≠ 0 := by
    have : (0 : ℚ) < (s : ℚ) := by exact_mod_cast hs
    exact this.ne'
  have hd : |(N : ℤ) - (k : ℤ)| < 2 ^ 50 := by
    rw [abs_lt]; constructor <;> omega
  have hd3 : |(N : ℤ) - (k : ℤ)| < 2 ^ 53 := by omega
  have ed : ((N : ℚ) - (k : ℚ)) = (((N : ℤ) - (k : ℤ) : ℤ) : ℚ) := by push_cast; ring
  refine ⟨toDouble (toDouble (((N : ℚ) - (k : ℚ)) / (s : ℚ)) + 1), ?_, ?_⟩
  · unfold axisDouble divDouble subDouble addDouble
    rw [toDouble_natCast N (by omega), toDouble_natCast k (by omega),
      toDouble_natCast s (by omega), if_neg hs0, ed, toDouble_intCast _ hd3]
    rfl
  · rw [ed]
    exact double_quot_exact _ s hs hd hs2

/-! ## Shapes are preserved by the slice loops -/

theorem foldl_setSlice_shape (f : Cube → Nat → Mat) (l : List Nat) (dst : Cube) :
    (l.foldl (fun out s => out.setSlice s (f out s)) dst).n_rows = dst.n_rows ∧
    (l.foldl (fun out s => out.setSlice s (f out s)) dst).n_cols = dst.n_cols ∧
    (l.foldl (fun out s => out.setSlice s (f out s)) dst).n_slices = dst.n_slices := by
  induction l generalizing dst with
  | nil => simp
  | cons a t ih =>
    simp only [List.foldl_cons]
    have h := ih (dst.setSlice a (f dst a))
    simpa [Cube.setSlice] using h

theorem poolSlices_shape (L : MeanPooling) (src dst : Cube) :
    (poolSlices L src dst).n_rows = dst.n_rows ∧
    (poolSlices L src dst).n_cols = dst.n_cols ∧
    (poolSlices L src dst).n_slices = dst.n_slices :=
  foldl_setSlice_shape (fun out s => Pooling L (src.slice s) (out.slice s)) _ dst

theorem Forward_spec {L : MeanPooling} {input : Mat} {st : MeanPooling} {out : Mat}
    (h : Forward L input = some (st, out)) :
    mulSz (mulSz L.inputWidth L.inputHeight) input.n_cols ≠ 0 ∧
    ∃ geo, outputGeometry L = some geo ∧
      st.outputWidth = geo.1 ∧ st.outputHeight = geo.2.1 ∧ st.offset = geo.2.2 ∧
      st.batchSize = input.n_cols ∧
      st.inSize = input.n_elem / mulSz (mulSz L.inputWidth L.inputHeight) input.n_cols ∧
      st.outSize = mulSz input.n_cols st.inSize ∧
      st.inputTemp = Cube.ofMem input.mem L.inputWidth L.inputHeight st.outSize ∧
      st.isPadded = L.isPadded ∧
      out.n_rows = geo.1 * geo.2.1 * st.outSize / input.n_cols ∧
      out.n_cols = input.n_cols := by
  unfold Forward at h
  by_cases hd : mulSz (mulSz L.inputWidth L.inputHeight) input.n_cols = 0
  · simp [hd] at h
  · refine ⟨hd, ?_⟩
    simp only [hd, if_false, Option.bind_eq_some] at h
    obtain ⟨geo, hg, h⟩ := h
    refine ⟨geo, hg, ?_⟩
    simp only [Option.some.injEq, Prod.mk.injEq] at h
    obtain ⟨rfl, rfl⟩ := h
    by_cases hp : L.isPadded = true <;>
      simp [hp, poolSlices_shape, Cube.zeros, Cube.n_elem, Mat.ofMem]

theorem Forward_isSome {L : MeanPooling} (input : Mat) {geo : Nat × Nat × Nat}
    (hd : mulSz (mulSz L.inputWidth L.inputHeight) input.n_cols ≠ 0)
    (hg : outputGeometry L = some geo) :
    ∃ st out, Forward L input = some (st, out) := by
  unfold Forward
  simp [hd, hg]

/-! ## Machine arithmetic without overflow -/

theorem addSz_of_lt {a b : Nat} (h : a + b < 2 ^ 64) : addSz a b = a + b := by
  unfold addSz sizeMod
  exact Nat.mod_eq_of_lt h

theorem mulSz_of_lt {a b : Nat} (h : a * b < 2 ^ 64) : mulSz a b = a * b := by
  unfold mulSz sizeMod
  exact Nat.mod_eq_of_lt h

theorem subSz_of_le {a b : Nat} (ha : a < 2 ^ 64) (h : b ≤ a) : subSz a b = a - b := by
  unfold subSz sizeMod
  have hb : b < 2 ^ 64 := lt_of_le_of_lt h ha
  rw [Nat.mod_eq_of_lt ha, Nat.mod_eq_of_lt hb]
  have : a + 2 ^ 64 - b = (a - b) + 2 ^ 64 := by omega
  rw [this, Nat.add_mod_right]
  exact Nat.mod_eq_of_lt (by omega)

theorem toSizeT_natCast {n : Nat} (h : n < 2 ^ 64) : toSizeT (n : ℤ) = some n := by
  unfold toSizeT sizeMod
  have h2 : ((n : ℤ)) < ((2 ^ 64 : ℕ) : ℤ) := by exact_mod_cast h
  rw [if_pos ⟨Int.natCast_nonneg n, h2⟩, Int.toNat_natCast]

theorem toSizeT_eq_some {z : ℤ} {n : Nat} (h : toSizeT z = some n) :
    z = (n : ℤ) ∧ n < 2 ^ 64 := by
  unfold toSizeT sizeMod at h
  split_ifs at h with hz
  · simp only [Option.some.injEq] at h
    have h1 : ((z.toNat : ℕ) : ℤ) = z := Int.toNat_of_nonneg hz.1
    subst h
    refine ⟨h1.symm, ?_⟩
    have : ((z.toNat : ℕ) : ℤ) < ((2 ^ 64 : ℕ) : ℤ) := by rw [h1]; exact hz.2
    exact_mod_cast this

/-! ## The geometry of `Forward` -/

theorem floor_quot_bounds (N k s : Nat) (hs : 1 ≤ s) (hk : k ≤ N) :
    0 ≤ ⌊((N : ℚ) - (k : ℚ)) / (s : ℚ)⌋ ∧ ⌊((N : ℚ) - (k : ℚ)) / (s : ℚ)⌋ ≤ ((N - k : ℕ) : ℤ) := by
  have hs0 : (0 : ℚ) < (s : ℚ) := by exact_mod_cast hs
  have hs1 : (1 : ℚ) ≤ (s : ℚ) := by exact_mod_cast hs
  have hd : (0 : ℚ) ≤ (N : ℚ) - (k : ℚ) := by
    have : (k : ℚ) ≤ (N : ℚ) := by exact_mod_cast hk
    linarith
  constructor
  · exact Int.floor_nonneg.mpr (div_nonneg hd hs0.le)
  · have h1 : ((N : ℚ) - (k : ℚ)) / (s : ℚ) ≤ (N : ℚ) - (k : ℚ) := div_le_self hd hs1
    have h3 : (N : ℚ) - (k : ℚ) = (((N - k : ℕ) : ℤ) : ℚ) := by
      push_cast [Nat.cast_sub hk]; ring
    have h2 : ⌊((N : ℚ) - (k : ℚ)) / (s : ℚ)⌋ ≤ ⌊(N : ℚ) - (k : ℚ)⌋ := Int.floor_le_floor h1
    rw [h3, Int.floor_intCast, ← h3] at h2
    exact h2

theorem ceil_quot_bounds (N k s : Nat) (hs : 1 ≤ s) (hk : k ≤ N) :
    0 ≤ ⌈((N : ℚ) - (k : ℚ)) / (s : ℚ)⌉ ∧ ⌈((N : ℚ) - (k : ℚ)) / (s : ℚ)⌉ ≤ ((N - k : ℕ) : ℤ) := by
  have hs0 : (0 : ℚ) < (s : ℚ) := by exact_mod_cast hs
  have hs1 : (1 : ℚ) ≤ (s : ℚ) := by exact_mod_cast hs
  have hd : (0 : ℚ) ≤ (N : ℚ) - (k : ℚ) := by
    have : (k : ℚ) ≤ (N : ℚ) := by exact_mod_cast hk
    linarith
  constructor
  · exact Int.ceil_nonneg (div_nonneg hd hs0.le)
  · have h1 : ((N : ℚ) - (k : ℚ)) / (s : ℚ) ≤ (N : ℚ) - (k : ℚ) := div_le_self hd hs1
    have h3 : (N : ℚ) - (k : ℚ) = (((N - k : ℕ) : ℤ) : ℚ) := by
      push_cast [Nat.cast_sub hk]; ring
    refine Int.ceil_le.mpr ?_
    rw [← h3]
    exact h1

theorem addSz_addSz_of_lt {a b c : Nat} (h : a + b + c < 2 ^ 64) :
    addSz (addSz a b) c = a + b + c := by
  rw [addSz_of_lt (show a + b < 2 ^ 64 by omega), addSz_of_lt h]

theorem addSz_addSz (a b c : Nat) : addSz (addSz a b) c = (a + b + c) % 2 ^ 64 := by
  unfold addSz sizeMod
  rw [Nat.add_mod, Nat.mod_mod, ← Nat.add_mod]

theorem addSz_addSz_le (a b c : Nat) : addSz (addSz a b) c ≤ a + b + c := by
  rw [addSz_addSz]
  exact Nat.mod_le _ _

/-- What a resolved geometry says about the two rounded axis expressions. -/
theorem outputGeometry_axes {L : MeanPooling} {geo : Nat × Nat × Nat}
    (h : outputGeometry L = some geo) :
    ∃ w hgt : ℚ,
      axisDouble (addSz (addSz L.inputWidth L.padWLeft) L.padWRight) L.kernelWidth
        L.strideWidth = some w ∧
      axisDouble (addSz (addSz L.inputHeight L.padHTop) L.padHBottom) L.kernelHeight
        L.strideHeight = some hgt ∧
      (if L.floor then ⌊w⌋ else ⌈w⌉) = (geo.1 : ℤ) ∧
      (if L.floor then ⌊hgt⌋ else ⌈hgt⌉) = (geo.2.1 : ℤ) ∧
      geo.1 < 2 ^ 64 ∧ geo.2.1 < 2 ^ 64 ∧ geo.2.2 = (if L.floor then 0 else 1) := by
  unfold outputGeometry at h
  cases hf : L.floor
  · simp only [hf, Bool.false_eq_true, if_false, Option.bind_eq_some, Option.some.injEq] at h
    obtain ⟨w, hw, ow, how, hgt, hh, oh, hoh, rfl⟩ := h
    have h1 := toSizeT_eq_some how
    have h2 := toSizeT_eq_some hoh
    refine ⟨w, hgt, hw, hh, ?_⟩
    simp only [Bool.false_eq_true, if_false]
    exact ⟨h1.1, h2.1, h1.2, h2.2, trivial⟩
  · simp only [hf, if_true, Option.bind_eq_some, Option.some.injEq] at h
    obtain ⟨w, hw, ow, how, hgt, hh, oh, hoh, rfl⟩ := h
    have h1 := toSizeT_eq_some how
    have h2 := toSizeT_eq_some hoh
    refine ⟨w, hgt, hw, hh, ?_⟩
    simp only [if_true]
    exact ⟨h1.1, h2.1, h1.2, h2.2, trivial⟩

/-- A geometry is resolved as soon as the two rounded axis expressions are
defined and their floor or ceiling is a `size_t`. -/
theorem outputGeometry_of_axes (L : MeanPooling) {w hgt : ℚ} {ow oh : Nat}
    (hw : axisDouble (addSz (addSz L.inputWidth L.padWLeft) L.padWRight) L.kernelWidth
      L.strideWidth = some w)
    (hh : axisDouble (addSz (addSz L.inputHeight L.padHTop) L.padHBottom) L.kernelHeight
      L.strideHeight = some hgt)
    (hfw : (if L.floor then ⌊w⌋ else ⌈w⌉) = (ow : ℤ))
    (hfh : (if L.floor then ⌊hgt⌋ else ⌈hgt⌉) = (oh : ℤ))
    (how : ow < 2 ^ 64) (hoh : oh < 2 ^ 64) :
    outputGeometry L = some (ow, oh, if L.floor then 0 else 1) := by
  unfold outputGeometry
  cases hf : L.floor
  · simp only [hf, Bool.false_eq_true, if_false] at hfw hfh
    simp only [hw, hh, hfw, hfh, Bool.false_eq_true, if_false, Option.some_bind,
      toSizeT_natCast how, toSizeT_natCast hoh]
  · simp only [hf, if_true] at hfw hfh
    simp only [hw, hh, hfw, hfh, if_true, Option.some_bind,
      toSizeT_natCast how, toSizeT_natCast hoh]

/-- With operands below `2^50` a resolved geometry is the floor or ceiling of
the exact expression. -/
theorem outputGeometry_spec {L : MeanPooling} {geo : Nat × Nat × Nat}
    (h : outputGeometry L = some geo)
    (hxw : addSz (addSz L.inputWidth L.padWLeft) L.padWRight < 2 ^ 50 ∧
      L.kernelWidth < 2 ^ 50 ∧ L.strideWidth < 2 ^ 50)
    (hxh : addSz (addSz L.inputHeight L.padHTop) L.padHBottom < 2 ^ 50 ∧
      L.kernelHeight < 2 ^ 50 ∧ L.strideHeight < 2 ^ 50) :
    L.strideWidth ≠ 0 ∧ L.strideHeight ≠ 0 ∧
    (if L.floor then
        ⌊(((addSz (addSz L.inputWidth L.padWLeft) L.padWRight : ℕ) : ℚ) - (L.kernelWidth : ℚ)) /
          (L.strideWidth : ℚ) + 1⌋
      else
        ⌈(((addSz (addSz L.inputWidth L.padWLeft) L.padWRight : ℕ) : ℚ) - (L.kernelWidth : ℚ)) /
          (L.strideWidth : ℚ) + 1⌉) = (geo.1 : ℤ) ∧
    (if L.floor then
        ⌊(((addSz (addSz L.inputHeight L.padHTop) L.padHBottom : ℕ) : ℚ) - (L.kernelHeight : ℚ)) /
          (L.strideHeight : ℚ) + 1⌋
      else
        ⌈(((addSz (addSz L.inputHeight L.padHTop) L.padHBottom : ℕ) : ℚ) - (L.kernelHeight : ℚ)) /
          (L.strideHeight : ℚ) + 1⌉) = (geo.2.1 : ℤ) ∧
    geo.1 < 2 ^ 64 ∧ geo.2.1 < 2 ^ 64 ∧ geo.2.2 = (if L.floor then 0 else 1) := by
  obtain ⟨w, hgt, hw, hh, hfw, hfh, how, hoh, hoff⟩ := outputGeometry_axes h
  have hsw := axisDouble_stride_ne_zero hw
  have hsh := axisDouble_stride_ne_zero hh
  obtain ⟨w2, hw2, fw, cw⟩ := axisDouble_exact _ _ _ (Nat.one_le_iff_ne_zero.mpr hsw)
    hxw.1 hxw.2.1 hxw.2.2
  obtain ⟨h2, hh2, fh, ch⟩ := axisDouble_exact _ _ _ (Nat.one_le_iff_ne_zero.mpr hsh)
    hxh.1 hxh.2.1 hxh.2.2
  rw [hw] at hw2
  rw [hh] at hh2
  obtain rfl := Option.some.inj hw2
  obtain rfl := Option.some.inj hh2
  refine ⟨hsw, hsh, ?_, ?_, how, hoh, hoff⟩
  · rw [Int.floor_add_one, Int.ceil_add_one, ← fw, ← cw]; exact hfw
  · rw [Int.floor_add_one, Int.ceil_add_one, ← fh, ← ch]; exact hfh

theorem outputGeometry_intro (L : MeanPooling) {ow oh : Nat}
    (hsw : L.strideWidth ≠ 0) (hsh : L.strideHeight ≠ 0)
    (hxw : addSz (addSz L.inputWidth L.padWLeft) L.padWRight < 2 ^ 50 ∧
      L.kernelWidth < 2 ^ 50 ∧ L.strideWidth < 2 ^ 50)
    (hxh : addSz (addSz L.inputHeight L.padHTop) L.padHBottom < 2 ^ 50 ∧
      L.kernelHeight < 2 ^ 50 ∧ L.strideHeight < 2 ^ 50)
    (hw : (if L.floor then
        ⌊(((addSz (addSz L.inputWidth L.padWLeft) L.padWRight : ℕ) : ℚ) - (L.kernelWidth : ℚ)) /
          (L.strideWidth : ℚ) + 1⌋
      else
        ⌈(((addSz (addSz L.inputWidth L.padWLeft) L.padWRight : ℕ) : ℚ) - (L.kernelWidth : ℚ)) /
          (L.strideWidth : ℚ) + 1⌉) = (ow : ℤ))
    (hh : (if L.floor then
        ⌊(((addSz (addSz L.inputHeight L.padHTop) L.padHBottom : ℕ) : ℚ) - (L.kernelHeight : ℚ)) /
          (L.strideHeight : ℚ) + 1⌋
      else
        ⌈(((addSz (addSz L.inputHeight L.padHTop) L.padHBottom : ℕ) : ℚ) - (L.kernelHeight : ℚ)) /
          (L.strideHeight : ℚ) + 1⌉) = (oh : ℤ))
    (how : ow < 2 ^ 64) (hoh : oh < 2 ^ 64) :
    outputGeometry L = some (ow, oh, if L.floor then 0 else 1) := by
  obtain ⟨w2, hw2, fw, cw⟩ := axisDouble_exact _ _ _ (Nat.one_le_iff_ne_zero.mpr hsw)
    hxw.1 hxw.2.1 hxw.2.2
  obtain ⟨h2, hh2, fh, ch⟩ := axisDouble_exact _ _ _ (Nat.one_le_iff_ne_zero.mpr hsh)
    hxh.1 hxh.2.1 hxh.2.2
  refine outputGeometry_of_axes L hw2 hh2 ?_ ?_ how hoh
  · rw [fw, cw, ← Int.floor_add_one, ← Int.ceil_add_one]; exact hw
  · rw [fh, ch, ← Int.floor_add_one, ← Int.ceil_add_one]; exact hh

theorem axis_resolve (fl : Bool) (i pb pa k s : Nat) (hs : 1 ≤ s)
    (hk : k ≤ i + pb + pa) (hN : i + pb + pa < 2 ^ 50) :
    ∃ o : ℕ, o < 2 ^ 64 ∧
      (if fl then ⌊(((addSz (addSz i pb) pa : ℕ) : ℚ) - (k : ℚ)) / (s : ℚ) + 1⌋
        else ⌈(((addSz (addSz i pb) pa : ℕ) : ℚ) - (k : ℚ)) / (s : ℚ) + 1⌉) = (o : ℤ) ∧
      (o : ℤ) =
        (if fl then ⌊(((i + pb + pa : ℕ) : ℚ) - (k : ℚ)) / (s : ℚ)⌋ + 1
          else ⌈(((i + pb + pa : ℕ) : ℚ) - (k : ℚ)) / (s : ℚ)⌉ + 1) := by
  rw [addSz_addSz_of_lt (by omega)]
  have hf := floor_quot_bounds (i + pb + pa) k s hs hk
  have hc := ceil_quot_bounds (i + pb + pa) k s hs hk
  have hle : ((i + pb + pa - k : ℕ) : ℤ) + 1 < 2 ^ 64 := by
    have : i + pb + pa - k + 1 < 2 ^ 64 := by omega
    exact_mod_cast this
  cases fl
  · refine ⟨(⌈(((i + pb + pa : ℕ) : ℚ) - (k : ℚ)) / (s : ℚ)⌉ + 1).toNat, ?_, ?_, ?_⟩
    · have : ((⌈(((i + pb + pa : ℕ) : ℚ) - (k : ℚ)) / (s : ℚ)⌉ + 1).toNat : ℤ) < 2 ^ 64 := by
        rw [Int.toNat_of_nonneg (by omega)]; omega
      exact_mod_cast this
    · simp only [Bool.false_eq_true, if_false]
      rw [Int.toNat_of_nonneg (by omega), Int.ceil_add_one]
    · simp only [Bool.false_eq_true, if_false]
      rw [Int.toNat_of_nonneg (by omega)]
  · refine ⟨(⌊(((i + pb + pa : ℕ) : ℚ) - (k : ℚ)) / (s : ℚ)⌋ + 1).toNat, ?_, ?_, ?_⟩
    · have : ((⌊(((i + pb + pa : ℕ) : ℚ) - (k : ℚ)) / (s : ℚ)⌋ + 1).toNat : ℤ) < 2 ^ 64 := by
        rw [Int.toNat_of_nonneg (by omega)]; omega
      exact_mod_cast this
    · simp only [if_true]
      rw [Int.toNat_of_nonneg (by omega), Int.floor_add_one]
    · simp only [if_true]
      rw [Int.toNat_of_nonneg (by omega)]

theorem Forward_resolves (L : MeanPooling) (input : Mat)
    (hsw : 1 ≤ L.strideWidth) (hsh : 1 ≤ L.strideHeight)
    (hkw : L.kernelWidth ≤ L.inputWidth + L.padWLeft + L.padWRight)
    (hkh : L.kernelHeight ≤ L.inputHeight + L.padHTop + L.padHBottom)
    (hW : L.inputWidth + L.padWLeft + L.padWRight < 2 ^ 50)
    (hH : L.inputHeight + L.padHTop + L.padHBottom < 2 ^ 50)
    (hSW : L.strideWidth < 2 ^ 50) (hSH : L.strideHeight < 2 ^ 50)
    (hin : mulSz (mulSz L.inputWidth L.inputHeight) input.n_cols ≠ 0) :
    ∃ st out, Forward L input = some (st, out) ∧
      (st.outputWidth : ℤ) =
        (if L.floor then
          ⌊(((L.inputWidth + L.padWLeft + L.padWRight : ℕ) : ℚ) - (L.kernelWidth : ℚ)) /
            (L.strideWidth : ℚ)⌋ + 1
        else
          ⌈(((L.inputWidth + L.padWLeft + L.padWRight : ℕ) : ℚ) - (L.kernelWidth : ℚ)) /
            (L.strideWidth : ℚ)⌉ + 1) ∧
      (st.outputHeight : ℤ) =
        (if L.floor then
          ⌊(((L.inputHeight + L.padHTop + L.padHBottom : ℕ) : ℚ) - (L.kernelHeight : ℚ)) /
            (L.strideHeight : ℚ)⌋ + 1
        else
          ⌈(((L.inputHeight + L.padHTop + L.padHBottom : ℕ) : ℚ) - (L.kernelHeight : ℚ)) /
            (L.strideHeight : ℚ)⌉ + 1) := by
  obtain ⟨ow, how, hw1, hw2⟩ := axis_resolve L.floor L.inputWidth L.padWLeft L.padWRight
    L.kernelWidth L.strideWidth hsw hkw hW
  obtain ⟨oh, hoh, hh1, hh2⟩ := axis_resolve L.floor L.inputHeight L.padHTop L.padHBottom
    L.kernelHeight L.strideHeight hsh hkh hH
  have bw := addSz_addSz_le L.inputWidth L.padWLeft L.padWRight
  have bh := addSz_addSz_le L.inputHeight L.padHTop L.padHBottom
  have hg := outputGeometry_intro L (by omega) (by omega)
    ⟨by omega, by omega, hSW⟩ ⟨by omega, by omega, hSH⟩ hw1 hh1 how hoh
  obtain ⟨st, out, hF⟩ := Forward_isSome input hin hg
  obtain ⟨-, geo, hg2, hgw, hgh, -⟩ := Forward_spec hF
  rw [hg] at hg2
  obtain rfl := Option.some.inj hg2
  simp only at hgw hgh
  refine ⟨st, out, hF, ?_, ?_⟩
  · rw [hgw]; exact hw2
  · rw [hgh]; exact hh2

theorem Forward_height_of_agree {L L2 : MeanPooling} {in1 in2 : Mat} {st st2 : MeanPooling}
    {out out2 : Mat} (hF : Forward L in1 = some (st, out)) (hF2 : Forward L2 in2 = some (st2, out2))
    (e1 : L2.floor = L.floor) (e2 : L2.inputHeight = L.inputHeight) (e3 : L2.padHTop = L.padHTop)
    (e4 : L2.padHBottom = L.padHBottom) (e5 : L2.kernelHeight = L.kernelHeight)
    (e6 : L2.strideHeight = L.strideHeight) : st2.outputHeight = st.outputHeight := by
  obtain ⟨-, geo, hg, -, hgh, -⟩ := Forward_spec hF
  obtain ⟨-, geo2, hg2, -, hgh2, -⟩ := Forward_spec hF2
  obtain ⟨w, hgt, -, hh, -, hfh, -⟩ := outputGeometry_axes hg
  obtain ⟨w2, hgt2, -, hh2, -, hfh2, -⟩ := outputGeometry_axes hg2
  rw [e2, e3, e4, e5, e6, hh] at hh2
  obtain rfl := Option.some.inj hh2
  rw [e1, hfh] at hfh2
  rw [hgh2, hgh]
  exact_mod_cast hfh2.symm

theorem Forward_width_of_agree {L L2 : MeanPooling} {in1 in2 : Mat} {st st2 : MeanPooling}
    {out out2 : Mat} (hF : Forward L in1 = some (st, out)) (hF2 : Forward L2 in2 = some (st2, out2))
    (e1 : L2.floor = L.floor) (e2 : L2.inputWidth = L.inputWidth) (e3 : L2.padWLeft = L.padWLeft)
    (e4 : L2.padWRight = L.padWRight) (e5 : L2.kernelWidth = L.kernelWidth)
    (e6 : L2.strideWidth = L.strideWidth) : st2.outputWidth = st.outputWidth := by
  obtain ⟨-, geo, hg, hgw, -⟩ := Forward_spec hF
  obtain ⟨-, geo2, hg2, hgw2, -⟩ := Forward_spec hF2
  obtain ⟨w, hgt, hw, -, hfw, -⟩ := outputGeometry_axes hg
  obtain ⟨w2, hgt2, hw2, -, hfw2, -⟩ := outputGeometry_axes hg2
  rw [e2, e3, e4, e5, e6, hw] at hw2
  obtain rfl := Option.some.inj hw2
  rw [e1, hfw] at hfw2
  rw [hgw2, hgw]
  exact_mod_cast hfw2.symm

/-! ## Rounding above `2^53` -/

/-- The integer `2^53 + 1` lies halfway between two neighbouring doubles and is
rounded to the even one, `2^53`. -/
theorem toDouble_two_pow_53_succ : toDouble ((2 ^ 53 + 1 : ℕ) : ℚ) = (2 : ℚ) ^ 53 := by
  have hlog : Int.log 2 |((2 ^ 53 + 1 : ℕ) : ℚ)| = 53 := by
    rw [Nat.abs_cast, Int.log_natCast,
      Nat.log_eq_of_pow_le_of_lt_pow (show 2 ^ 53 ≤ 2 ^ 53 + 1 by norm_num)
        (show 2 ^ 53 + 1 < 2 ^ (53 + 1) by norm_num)]
    rfl
  have hne : ((2 ^ 53 + 1 : ℕ) : ℚ) ≠ 0 := by norm_num
  have hq : ((2 ^ 53 + 1 : ℕ) : ℚ) / (2 : ℚ) ^ ((53 : ℤ) - 52) = 4503599627370496 + 1 / 2 := by
    norm_num
  have hfl : ⌊(4503599627370496 + 1 / 2 : ℚ)⌋ = 4503599627370496 := by
    rw [Int.floor_eq_iff]; norm_num
  unfold toDouble
  rw [if_neg hne, hlog, hq]
  unfold roundEven
  rw [hfl]
  norm_num

/-- The power `2^53` is a double. -/
theorem toDouble_two_pow_53 : toDouble ((2 : ℚ) ^ 53) = (2 : ℚ) ^ 53 := by
  have hlog : Int.log 2 |((2 : ℚ) ^ 53)| = 53 := by
    have e : ((2 : ℚ) ^ 53) = (((2 ^ 53 : ℕ) : ℕ) : ℚ) := by norm_num
    rw [e, Nat.abs_cast, Int.log_natCast,
      Nat.log_eq_of_pow_le_of_lt_pow (show 2 ^ 53 ≤ 2 ^ 53 by norm_num)
        (show 2 ^ 53 < 2 ^ (53 + 1) by norm_num)]
    rfl
  have hne : ((2 : ℚ) ^ 53) ≠ 0 := by norm_num
  have hq : ((2 : ℚ) ^ 53) / (2 : ℚ) ^ ((53 : ℤ) - 52) = ((4503599627370496 : ℤ) : ℚ) := by
    norm_num
  unfold toDouble
  rw [if_neg hne, hlog, hq, roundEven_intCast]
  norm_num

/-- The axis expression at extent `2^53 + 1`, kernel 1, stride 1: the extent is
rounded to `2^53` when it is converted, and the result is `2^53`. -/
theorem axisDouble_two_pow_53_succ : axisDouble (2 ^ 53 + 1) 1 1 = some ((2 : ℚ) ^ 53) := by
  have h1 : toDouble ((1 : ℕ) : ℚ) = ((1 : ℕ) : ℚ) := toDouble_natCast 1 (by norm_num)
  have hsub : toDouble ((2 : ℚ) ^ 53 - ((1 : ℕ) : ℚ)) = (2 : ℚ) ^ 53 - 1 := by
    have e : (2 : ℚ) ^ 53 - ((1 : ℕ) : ℚ) = (((2 ^ 53 - 1 : ℤ) : ℤ) : ℚ) := by norm_num
    rw [e, toDouble_intCast _ (by norm_num)]
    norm_num
  unfold axisDouble divDouble subDouble addDouble
  rw [toDouble_two_pow_53_succ, h1, hsub]
  have hne : ¬ (((1 : ℕ) : ℚ) = 0) := by norm_num
  rw [if_neg hne]
  have hdiv : ((2 : ℚ) ^ 53 - 1) / ((1 : ℕ) : ℚ) = (2 : ℚ) ^ 53 - 1 := by norm_num
  rw [hdiv]
  have hsub2 : toDouble ((2 : ℚ) ^ 53 - 1) = (2 : ℚ) ^ 53 - 1 := by
    have e : (2 : ℚ) ^ 53 - 1 = (((2 ^ 53 - 1 : ℤ) : ℤ) : ℚ) := by norm_num
    rw [e, toDouble_intCast _ (by norm_num)]
  rw [hsub2]
  simp only [Option.map_some']
  have e2 : (2 : ℚ) ^ 53 - 1 + 1 = (2 : ℚ) ^ 53 := by ring
  rw [e2, toDouble_two_pow_53]

/-- C1 (amended): for every configuration with strides at least 1 and below
`2^50`, kernels at most `input + padBefore + padAfter` on each axis, and padded
extents `input + padBefore + padAfter` below `2^50` (where the `size_t` sum does
not wrap and the binary64 arithmetic of the expression is exact up to the floor
or ceiling), `Forward` (on an input for which the channel-count divisor is
non-zero) sets
`outputWidth = floor((inputWidth + padWLeft + padWRight - kernelWidth) / strideWidth) + 1`
when the floor flag is set and the same with `ceil` when it is not (exact
rational division), and `outputHeight` by the same formula from the height-axis
values; any other layer that agrees on the floor flag and the height-axis values
resolves the same `outputHeight` whatever its width-axis values are, and
likewise for `outputWidth`. -/
theorem Forward_output_geometry (L : MeanPooling) (input : Mat)
    (hsw : 1 ≤ L.strideWidth) (hsh : 1 ≤ L.strideHeight)
    (hkw : L.kernelWidth ≤ L.inputWidth + L.padWLeft + L.padWRight)
    (hkh : L.kernelHeight ≤ L.inputHeight + L.padHTop + L.padHBottom)
    (hW : L.inputWidth + L.padWLeft + L.padWRight < 2 ^ 50)
    (hH : L.inputHeight + L.padHTop + L.padHBottom < 2 ^ 50)
    (hSW : L.strideWidth < 2 ^ 50) (hSH : L.strideHeight < 2 ^ 50)
    (hin : mulSz (mulSz L.inputWidth L.inputHeight) input.n_cols ≠ 0) :
    ∃ st out, Forward L input = some (st, out) ∧
      (st.outputWidth : ℤ) =
        (if L.floor then
          ⌊(((L.inputWidth + L.padWLeft + L.padWRight : ℕ) : ℚ) - (L.kernelWidth : ℚ)) /
            (L.strideWidth : ℚ)⌋ + 1
        else
          ⌈(((L.inputWidth + L.padWLeft + L.padWRight : ℕ) : ℚ) - (L.kernelWidth : ℚ)) /
            (L.strideWidth : ℚ)⌉ + 1) ∧
      (st.outputHeight : ℤ) =
        (if L.floor then
          ⌊(((L.inputHeight + L.padHTop + L.padHBottom : ℕ) : ℚ) - (L.kernelHeight : ℚ)) /
            (L.strideHeight : ℚ)⌋ + 1
        else
          ⌈(((L.inputHeight + L.padHTop + L.padHBottom : ℕ) : ℚ) - (L.kernelHeight : ℚ)) /
            (L.strideHeight : ℚ)⌉ + 1) ∧
      (∀ (L2 : MeanPooling) (in2 : Mat) (st2 : MeanPooling) (out2 : Mat),
        L2.floor = L.floor → L2.inputHeight = L.inputHeight → L2.padHTop = L.padHTop →
        L2.padHBottom = L.padHBottom → L2.kernelHeight = L.kernelHeight →
        L2.strideHeight = L.strideHeight → Forward L2 in2 = some (st2, out2) →
        st2.outputHeight = st.outputHeight) ∧
      (∀ (L2 : MeanPooling) (in2 : Mat) (st2 : MeanPooling) (out2 : Mat),
        L2.floor = L.floor → L2.inputWidth = L.inputWidth → L2.padWLeft = L.padWLeft →
        L2.padWRight = L.padWRight → L2.kernelWidth = L.kernelWidth →
        L2.strideWidth = L.strideWidth → Forward L2 in2 = some (st2, out2) →
        st2.outputWidth = st.outputWidth) := by
  obtain ⟨st, out, hF, hw, hh⟩ := Forward_resolves L input hsw hsh hkw hkh hW hH hSW hSH hin
  refine ⟨st, out, hF, hw, hh, ?_, ?_⟩
  · intro L2 in2 st2 out2 e1 e2 e3 e4 e5 e6 hF2
    exact Forward_height_of_agree hF hF2 e1 e2 e3 e4 e5 e6
  · intro L2 in2 st2 out2 e1 e2 e3 e4 e5 e6 hF2
    exact Forward_width_of_agree hF hF2 e1 e2 e3 e4 e5 e6

/-- Witness for C1: a 4x4 input, kernel 2x2, stride 2x2, no padding. -/
theorem Forward_output_geometry_witness :
    ∃ st out,
      Forward (mkMeanPooling 2 2 2 2 true (0, 0) (0, 0) 4 4 "none".toList) (Mat.zeros 16 1) =
        some (st, out) ∧
      (st.outputWidth : ℤ) = ⌊(((4 + 0 + 0 : ℕ) : ℚ) - ((2 : ℕ) : ℚ)) / ((2 : ℕ) : ℚ)⌋ + 1 := by
  obtain ⟨st, out, h, hw, -⟩ :=
    Forward_output_geometry (mkMeanPooling 2 2 2 2 true (0, 0) (0, 0) 4 4 "none".toList)
      (Mat.zeros 16 1) (by decide) (by decide) (by decide) (by decide) (by decide) (by decide)
      (by decide) (by decide) (by decide)
  exact ⟨st, out, h, hw⟩

/-- C1 (counterexample): with `inputWidth = 2^64 - 1`, `padWLeft = 1`, kernel 1
and stride 1 the claim's hypotheses hold, the `size_t` sum
`inputWidth + padWLeft + padWRight` wraps to 0 and `Forward` sets
`outputWidth = 0`, whereas the stated formula gives `2^64`. -/
theorem Forward_output_geometry_overflow :
    ∃ st out,
      Forward (mkMeanPooling 1 1 1 1 true (1, 0) (0, 0) (2 ^ 64 - 1) 1 "none".toList)
        (Mat.zeros 1 1) = some (st, out) ∧
      st.outputWidth = 0 ∧
      ⌊(((2 ^ 64 - 1 + 1 + 0 : ℕ) : ℚ) - ((1 : ℕ) : ℚ)) / ((1 : ℕ) : ℚ)⌋ + 1 = (2 ^ 64 : ℤ) ∧
      (st.outputWidth : ℤ) ≠
        ⌊(((2 ^ 64 - 1 + 1 + 0 : ℕ) : ℚ) - ((1 : ℕ) : ℚ)) / ((1 : ℕ) : ℚ)⌋ + 1 := by
  have hw : (if (mkMeanPooling 1 1 1 1 true (1, 0) (0, 0) (2 ^ 64 - 1) 1 "none".toList).floor
      then ⌊(((addSz (addSz (2 ^ 64 - 1) 1) 0 : ℕ) : ℚ) - ((1 : ℕ) : ℚ)) / ((1 : ℕ) : ℚ) + 1⌋
      else ⌈(((addSz (addSz (2 ^ 64 - 1) 1) 0 : ℕ) : ℚ) - ((1 : ℕ) : ℚ)) / ((1 : ℕ) : ℚ) + 1⌉)
      = ((0 : ℕ) : ℤ) := by
    have e : addSz (addSz (2 ^ 64 - 1) 1) 0 = 0 := by decide
    rw [e, if_pos (by decide)]
    norm_num
  have hh : (if (mkMeanPooling 1 1 1 1 true (1, 0) (0, 0) (2 ^ 64 - 1) 1 "none".toList).floor
      then ⌊(((addSz (addSz 1 0) 0 : ℕ) : ℚ) - ((1 : ℕ) : ℚ)) / ((1 : ℕ) : ℚ) + 1⌋
      else ⌈(((addSz (addSz 1 0) 0 : ℕ) : ℚ) - ((1 : ℕ) : ℚ)) / ((1 : ℕ) : ℚ) + 1⌉)
      = ((1 : ℕ) : ℤ) := by
    have e : addSz (addSz 1 0) 0 = 1 := by decide
    rw [e, if_pos (by decide)]
    norm_num
  have hg := outputGeometry_intro
    (mkMeanPooling 1 1 1 1 true (1, 0) (0, 0) (2 ^ 64 - 1) 1 "none".toList)
    (by decide) (by decide) (by decide) (by decide) hw hh (by decide) (by decide)
  obtain ⟨st, out, hF⟩ := Forward_isSome (Mat.zeros 1 1) (by decide) hg
  obtain ⟨-, geo, hg2, hgw, -⟩ := Forward_spec hF
  rw [hg] at hg2
  obtain rfl := Option.some.inj hg2
  have h64 : ⌊(((2 ^ 64 - 1 + 1 + 0 : ℕ) : ℚ) - ((1 : ℕ) : ℚ)) / ((1 : ℕ) : ℚ)⌋ + 1 =
      (2 ^ 64 : ℤ) := by
    norm_num
  refine ⟨st, out, hF, hgw, h64, ?_⟩
  rw [h64, hgw]
  norm_num

/-! ## The constructor -/

theorem mkMeanPooling_config (kw kh sw sh : Nat) (fl : Bool) (padW padH : Nat × Nat)
    (iw ih : Nat) (pt : List Char) :
    (mkMeanPooling kw kh sw sh fl padW padH iw ih pt).kernelWidth = kw ∧
    (mkMeanPooling kw kh sw sh fl padW padH iw ih pt).kernelHeight = kh ∧
    (mkMeanPooling kw kh sw sh fl padW padH iw ih pt).strideWidth = sw ∧
    (mkMeanPooling kw kh sw sh fl padW padH iw ih pt).strideHeight = sh ∧
    (mkMeanPooling kw kh sw sh fl padW padH iw ih pt).floor = fl ∧
    (mkMeanPooling kw kh sw sh fl padW padH iw ih pt).inputWidth = iw ∧
    (mkMeanPooling kw kh sw sh fl padW padH iw ih pt).inputHeight = ih := by
  unfold mkMeanPooling
  simp only []
  split_ifs <;> simp [initMembers, InitializeSamePadding]

theorem mkMeanPooling_valid (kw kh sw sh : Nat) (fl : Bool) (padW padH : Nat × Nat)
    (iw ih : Nat) (pt : List Char) (hpt : toLowerStr pt = "valid".toList) :
    (mkMeanPooling kw kh sw sh fl padW padH iw ih pt).padWLeft = 0 ∧
    (mkMeanPooling kw kh sw sh fl padW padH iw ih pt).padWRight = 0 ∧
    (mkMeanPooling kw kh sw sh fl padW padH iw ih pt).padHTop = 0 ∧
    (mkMeanPooling kw kh sw sh fl padW padH iw ih pt).padHBottom = 0 ∧
    (mkMeanPooling kw kh sw sh fl padW padH iw ih pt).isPadded = false := by
  unfold mkMeanPooling
  simp [hpt]

theorem mkMeanPooling_same (kw kh sw sh : Nat) (fl : Bool) (padW padH : Nat × Nat)
    (iw ih : Nat) (pt : List Char) (hpt : toLowerStr pt = "same".toList) :
    (mkMeanPooling kw kh sw sh fl padW padH iw ih pt).padWLeft =
      subSz (addSz (mulSz (subSz sw 1) iw) kw) sw / 2 ∧
    (mkMeanPooling kw kh sw sh fl padW padH iw ih pt).padWRight =
      subSz (subSz (addSz (mulSz (subSz sw 1) iw) kw) sw)
        (subSz (addSz (mulSz (subSz sw 1) iw) kw) sw / 2) ∧
    (mkMeanPooling kw kh sw sh fl padW padH iw ih pt).padHTop =
      subSz (addSz (mulSz (subSz sh 1) ih) kh) sh / 2 ∧
    (mkMeanPooling kw kh sw sh fl padW padH iw ih pt).padHBottom =
      subSz (subSz (addSz (mulSz (subSz sh 1) ih) kh) sh)
        (subSz (addSz (mulSz (subSz sh 1) ih) kh) sh / 2) := by
  have hne : ¬ ("same".toList = "valid".toList) := by decide
  unfold mkMeanPooling
  simp only [hpt, hne, if_false, if_true]
  split_ifs <;> simp [initMembers, InitializeSamePadding]

/-- The total padding `(stride - 1) * input + kernel - stride` computed by
`InitializeSamePadding` does not wrap when the operands are positive and
`(stride - 1) * input + kernel` fits 64 bits. -/
theorem samePadding_total (s i k : Nat) (hs : 1 ≤ s) (hi : 1 ≤ i) (hk : 1 ≤ k)
    (hfit : (s - 1) * i + k < 2 ^ 64) :
    subSz (addSz (mulSz (subSz s 1) i) k) s = (s - 1) * i + k - s ∧
    s ≤ (s - 1) * i + k := by
  have hle : s ≤ (s - 1) * i + k := by
    have : (s - 1) * 1 ≤ (s - 1) * i := Nat.mul_le_mul_left _ hi
    omega
  have hs64 : s < 2 ^ 64 := by omega
  rw [subSz_of_le hs64 hs, mulSz_of_lt (by omega), addSz_of_lt hfit,
    subSz_of_le hfit hle]
  exact ⟨rfl, hle⟩

theorem samePadding_axis (s i k : Nat) (hs : 1 ≤ s) (hi : 1 ≤ i) (hk : 1 ≤ k)
    (hfit : s * i + k < 2 ^ 64) :
    i + subSz (addSz (mulSz (subSz s 1) i) k) s / 2 +
      subSz (subSz (addSz (mulSz (subSz s 1) i) k) s)
        (subSz (addSz (mulSz (subSz s 1) i) k) s / 2) = s * (i - 1) + k ∧
    s * (i - 1) + k < 2 ^ 64 := by
  obtain ⟨t, rfl⟩ : ∃ t, s = t + 1 := ⟨s - 1, by omega⟩
  obtain ⟨j, rfl⟩ : ∃ j, i = j + 1 := ⟨i - 1, by omega⟩
  have e1 : (t + 1) * (j + 1) = t * j + t + j + 1 := by ring
  have e2 : (t + 1 - 1) * (j + 1) = t * j + t := by
    rw [Nat.add_sub_cancel]; ring
  have e3 : (t + 1) * (j + 1 - 1) = t * j + j := by
    rw [Nat.add_sub_cancel]; ring
  rw [e1] at hfit
  have hfit2 : (t + 1 - 1) * (j + 1) + k < 2 ^ 64 := by rw [e2]; omega
  obtain ⟨ht, -⟩ := samePadding_total (t + 1) (j + 1) k hs hi hk hfit2
  rw [ht, e2, e3]
  have hlt : t * j + t + k - (t + 1) < 2 ^ 64 := by omega
  rw [subSz_of_le hlt (Nat.div_le_self _ _)]
  omega

theorem same_quot (s i k : Nat) (hs : 1 ≤ s) (hi : 1 ≤ i) :
    (((s * (i - 1) + k : ℕ) : ℚ) - (k : ℚ)) / (s : ℚ) = (((i - 1 : ℕ) : ℤ) : ℚ) := by
  have hs0 : (s : ℚ) ≠ 0 := by
    have : (0 : ℚ) < (s : ℚ) := by exact_mod_cast hs
    exact ne_of_gt this
  push_cast
  field_simp

theorem Forward_same (kw kh sw sh : Nat) (fl : Bool) (padW padH : Nat × Nat)
    (iw ih : Nat) (pt : List Char) (input : Mat) (hpt : toLowerStr pt = "same".toList)
    (hkw : 1 ≤ kw) (hkh : 1 ≤ kh) (hsw : 1 ≤ sw) (hsh : 1 ≤ sh) (hiw : 1 ≤ iw) (hih : 1 ≤ ih)
    (hW : sw * iw + kw < 2 ^ 50) (hH : sh * ih + kh < 2 ^ 50)
    (hin : mulSz (mulSz iw ih) input.n_cols ≠ 0) :
    ∃ st out, Forward (mkMeanPooling kw kh sw sh fl padW padH iw ih pt) input = some (st, out) ∧
      st.outputWidth = iw ∧ st.outputHeight = ih := by
  obtain ⟨c1, c2, c3, c4, c5, c6, c7⟩ := mkMeanPooling_config kw kh sw sh fl padW padH iw ih pt
  obtain ⟨p1, p2, p3, p4⟩ := mkMeanPooling_same kw kh sw sh fl padW padH iw ih pt hpt
  obtain ⟨aw, awlt⟩ := samePadding_axis sw iw kw hsw hiw hkw (by omega)
  obtain ⟨ah, ahlt⟩ := samePadding_axis sh ih kh hsh hih hkh (by omega)
  have mw : sw * (iw - 1) ≤ sw * iw := Nat.mul_le_mul_left sw (Nat.sub_le iw 1)
  have mh : sh * (ih - 1) ≤ sh * ih := Nat.mul_le_mul_left sh (Nat.sub_le ih 1)
  have lw : sw ≤ sw * iw := Nat.le_mul_of_pos_right sw hiw
  have lh : sh ≤ sh * ih := Nat.le_mul_of_pos_right sh hih
  have nW : (mkMeanPooling kw kh sw sh fl padW padH iw ih pt).inputWidth +
      (mkMeanPooling kw kh sw sh fl padW padH iw ih pt).padWLeft +
      (mkMeanPooling kw kh sw sh fl padW padH iw ih pt).padWRight = sw * (iw - 1) + kw := by
    rw [c6, p1, p2]; exact aw
  have nH : (mkMeanPooling kw kh sw sh fl padW padH iw ih pt).inputHeight +
      (mkMeanPooling kw kh sw sh fl padW padH iw ih pt).padHTop +
      (mkMeanPooling kw kh sw sh fl padW padH iw ih pt).padHBottom = sh * (ih - 1) + kh := by
    rw [c7, p3, p4]; exact ah
  obtain ⟨st, out, hF, hw, hh⟩ :=
    Forward_resolves (mkMeanPooling kw kh sw sh fl padW padH iw ih pt) input
      (by rw [c3]; exact hsw) (by rw [c4]; exact hsh)
      (by rw [nW, c1]; omega) (by rw [nH, c2]; omega)
      (by rw [nW]; omega) (by rw [nH]; omega)
      (by rw [c3]; omega) (by rw [c4]; omega) (by rw [c6, c7]; exact hin)
  refine ⟨st, out, hF, ?_, ?_⟩
  · rw [nW, c1, c3, same_quot sw iw kw hsw hiw, Int.floor_intCast, Int.ceil_intCast] at hw
    simp only [ite_self] at hw
    omega
  · rw [nH, c2, c4, same_quot sh ih kh hsh hih, Int.floor_intCast, Int.ceil_intCast] at hh
    simp only [ite_self] at hh
    omega

/-- C2: for every constructor call whose padding type is "valid" up to letter
case and every configured padding, the constructed layer has all four pads equal
to 0 and `isPadded = false`, and a following `Forward` resolves
`outputDim = floor_or_ceil((inputDim - kernel) / stride + 1)` on each axis,
whatever the configured padding was, for every kernel at most inputDim, every
stride at least 1 and every inputDim and stride below `2^50`; this range holds
the claim's witness range (kernel and stride in 1..3, inputDim in 1..20), and in
it the binary64 arithmetic of `Forward` is exact up to the floor or ceiling. -/
theorem valid_padding_geometry (kw kh sw sh : Nat) (fl : Bool) (padW padH : Nat × Nat)
    (iw ih : Nat) (pt : List Char) (input : Mat)
    (hpt : toLowerStr pt = "valid".toList)
    (hsw : 1 ≤ sw) (hsh : 1 ≤ sh)
    (hkw : kw ≤ iw) (hkh : kh ≤ ih) (hiw : iw < 2 ^ 50) (hih : ih < 2 ^ 50)
    (hSW : sw < 2 ^ 50) (hSH : sh < 2 ^ 50)
    (hin : mulSz (mulSz iw ih) input.n_cols ≠ 0) :
    (mkMeanPooling kw kh sw sh fl padW padH iw ih pt).padWLeft = 0 ∧
    (mkMeanPooling kw kh sw sh fl padW padH iw ih pt).padWRight = 0 ∧
    (mkMeanPooling kw kh sw sh fl padW padH iw ih pt).padHTop = 0 ∧
    (mkMeanPooling kw kh sw sh fl padW padH iw ih pt).padHBottom = 0 ∧
    (mkMeanPooling kw kh sw sh fl padW padH iw ih pt).isPadded = false ∧
    ∃ st out, Forward (mkMeanPooling kw kh sw sh fl padW padH iw ih pt) input = some (st, out) ∧
      (st.outputWidth : ℤ) =
        (if fl then ⌊((iw : ℚ) - (kw : ℚ)) / (sw : ℚ) + 1⌋
          else ⌈((iw : ℚ) - (kw : ℚ)) / (sw : ℚ) + 1⌉) ∧
      (st.outputHeight : ℤ) =
        (if fl then ⌊((ih : ℚ) - (kh : ℚ)) / (sh : ℚ) + 1⌋
          else ⌈((ih : ℚ) - (kh : ℚ)) / (sh : ℚ) + 1⌉) := by
  obtain ⟨c1, c2, c3, c4, c5, c6, c7⟩ := mkMeanPooling_config kw kh sw sh fl padW padH iw ih pt
  obtain ⟨p1, p2, p3, p4, p5⟩ := mkMeanPooling_valid kw kh sw sh fl padW padH iw ih pt hpt
  refine ⟨p1, p2, p3, p4, p5, ?_⟩
  obtain ⟨st, out, hF, hw, hh⟩ :=
    Forward_resolves (mkMeanPooling kw kh sw sh fl padW padH iw ih pt) input
      (by rw [c3]; exact hsw) (by rw [c4]; exact hsh)
      (by rw [c1, c6, p1, p2]; exact hkw)
      (by rw [c2, c7, p3, p4]; exact hkh) (by rw [c6, p1, p2]; exact hiw)
      (by rw [c7, p3, p4]; exact hih) (by rw [c3]; exact hSW) (by rw [c4]; exact hSH)
      (by rw [c6, c7]; exact hin)
  refine ⟨st, out, hF, ?_, ?_⟩
  · rw [c1, c3, c5, c6, p1, p2] at hw
    rw [hw, Int.floor_add_one, Int.ceil_add_one]
    simp
  · rw [c2, c4, c5, c7, p3, p4] at hh
    rw [hh, Int.floor_add_one, Int.ceil_add_one]
    simp

/-- Witness for C2: "VALID" with configured pads (3, 1) and (2, 5), input 20x7,
kernel 3x2, stride 2x3, ceil rounding. -/
theorem valid_padding_geometry_witness :
    (mkMeanPooling 3 2 2 3 false (3, 1) (2, 5) 20 7 "VALID".toList).isPadded = false ∧
    ∃ st out, Forward (mkMeanPooling 3 2 2 3 false (3, 1) (2, 5) 20 7 "VALID".toList)
        (Mat.zeros 140 1) = some (st, out) ∧
      (st.outputWidth : ℤ) = ⌈(((20 : ℕ) : ℚ) - ((3 : ℕ) : ℚ)) / ((2 : ℕ) : ℚ) + 1⌉ := by
  obtain ⟨-, -, -, -, hp, st, out, hF, hw, -⟩ :=
    valid_padding_geometry 3 2 2 3 false (3, 1) (2, 5) 20 7 "VALID".toList (Mat.zeros 140 1)
      (by decide) (by decide) (by decide) (by decide) (by decide) (by decide) (by decide)
      (by decide) (by decide) (by decide)
  exact ⟨hp, st, out, hF, by simpa using hw⟩

/-- C3 (counterexample): input 4x4, kernel 2x2, stride 2x2, "same" padding and
floor rounding; `Forward` resolves output width 4, while `ceil(4 / 2) = 2`. -/
theorem same_padding_output_not_ceil :
    ∃ st out,
      Forward (mkMeanPooling 2 2 2 2 true (0, 0) (0, 0) 4 4 "same".toList) (Mat.zeros 16 1) =
        some (st, out) ∧
      st.outputWidth = 4 ∧ ⌈((4 : ℕ) : ℚ) / ((2 : ℕ) : ℚ)⌉ = 2 ∧
      (st.outputWidth : ℤ) ≠ ⌈((4 : ℕ) : ℚ) / ((2 : ℕ) : ℚ)⌉ := by
  obtain ⟨st, out, hF, hw, -⟩ :=
    Forward_same 2 2 2 2 true (0, 0) (0, 0) 4 4 "same".toList (Mat.zeros 16 1)
      (by decide) (by decide) (by decide) (by decide) (by decide) (by decide) (by decide)
      (by decide) (by decide) (by decide)
  have h2 : ⌈((4 : ℕ) : ℚ) / ((2 : ℕ) : ℚ)⌉ = 2 := by norm_num
  refine ⟨st, out, hF, hw, h2, ?_⟩
  rw [h2, hw]
  norm_num

/-- C3 (amended): for every positive inputDim, kernel and stride with
`stride * inputDim + kernel < 2^50` on each axis (so that no 64-bit overflow
occurs and the binary64 arithmetic of `Forward` is exact up to the floor), a
layer constructed with padding type "same" (up to letter case) and floor
rounding resolves, in `Forward`, an output size on each axis that exactly equals
inputDim, where the padding used is the one `InitializeSamePadding` computed at
construction. -/
theorem same_padding_floor_output (kw kh sw sh : Nat) (padW padH : Nat × Nat)
    (iw ih : Nat) (pt : List Char) (input : Mat) (hpt : toLowerStr pt = "same".toList)
    (hkw : 1 ≤ kw) (hkh : 1 ≤ kh) (hsw : 1 ≤ sw) (hsh : 1 ≤ sh) (hiw : 1 ≤ iw) (hih : 1 ≤ ih)
    (hW : sw * iw + kw < 2 ^ 50) (hH : sh * ih + kh < 2 ^ 50)
    (hin : mulSz (mulSz iw ih) input.n_cols ≠ 0) :
    (mkMeanPooling kw kh sw sh true padW padH iw ih pt).padWLeft =
      (InitializeSamePadding (initMembers kw kh sw sh true padW padH iw ih)).padWLeft ∧
    (mkMeanPooling kw kh sw sh true padW padH iw ih pt).padWRight =
      (InitializeSamePadding (initMembers kw kh sw sh true padW padH iw ih)).padWRight ∧
    (mkMeanPooling kw kh sw sh true padW padH iw ih pt).padHTop =
      (InitializeSamePadding (initMembers kw kh sw sh true padW padH iw ih)).padHTop ∧
    (mkMeanPooling kw kh sw sh true padW padH iw ih pt).padHBottom =
      (InitializeSamePadding (initMembers kw kh sw sh true padW padH iw ih)).padHBottom ∧
    ∃ st out,
      Forward (mkMeanPooling kw kh sw sh true padW padH iw ih pt) input = some (st, out) ∧
      st.outputWidth = iw ∧ st.outputHeight = ih := by
  obtain ⟨p1, p2, p3, p4⟩ := mkMeanPooling_same kw kh sw sh true padW padH iw ih pt hpt
  refine ⟨?_, ?_, ?_, ?_,
    Forward_same kw kh sw sh true padW padH iw ih pt input hpt hkw hkh hsw hsh hiw hih hW hH hin⟩
  · rw [p1]; simp [InitializeSamePadding, initMembers]
  · rw [p2]; simp [InitializeSamePadding, initMembers]
  · rw [p3]; simp [InitializeSamePadding, initMembers]
  · rw [p4]; simp [InitializeSamePadding, initMembers]

/-- Witness for C3 (amended): input 5x4, kernel 3x2, stride 2x3, "Same". -/
theorem same_padding_floor_output_witness :
    ∃ st out,
      Forward (mkMeanPooling 3 2 2 3 true (0, 0) (0, 0) 5 4 "Same".toList) (Mat.zeros 20 1) =
        some (st, out) ∧
      st.outputWidth = 5 ∧ st.outputHeight = 4 :=
  (same_padding_floor_output 3 2 2 3 (0, 0) (0, 0) 5 4 "Same".toList (Mat.zeros 20 1)
    (by decide) (by decide) (by decide) (by decide) (by decide) (by decide) (by decide)
    (by decide) (by decide) (by decide)).2.2.2.2

theorem samePadding_clamped (s i k : Nat) (hs : 1 ≤ s) (hi : 1 ≤ i) (hk : 1 ≤ k)
    (hfit : (s - 1) * i + k < 2 ^ 64) :
    ((subSz (addSz (mulSz (subSz s 1) i) k) s : ℕ) : ℤ) =
      max 0 (((s : ℤ) - 1) * (i : ℤ) + (k : ℤ) - (s : ℤ)) := by
  obtain ⟨ht, hle⟩ := samePadding_total s i k hs hi hk hfit
  rw [ht]
  have e : (((s - 1) * i + k - s : ℕ) : ℤ) = ((s : ℤ) - 1) * (i : ℤ) + (k : ℤ) - (s : ℤ) := by
    rw [Nat.cast_sub hle]
    push_cast [Nat.cast_sub hs]
    ring
  rw [e]
  have hnn : (0 : ℤ) ≤ ((s : ℤ) - 1) * (i : ℤ) + (k : ℤ) - (s : ℤ) := by
    rw [← e]; exact Int.natCast_nonneg _
  exact (max_eq_right hnn).symm

/-- C4: for every positive inputDim, kernel and stride (with
`(stride - 1) * inputDim + kernel < 2^64`, so that no 64-bit overflow occurs), a
layer constructed with padding type "same" has, per axis,
`padBefore = total / 2` (integer division) and `padAfter = total - padBefore`
with `total = max(0, (stride - 1) * inputDim + kernel - stride)`, whatever
padding was configured; the width axis uses `strideWidth`, `inputWidth`,
`kernelWidth` and the height axis `strideHeight`, `inputHeight`, `kernelHeight`.
The unsigned expression of the code equals the clamped formula, and
`padBefore ≤ padAfter ≤ padBefore + 1`. -/
theorem same_padding_values (kw kh sw sh : Nat) (fl : Bool) (padW padH : Nat × Nat)
    (iw ih : Nat) (pt : List Char) (hpt : toLowerStr pt = "same".toList)
    (hkw : 1 ≤ kw) (hkh : 1 ≤ kh) (hsw : 1 ≤ sw) (hsh : 1 ≤ sh) (hiw : 1 ≤ iw) (hih : 1 ≤ ih)
    (hW : (sw - 1) * iw + kw < 2 ^ 64) (hH : (sh - 1) * ih + kh < 2 ^ 64) :
    ((mkMeanPooling kw kh sw sh fl padW padH iw ih pt).padWLeft : ℤ) =
      max 0 (((sw : ℤ) - 1) * (iw : ℤ) + (kw : ℤ) - (sw : ℤ)) / 2 ∧
    ((mkMeanPooling kw kh sw sh fl padW padH iw ih pt).padWRight : ℤ) =
      max 0 (((sw : ℤ) - 1) * (iw : ℤ) + (kw : ℤ) - (sw : ℤ)) -
        max 0 (((sw : ℤ) - 1) * (iw : ℤ) + (kw : ℤ) - (sw : ℤ)) / 2 ∧
    ((mkMeanPooling kw kh sw sh fl padW padH iw ih pt).padHTop : ℤ) =
      max 0 (((sh : ℤ) - 1) * (ih : ℤ) + (kh : ℤ) - (sh : ℤ)) / 2 ∧
    ((mkMeanPooling kw kh sw sh fl padW padH iw ih pt).padHBottom : ℤ) =
      max 0 (((sh : ℤ) - 1) * (ih : ℤ) + (kh : ℤ) - (sh : ℤ)) -
        max 0 (((sh : ℤ) - 1) * (ih : ℤ) + (kh : ℤ) - (sh : ℤ)) / 2 ∧
    ((subSz (addSz (mulSz (subSz sw 1) iw) kw) sw : ℕ) : ℤ) =
      max 0 (((sw : ℤ) - 1) * (iw : ℤ) + (kw : ℤ) - (sw : ℤ)) ∧
    ((subSz (addSz (mulSz (subSz sh 1) ih) kh) sh : ℕ) : ℤ) =
      max 0 (((sh : ℤ) - 1) * (ih : ℤ) + (kh : ℤ) - (sh : ℤ)) ∧
    (mkMeanPooling kw kh sw sh fl padW padH iw ih pt).padWLeft ≤
      (mkMeanPooling kw kh sw sh fl padW padH iw ih pt).padWRight ∧
    (mkMeanPooling kw kh sw sh fl padW padH iw ih pt).padWRight ≤
      (mkMeanPooling kw kh sw sh fl padW padH iw ih pt).padWLeft + 1 ∧
    (mkMeanPooling kw kh sw sh fl padW padH iw ih pt).padHTop ≤
      (mkMeanPooling kw kh sw sh fl padW padH iw ih pt).padHBottom ∧
    (mkMeanPooling kw kh sw sh fl padW padH iw ih pt).padHBottom ≤
      (mkMeanPooling kw kh sw sh fl padW padH iw ih pt).padHTop + 1 := by
  obtain ⟨p1, p2, p3, p4⟩ := mkMeanPooling_same kw kh sw sh fl padW padH iw ih pt hpt
  have cw := samePadding_clamped sw iw kw hsw hiw hkw hW
  have ch := samePadding_clamped sh ih kh hsh hih hkh hH
  obtain ⟨tw, -⟩ := samePadding_total sw iw kw hsw hiw hkw hW
  obtain ⟨th, -⟩ := samePadding_total sh ih kh hsh hih hkh hH
  have bw : subSz (addSz (mulSz (subSz sw 1) iw) kw) sw < 2 ^ 64 := by rw [tw]; omega
  have bh : subSz (addSz (mulSz (subSz sh 1) ih) kh) sh < 2 ^ 64 := by rw [th]; omega
  have rw2 := subSz_of_le bw (Nat.div_le_self (subSz (addSz (mulSz (subSz sw 1) iw) kw) sw) 2)
  have rh2 := subSz_of_le bh (Nat.div_le_self (subSz (addSz (mulSz (subSz sh 1) ih) kh) sh) 2)
  rw [p1, p2, p3, p4, rw2, rh2, ← cw, ← ch]
  refine ⟨?_, ?_, ?_, ?_, rfl, rfl, ?_, ?_, ?_, ?_⟩
  · push_cast; rfl
  · rw [Nat.cast_sub (Nat.div_le_self _ _)]; push_cast; rfl
  · push_cast; rfl
  · rw [Nat.cast_sub (Nat.div_le_self _ _)]; push_cast; rfl
  · omega
  · omega
  · omega
  · omega

/-- Witness for C4: input 5x4, kernel 3x2, stride 2x3, configured pads (7, 9) and
(1, 0), "SAME". -/
theorem same_padding_values_witness :
    ((mkMeanPooling 3 2 2 3 true (7, 9) (1, 0) 5 4 "SAME".toList).padWLeft : ℤ) =
      max 0 ((((2 : ℕ) : ℤ) - 1) * ((5 : ℕ) : ℤ) + ((3 : ℕ) : ℤ) - ((2 : ℕ) : ℤ)) / 2 :=
  (same_padding_values 3 2 2 3 true (7, 9) (1, 0) 5 4 "SAME".toList (by decide) (by decide)
    (by decide) (by decide) (by decide) (by decide) (by decide) (by decide) (by decide)).1

/-- On an axis with stride 1 and "same" padding whose input size and kernel sum
to less than `2^50`, the resolved output size is the input size. -/
theorem stride_one_axis (fl : Bool) (i k o : Nat) (w : ℚ) (hi : 1 ≤ i) (hk : 1 ≤ k)
    (hb : i + k < 2 ^ 50)
    (hw : axisDouble (addSz (addSz i (subSz (addSz (mulSz (subSz 1 1) i) k) 1 / 2))
      (subSz (subSz (addSz (mulSz (subSz 1 1) i) k) 1)
        (subSz (addSz (mulSz (subSz 1 1) i) k) 1 / 2))) k 1 = some w)
    (h : (if fl then ⌊w⌋ else ⌈w⌉) = (o : ℤ)) :
    o = i := by
  obtain ⟨ht, -⟩ := samePadding_total 1 i k le_rfl hi hk (by omega)
  have ht2 : subSz (addSz (mulSz (subSz 1 1) i) k) 1 = k - 1 := by
    rw [ht]; omega
  rw [ht2, subSz_of_le (show k - 1 < 2 ^ 64 by omega) (Nat.div_le_self _ _),
    addSz_addSz_of_lt (by omega)] at hw
  have hsum : i + (k - 1) / 2 + (k - 1 - (k - 1) / 2) = i + k - 1 := by omega
  rw [hsum] at hw
  obtain ⟨w2, hw2, fw, cw⟩ := axisDouble_exact (i + k - 1) k 1 le_rfl (by omega) (by omega)
    (by norm_num)
  rw [hw] at hw2
  obtain rfl := Option.some.inj hw2
  have hq : (((i + k - 1 : ℕ) : ℚ) - (k : ℚ)) / ((1 : ℕ) : ℚ) = (((i : ℤ) - 1 : ℤ) : ℚ) := by
    have : ((i + k - 1 : ℕ) : ℚ) = (i : ℚ) + (k : ℚ) - 1 := by
      rw [Nat.cast_sub (by omega)]; push_cast; ring
    rw [this]; push_cast; ring
  rw [hq, Int.floor_intCast] at fw
  rw [hq, Int.ceil_intCast] at cw
  rw [fw, cw] at h
  simp only [ite_self] at h
  omega

/-- The geometry of a "same" layer with kernel 1, stride 1 and declared input
`(2^53 + 1) x 1`: the width is resolved as `2^53`. -/
theorem same_geometry_rounds (fl : Bool) :
    outputGeometry (mkMeanPooling 1 1 1 1 fl (0, 0) (0, 0) (2 ^ 53 + 1) 1 "same".toList) =
      some (2 ^ 53, 1, if fl then 0 else 1) := by
  have eW : addSz (addSz
      (mkMeanPooling 1 1 1 1 fl (0, 0) (0, 0) (2 ^ 53 + 1) 1 "same".toList).inputWidth
      (mkMeanPooling 1 1 1 1 fl (0, 0) (0, 0) (2 ^ 53 + 1) 1 "same".toList).padWLeft)
      (mkMeanPooling 1 1 1 1 fl (0, 0) (0, 0) (2 ^ 53 + 1) 1 "same".toList).padWRight =
      2 ^ 53 + 1 := by cases fl <;> decide
  have eH : addSz (addSz
      (mkMeanPooling 1 1 1 1 fl (0, 0) (0, 0) (2 ^ 53 + 1) 1 "same".toList).inputHeight
      (mkMeanPooling 1 1 1 1 fl (0, 0) (0, 0) (2 ^ 53 + 1) 1 "same".toList).padHTop)
      (mkMeanPooling 1 1 1 1 fl (0, 0) (0, 0) (2 ^ 53 + 1) 1 "same".toList).padHBottom =
      1 := by cases fl <;> decide
  obtain ⟨c1, c2, c3, c4, c5, -, -⟩ :=
    mkMeanPooling_config 1 1 1 1 fl (0, 0) (0, 0) (2 ^ 53 + 1) 1 "same".toList
  obtain ⟨hgt, hh, fh, ch⟩ := axisDouble_exact 1 1 1 le_rfl (by norm_num) (by norm_num)
    (by norm_num)
  have hw : axisDouble (addSz (addSz
      (mkMeanPooling 1 1 1 1 fl (0, 0) (0, 0) (2 ^ 53 + 1) 1 "same".toList).inputWidth
      (mkMeanPooling 1 1 1 1 fl (0, 0) (0, 0) (2 ^ 53 + 1) 1 "same".toList).padWLeft)
      (mkMeanPooling 1 1 1 1 fl (0, 0) (0, 0) (2 ^ 53 + 1) 1 "same".toList).padWRight)
      (mkMeanPooling 1 1 1 1 fl (0, 0) (0, 0) (2 ^ 53 + 1) 1 "same".toList).kernelWidth
      (mkMeanPooling 1 1 1 1 fl (0, 0) (0, 0) (2 ^ 53 + 1) 1 "same".toList).strideWidth =
      some ((2 : ℚ) ^ 53) := by
    rw [eW, c1, c3]; exact axisDouble_two_pow_53_succ
  have hh2 : axisDouble (addSz (addSz
      (mkMeanPooling 1 1 1 1 fl (0, 0) (0, 0) (2 ^ 53 + 1) 1 "same".toList).inputHeight
      (mkMeanPooling 1 1 1 1 fl (0, 0) (0, 0) (2 ^ 53 + 1) 1 "same".toList).padHTop)
      (mkMeanPooling 1 1 1 1 fl (0, 0) (0, 0) (2 ^ 53 + 1) 1 "same".toList).padHBottom)
      (mkMeanPooling 1 1 1 1 fl (0, 0) (0, 0) (2 ^ 53 + 1) 1 "same".toList).kernelHeight
      (mkMeanPooling 1 1 1 1 fl (0, 0) (0, 0) (2 ^ 53 + 1) 1 "same".toList).strideHeight =
      some hgt := by
    rw [eH, c2, c4]; exact hh
  have h := outputGeometry_of_axes
    (mkMeanPooling 1 1 1 1 fl (0, 0) (0, 0) (2 ^ 53 + 1) 1 "same".toList) hw hh2
    (show _ = ((2 ^ 53 : ℕ) : ℤ) by
      have e : ((2 : ℚ) ^ 53) = (((2 ^ 53 : ℤ) : ℤ) : ℚ) := by norm_num
      rw [e, Int.floor_intCast, Int.ceil_intCast]
      simp)
    (show _ = ((1 : ℕ) : ℤ) by
      rw [fh, ch]
      norm_num)
    (by norm_num) (by norm_num)
  rw [c5] at h
  exact h

/-- C5 (counterexample): a "same" layer with stride 1, kernel 1 and declared
input width `2^53 + 1` (height 1), on a 1x1 buffer, in floor and in ceil mode:
the pads are 0, the extent `2^53 + 1` is rounded to `2^53` when it is converted
to binary64, and `Forward` resolves `outputWidth = 2^53`, which is not the input
width. -/
theorem same_padding_stride_one_rounds :
    (∃ st out,
      Forward (mkMeanPooling 1 1 1 1 true (0, 0) (0, 0) (2 ^ 53 + 1) 1 "same".toList)
        (Mat.zeros 1 1) = some (st, out) ∧
      st.outputWidth = 2 ^ 53 ∧ st.outputWidth ≠ 2 ^ 53 + 1) ∧
    (∃ st out,
      Forward (mkMeanPooling 1 1 1 1 false (0, 0) (0, 0) (2 ^ 53 + 1) 1 "same".toList)
        (Mat.zeros 1 1) = some (st, out) ∧
      st.outputWidth = 2 ^ 53 ∧ st.outputWidth ≠ 2 ^ 53 + 1) := by
  constructor
  · obtain ⟨st, out, hF⟩ := Forward_isSome (Mat.zeros 1 1) (by decide) (same_geometry_rounds true)
    obtain ⟨-, geo, hg2, hgw, -⟩ := Forward_spec hF
    rw [same_geometry_rounds true] at hg2
    obtain rfl := Option.some.inj hg2
    exact ⟨st, out, hF, hgw, by rw [hgw]; norm_num⟩
  · obtain ⟨st, out, hF⟩ := Forward_isSome (Mat.zeros 1 1) (by decide) (same_geometry_rounds false)
    obtain ⟨-, geo, hg2, hgw, -⟩ := Forward_spec hF
    rw [same_geometry_rounds false] at hg2
    obtain rfl := Option.some.inj hg2
    exact ⟨st, out, hF, hgw, by rw [hgw]; norm_num⟩

/-- C5 (amended): for every positive inputDim and kernel, a layer constructed
with padding type "same" resolves, in `Forward`, `outputDim = inputDim` on every
axis whose stride is 1 and whose `inputDim + kernel` is below `2^50` (where the
binary64 arithmetic of `Forward` is exact), in both rounding modes: this is the
output size of every `Forward` call that returns, and `Forward` returns whenever
strides are positive, `stride * inputDim + kernel < 2^50` on each axis and the
divisor of the channel count is non-zero. -/
theorem same_padding_stride_one (kw kh sw sh : Nat) (fl : Bool) (padW padH : Nat × Nat)
    (iw ih : Nat) (pt : List Char) (input : Mat) (hpt : toLowerStr pt = "same".toList)
    (hkw : 1 ≤ kw) (hkh : 1 ≤ kh) (hiw : 1 ≤ iw) (hih : 1 ≤ ih) :
    (∀ st out, Forward (mkMeanPooling kw kh sw sh fl padW padH iw ih pt) input = some (st, out) →
      (sw = 1 → iw + kw < 2 ^ 50 → st.outputWidth = iw) ∧
      (sh = 1 → ih + kh < 2 ^ 50 → st.outputHeight = ih)) ∧
    (1 ≤ sw → 1 ≤ sh → sw * iw + kw < 2 ^ 50 → sh * ih + kh < 2 ^ 50 →
      mulSz (mulSz iw ih) input.n_cols ≠ 0 →
      ∃ st out, Forward (mkMeanPooling kw kh sw sh fl padW padH iw ih pt) input = some (st, out))
    := by
  constructor
  · intro st out hF
    obtain ⟨c1, c2, c3, c4, c5, c6, c7⟩ := mkMeanPooling_config kw kh sw sh fl padW padH iw ih pt
    obtain ⟨p1, p2, p3, p4⟩ := mkMeanPooling_same kw kh sw sh fl padW padH iw ih pt hpt
    obtain ⟨-, geo, hg, hgw, hgh, -⟩ := Forward_spec hF
    obtain ⟨w, hgt, gw, gh, fw, fh, -⟩ := outputGeometry_axes hg
    rw [c1, c3, c6, p1, p2] at gw
    rw [c2, c4, c7, p3, p4] at gh
    rw [c5] at fw fh
    constructor
    · intro h1 hb
      subst h1
      rw [hgw]
      exact stride_one_axis fl iw kw geo.1 w hiw hkw hb gw fw
    · intro h1 hb
      subst h1
      rw [hgh]
      exact stride_one_axis fl ih kh geo.2.1 hgt hih hkh hb gh fh
  · intro hsw hsh hW hH hin
    obtain ⟨st, out, hF, -⟩ :=
      Forward_same kw kh sw sh fl padW padH iw ih pt input hpt hkw hkh hsw hsh hiw hih hW hH hin
    exact ⟨st, out, hF⟩

/-- Witness for C5 (amended): input 5x4, kernel 3x2, stride 1x1, ceil rounding,
"same". -/
theorem same_padding_stride_one_witness :
    ∃ st out,
      Forward (mkMeanPooling 3 2 1 1 false (0, 0) (0, 0) 5 4 "same".toList) (Mat.zeros 20 1) =
        some (st, out) ∧
      st.outputWidth = 5 ∧ st.outputHeight = 4 := by
  have h := same_padding_stride_one 3 2 1 1 false (0, 0) (0, 0) 5 4 "same".toList
    (Mat.zeros 20 1) (by decide) (by decide) (by decide) (by decide) (by decide)
  obtain ⟨st, out, hF⟩ := h.2 (by decide) (by decide) (by decide) (by decide) (by decide)
  exact ⟨st, out, hF, (h.1 st out hF).1 rfl (by decide), (h.1 st out hF).2 rfl (by decide)⟩

/-! ## Shapes of `Forward` and `Backward` -/

theorem shape_arith (iw ih B C : Nat) (hiw : 1 ≤ iw) (hih : 1 ≤ ih) (hB : 1 ≤ B) (hC : 1 ≤ C)
    (hfit : iw * ih * C * B < 2 ^ 64) :
    mulSz (mulSz iw ih) B = iw * ih * B ∧ iw * ih * B ≠ 0 ∧
    iw * ih * C * B / (iw * ih * B) = C ∧ mulSz B C = B * C := by
  have hpos : 0 < iw * ih := Nat.mul_pos hiw hih
  have hposB : 0 < iw * ih * B := Nat.mul_pos hpos hB
  have e : iw * ih * C * B = iw * ih * B * C := by ring
  have h1 : iw * ih * B ≤ iw * ih * B * C := Nat.le_mul_of_pos_right _ hC
  have h2 : iw * ih ≤ iw * ih * B := Nat.le_mul_of_pos_right _ hB
  have h3 : B * C ≤ iw * ih * B * C := by
    calc B * C = 1 * (B * C) := (Nat.one_mul _).symm
      _ ≤ (iw * ih) * (B * C) := Nat.mul_le_mul_right _ hpos
      _ = iw * ih * B * C := by ring
  rw [e] at hfit
  have m1 : mulSz iw ih = iw * ih := mulSz_of_lt (by omega)
  refine ⟨?_, hposB.ne', ?_, ?_⟩
  · rw [m1]; exact mulSz_of_lt (by omega)
  · rw [e]; exact Nat.mul_div_cancel_left C hposB
  · exact mulSz_of_lt (by omega)

theorem Forward_sizes {L : MeanPooling} {input : Mat} {st : MeanPooling} {out : Mat}
    (hF : Forward L input = some (st, out)) (C : Nat)
    (hB : 1 ≤ input.n_cols) (hC : 1 ≤ C)
    (hR : input.n_rows = L.inputWidth * L.inputHeight * C)
    (hiw : 1 ≤ L.inputWidth) (hih : 1 ≤ L.inputHeight)
    (hfit : input.n_rows * input.n_cols < 2 ^ 64) :
    st.batchSize = input.n_cols ∧ st.inSize = C ∧ st.outSize = input.n_cols * C ∧
    st.inputTemp = Cube.ofMem input.mem L.inputWidth L.inputHeight (input.n_cols * C) ∧
    out.n_rows = st.outputWidth * st.outputHeight * C ∧ out.n_cols = input.n_cols ∧
    input.n_rows * input.n_cols / (L.inputWidth * L.inputHeight * input.n_cols) = C := by
  rw [hR] at hfit
  obtain ⟨a1, a2, a3, a4⟩ :=
    shape_arith L.inputWidth L.inputHeight input.n_cols C hiw hih hB hC hfit
  obtain ⟨-, geo2, hg2, hw, hh, -, hb, hi, ho, ht, -, hr, hc⟩ := Forward_spec hF
  have hiC : st.inSize = C := by
    rw [hi, a1, Mat.n_elem, hR]; exact a3
  have hoC : st.outSize = input.n_cols * C := by rw [ho, hiC]; exact a4
  refine ⟨hb, hiC, hoC, ?_, ?_, hc, ?_⟩
  · rw [ht, hoC]
  · rw [hr, hoC, hw, hh, ← Nat.mul_assoc, Nat.mul_comm (geo2.1 * geo2.2.1) input.n_cols,
      Nat.mul_assoc, Nat.mul_div_cancel_left _ (by omega : 0 < input.n_cols)]
  · rw [hR]; exact a3

theorem Forward_defined (L : MeanPooling) (input : Mat) (C : Nat) {geo : Nat × Nat × Nat}
    (hB : 1 ≤ input.n_cols) (hC : 1 ≤ C)
    (hR : input.n_rows = L.inputWidth * L.inputHeight * C)
    (hiw : 1 ≤ L.inputWidth) (hih : 1 ≤ L.inputHeight)
    (hfit : input.n_rows * input.n_cols < 2 ^ 64)
    (hg : outputGeometry L = some geo) :
    ∃ st out, Forward L input = some (st, out) := by
  rw [hR] at hfit
  obtain ⟨a1, a2, -⟩ :=
    shape_arith L.inputWidth L.inputHeight input.n_cols C hiw hih hB hC hfit
  exact Forward_isSome input (by rw [a1]; exact a2) hg

/-- C6: for every input matrix with `B ≥ 1` columns and
`R = inputWidth * inputHeight * C` rows (`C ≥ 1`, positive declared input sizes,
`R * B < 2^64` elements) and every layer whose output geometry resolves,
`Forward` records `batchSize = B` and `inSize = (R * B) / (inputWidth *
inputHeight * B) = C`, lays the input memory out as a cube of `B * C` slices
of size `inputWidth x inputHeight`, and returns an output matrix with exactly
`outputWidth * outputHeight * C` rows and `B` columns; afterwards
`outSize = B * C`. -/
theorem Forward_shapes (L : MeanPooling) (input : Mat) (C : Nat) (geo : Nat × Nat × Nat)
    (hB : 1 ≤ input.n_cols) (hC : 1 ≤ C)
    (hR : input.n_rows = L.inputWidth * L.inputHeight * C)
    (hiw : 1 ≤ L.inputWidth) (hih : 1 ≤ L.inputHeight)
    (hfit : input.n_rows * input.n_cols < 2 ^ 64)
    (hg : outputGeometry L = some geo) :
    ∃ st out, Forward L input = some (st, out) ∧
      st.batchSize = input.n_cols ∧
      st.inSize = C ∧
      input.n_rows * input.n_cols / (L.inputWidth * L.inputHeight * input.n_cols) = C ∧
      st.inputTemp = Cube.ofMem input.mem L.inputWidth L.inputHeight (input.n_cols * C) ∧
      out.n_rows = st.outputWidth * st.outputHeight * C ∧
      out.n_cols = input.n_cols ∧
      st.outSize = input.n_cols * C := by
  obtain ⟨st, out, hF⟩ := Forward_defined L input C hB hC hR hiw hih hfit hg
  obtain ⟨h1, h2, h3, h4, h5, h6, h7⟩ := Forward_sizes hF C hB hC hR hiw hih hfit
  exact ⟨st, out, hF, h1, h2, h7, h4, h5, h6, h3⟩

theorem example_geometry :
    outputGeometry (mkMeanPooling 2 2 2 2 true (0, 0) (0, 0) 4 4 "none".toList) =
      some (2, 2, 0) := by
  have hw : (if (mkMeanPooling 2 2 2 2 true (0, 0) (0, 0) 4 4 "none".toList).floor
      then ⌊(((addSz (addSz 4 0) 0 : ℕ) : ℚ) - ((2 : ℕ) : ℚ)) / ((2 : ℕ) : ℚ) + 1⌋
      else ⌈(((addSz (addSz 4 0) 0 : ℕ) : ℚ) - ((2 : ℕ) : ℚ)) / ((2 : ℕ) : ℚ) + 1⌉)
      = ((2 : ℕ) : ℤ) := by
    have e : addSz (addSz 4 0) 0 = 4 := by decide
    rw [e, if_pos (by decide)]
    norm_num
  exact outputGeometry_intro (mkMeanPooling 2 2 2 2 true (0, 0) (0, 0) 4 4 "none".toList)
    (by decide) (by decide) (by decide) (by decide) hw hw (by decide) (by decide)

/-- Witness for C6: one column of 32 rows, a declared 4x4 input, so two channels. -/
theorem Forward_shapes_witness :
    ∃ st out,
      Forward (mkMeanPooling 2 2 2 2 true (0, 0) (0, 0) 4 4 "none".toList) (Mat.zeros 32 1) =
        some (st, out) ∧
      st.inSize = 2 ∧ out.n_rows = st.outputWidth * st.outputHeight * 2 ∧ out.n_cols = 1 := by
  obtain ⟨st, out, hF, -, h2, -, -, h5, h6, -⟩ :=
    Forward_shapes (mkMeanPooling 2 2 2 2 true (0, 0) (0, 0) 4 4 "none".toList)
      (Mat.zeros 32 1) 2 (2, 2, 0) (by decide) (by decide) (by decide) (by decide) (by decide)
      (by decide) example_geometry
  exact ⟨st, out, hF, h2, h5, h6⟩

/-! ### The slice loops -/

theorem setSlice_slice_ne (c : Cube) (a t : Nat) (m : Mat) (h : t ≠ a) :
    (c.setSlice a m).slice t = c.slice t := by
  simp [Cube.setSlice, Cube.slice, h]

theorem foldl_setSlice_get (F : Nat → Mat → Mat) (l : List Nat) (hl : l.Nodup) (dst : Cube)
    (i j t : Nat) :
    (l.foldl (fun out s => out.setSlice s (F s (out.slice s))) dst).get i j t =
      if t ∈ l then (F t (dst.slice t)).get i j else dst.get i j t := by
  induction l generalizing dst with
  | nil => simp
  | cons a rest ih =>
    simp only [List.foldl_cons]
    rw [ih (List.nodup_cons.mp hl).2]
    have ha : a ∉ rest := (List.nodup_cons.mp hl).1
    by_cases hta : t = a
    · subst hta
      simp [ha, Cube.setSlice]
    · by_cases htr : t ∈ rest
      · simp [htr, hta, setSlice_slice_ne _ _ _ _ hta]
      · simp [htr, hta, Cube.setSlice]

theorem unpoolSlices_eq (L : MeanPooling) (me g : Cube) :
    unpoolSlices L me g =
      (List.range me.n_slices).foldl
        (fun out s => out.setSlice s
          ((fun s m => Unpooling L
            (if L.isPadded then L.inputPaddedTemp.slice s else L.inputTemp.slice s)
            (me.slice s) m) s (out.slice s))) g := by
  unfold unpoolSlices
  cases h : L.isPadded <;> simp

theorem unpoolSlices_shape (L : MeanPooling) (me g : Cube) :
    (unpoolSlices L me g).n_rows = g.n_rows ∧ (unpoolSlices L me g).n_cols = g.n_cols ∧
    (unpoolSlices L me g).n_slices = g.n_slices := by
  rw [unpoolSlices_eq]
  exact foldl_setSlice_shape _ _ g

theorem Backward_spec (L : MeanPooling) (x gy : Mat) (hb : L.batchSize ≠ 0) :
    ∃ st2 g, Backward L x gy = some (st2, g) ∧
      st2.gTemp = unpoolSlices L (Cube.ofMem gy.mem L.outputWidth L.outputHeight L.outSize)
        (Cube.zeros L.inputTemp.n_rows L.inputTemp.n_cols L.inputTemp.n_slices) ∧
      g.n_rows = L.inputTemp.n_rows * L.inputTemp.n_cols * L.inputTemp.n_slices / L.batchSize ∧
      g.n_cols = L.batchSize ∧
      g = Mat.ofMem st2.gTemp.mem (st2.gTemp.n_elem / L.batchSize) L.batchSize := by
  unfold Backward
  simp only [hb, if_false]
  refine ⟨_, _, rfl, rfl, ?_, rfl, rfl⟩
  simp [Mat.ofMem, Cube.n_elem, unpoolSlices_shape, Cube.zeros]

/-- C7: for every `Forward` call on an input matrix of
`R = inputWidth * inputHeight * C` rows and `B ≥ 1` columns (`C ≥ 1`, positive
declared input sizes, `R * B < 2^64` elements), the immediately following
`Backward` call returns a gradient matrix `g` with exactly `R` rows and `B`
columns, whether or not the layer is padded. -/
theorem Backward_shape (L st : MeanPooling) (input out x gy : Mat) (C : Nat)
    (hF : Forward L input = some (st, out))
    (hB : 1 ≤ input.n_cols) (hC : 1 ≤ C)
    (hR : input.n_rows = L.inputWidth * L.inputHeight * C)
    (hiw : 1 ≤ L.inputWidth) (hih : 1 ≤ L.inputHeight)
    (hfit : input.n_rows * input.n_cols < 2 ^ 64) :
    ∃ st2 g, Backward st x gy = some (st2, g) ∧
      g.n_rows = input.n_rows ∧ g.n_cols = input.n_cols := by
  obtain ⟨h1, h2, h3, h4, h5, h6, h7⟩ := Forward_sizes hF C hB hC hR hiw hih hfit
  obtain ⟨st2, g, hBk, -, hr, hc, -⟩ := Backward_spec st x gy (by rw [h1]; omega)
  refine ⟨st2, g, hBk, ?_, ?_⟩
  · rw [hr, h4, h1, hR]
    simp only [Cube.ofMem]
    rw [← Nat.mul_assoc, Nat.mul_comm (L.inputWidth * L.inputHeight) input.n_cols,
      Nat.mul_assoc, Nat.mul_div_cancel_left _ (by omega : 0 < input.n_cols)]
  · rw [hc, h1]

/-- Witness for C7: a padded layer (pads 1 on every side) on a 2x2 input. -/
theorem Backward_shape_witness :
    ∃ st out st2 g,
      Forward (mkMeanPooling 2 2 1 1 true (1, 1) (1, 1) 2 2 "none".toList) (Mat.zeros 4 1) =
        some (st, out) ∧
      Backward st (Mat.zeros 4 1) (Mat.zeros 9 1) = some (st2, g) ∧
      g.n_rows = 4 ∧ g.n_cols = 1 := by
  obtain ⟨st, out, hF, -⟩ :=
    Forward_resolves (mkMeanPooling 2 2 1 1 true (1, 1) (1, 1) 2 2 "none".toList)
      (Mat.zeros 4 1) (by decide) (by decide) (by decide) (by decide) (by decide) (by decide)
      (by decide) (by decide) (by decide)
  obtain ⟨st2, g, hBk, hr, hc⟩ :=
    Backward_shape (mkMeanPooling 2 2 1 1 true (1, 1) (1, 1) 2 2 "none".toList) st
      (Mat.zeros 4 1) out (Mat.zeros 4 1) (Mat.zeros 9 1) 1 hF (by decide) (by decide)
      (by decide) (by decide) (by decide) (by decide)
  exact ⟨st, out, st2, g, hF, hBk, hr, hc⟩

/-! ## Pooling windows under floor rounding -/

theorem floor_window_inside (N k s o i : Nat) (hs : s ≠ 0)
    (h : ⌊((N : ℚ) - (k : ℚ)) / (s : ℚ) + 1⌋ = (o : ℤ)) (hi : i < o) : i * s + k ≤ N := by
  have hs0 : (0 : ℚ) < (s : ℚ) := by
    have : 0 < s := Nat.pos_of_ne_zero hs
    exact_mod_cast this
  have h1 : ((o : ℤ) : ℚ) ≤ ((N : ℚ) - (k : ℚ)) / (s : ℚ) + 1 := by
    rw [← h]; exact Int.floor_le _
  have h2 : ((o : ℚ) - 1) * (s : ℚ) ≤ (N : ℚ) - (k : ℚ) := by
    have : (o : ℚ) - 1 ≤ ((N : ℚ) - (k : ℚ)) / (s : ℚ) := by
      have h1' : (o : ℚ) ≤ ((N : ℚ) - (k : ℚ)) / (s : ℚ) + 1 := by exact_mod_cast h1
      linarith
    exact (le_div_iff₀ hs0).mp this
  have h3 : (i : ℚ) ≤ (o : ℚ) - 1 := by
    have : i + 1 ≤ o := hi
    have : ((i + 1 : ℕ) : ℚ) ≤ (o : ℚ) := by exact_mod_cast this
    push_cast at this
    linarith
  have h4 : (i : ℚ) * (s : ℚ) ≤ ((o : ℚ) - 1) * (s : ℚ) :=
    mul_le_mul_of_nonneg_right h3 hs0.le
  have h5 : ((i * s + k : ℕ) : ℚ) ≤ (N : ℚ) := by
    push_cast
    linarith
  exact_mod_cast h5

theorem windowRows_full (L : MeanPooling) (input : Mat) (i : Nat)
    (h : i * L.strideWidth + L.kernelWidth ≤ input.n_rows) :
    windowRows L input i = Finset.Ico (i * L.strideWidth) (i * L.strideWidth + L.kernelWidth) := by
  unfold windowRows
  apply Finset.filter_true_of_mem
  intro r hr
  have := (Finset.mem_Ico.mp hr).2
  omega

theorem windowCols_full (L : MeanPooling) (input : Mat) (j : Nat)
    (h : j * L.strideHeight + L.kernelHeight ≤ input.n_cols) :
    windowCols L input j =
      Finset.Ico (j * L.strideHeight) (j * L.strideHeight + L.kernelHeight) := by
  unfold windowCols
  apply Finset.filter_true_of_mem
  intro r hr
  have := (Finset.mem_Ico.mp hr).2
  omega

theorem windowCount_full (L : MeanPooling) (input : Mat) (i j : Nat)
    (hi : i * L.strideWidth + L.kernelWidth ≤ input.n_rows)
    (hj : j * L.strideHeight + L.kernelHeight ≤ input.n_cols) :
    windowCount L input i j = L.kernelWidth * L.kernelHeight := by
  unfold windowCount
  rw [windowRows_full L input i hi, windowCols_full L input j hj]
  simp

/-- What `Forward` leaves in the layer when no padding is applied. -/
theorem Forward_unpadded {L : MeanPooling} {input : Mat} {st : MeanPooling} {out : Mat}
    (h : Forward L input = some (st, out)) (hp : L.isPadded = false) :
    st.outputTemp =
      poolSlices L st.inputTemp (Cube.zeros st.outputWidth st.outputHeight st.outSize) ∧
    out = Mat.ofMem st.outputTemp.mem (st.outputTemp.n_elem / input.n_cols) input.n_cols ∧
    st.kernelWidth = L.kernelWidth ∧ st.kernelHeight = L.kernelHeight ∧
    st.strideWidth = L.strideWidth ∧ st.strideHeight = L.strideHeight ∧
    st.isPadded = false := by
  unfold Forward at h
  by_cases hd : mulSz (mulSz L.inputWidth L.inputHeight) input.n_cols = 0
  · simp [hd] at h
  · simp only [hd, if_false, Option.bind_eq_some] at h
    obtain ⟨geo, hg, h⟩ := h
    simp only [Option.some.injEq, Prod.mk.injEq] at h
    obtain ⟨rfl, rfl⟩ := h
    simp [hp, poolSlices_shape, Cube.zeros]

theorem Forward_outputTemp_shape {L : MeanPooling} {input : Mat} {st : MeanPooling} {out : Mat}
    (h : Forward L input = some (st, out)) :
    st.outputTemp.n_rows = st.outputWidth ∧ st.outputTemp.n_cols = st.outputHeight ∧
    st.outputTemp.n_slices = st.outSize := by
  unfold Forward at h
  by_cases hd : mulSz (mulSz L.inputWidth L.inputHeight) input.n_cols = 0
  · simp [hd] at h
  · simp only [hd, if_false, Option.bind_eq_some] at h
    obtain ⟨geo, hg, h⟩ := h
    simp only [Option.some.injEq, Prod.mk.injEq] at h
    obtain ⟨rfl, rfl⟩ := h
    by_cases hp : L.isPadded = true <;> simp [hp, poolSlices_shape, Cube.zeros]

theorem poolSlices_get (L : MeanPooling) (src dst : Cube) (i j s : Nat) (hs : s < src.n_slices) :
    (poolSlices L src dst).get i j s =
      (∑ r ∈ windowRows L (src.slice s) i, ∑ c ∈ windowCols L (src.slice s) j, src.get r c s) /
        (windowCount L (src.slice s) i j : ℚ) := by
  unfold poolSlices
  rw [foldl_setSlice_get (fun s m => Pooling L (src.slice s) m) _ (List.nodup_range _) dst i j s]
  simp [hs, Pooling, Cube.slice]

/-- Under floor rounding without padding, with operands below `2^50`, every
window of the output lies inside the input slice. -/
theorem floor_windows_inside {L : MeanPooling} {input : Mat} {st : MeanPooling} {out : Mat}
    (hF : Forward L input = some (st, out)) (hfl : L.floor = true)
    (hp1 : L.padWLeft = 0) (hp2 : L.padWRight = 0) (hp3 : L.padHTop = 0) (hp4 : L.padHBottom = 0)
    (hxw : L.inputWidth < 2 ^ 50 ∧ L.kernelWidth < 2 ^ 50 ∧ L.strideWidth < 2 ^ 50)
    (hxh : L.inputHeight < 2 ^ 50 ∧ L.kernelHeight < 2 ^ 50 ∧ L.strideHeight < 2 ^ 50) :
    (∀ i, i < st.outputWidth → i * L.strideWidth + L.kernelWidth ≤ L.inputWidth) ∧
    (∀ j, j < st.outputHeight → j * L.strideHeight + L.kernelHeight ≤ L.inputHeight) := by
  obtain ⟨-, geo, hg, hw, hh, -⟩ := Forward_spec hF
  have eW : addSz (addSz L.inputWidth L.padWLeft) L.padWRight = L.inputWidth := by
    have := addSz_addSz_of_lt (show L.inputWidth + L.padWLeft + L.padWRight < 2 ^ 64 by omega)
    omega
  have eH : addSz (addSz L.inputHeight L.padHTop) L.padHBottom = L.inputHeight := by
    have := addSz_addSz_of_lt (show L.inputHeight + L.padHTop + L.padHBottom < 2 ^ 64 by omega)
    omega
  obtain ⟨hsw, hsh, gw, gh, -⟩ := outputGeometry_spec hg (by rw [eW]; exact hxw)
    (by rw [eH]; exact hxh)
  rw [hfl, if_pos rfl, eW] at gw
  rw [hfl, if_pos rfl, eH] at gh
  constructor
  · intro i hi
    exact floor_window_inside _ _ _ _ i hsw gw (by rw [← hw]; exact hi)
  · intro j hj
    exact floor_window_inside _ _ _ _ j hsh gh (by rw [← hh]; exact hj)

theorem pooled_cell {L : MeanPooling} {input : Mat} {st : MeanPooling} {out : Mat}
    (hF : Forward L input = some (st, out)) (hfl : L.floor = true) (hp : L.isPadded = false)
    (hp1 : L.padWLeft = 0) (hp2 : L.padWRight = 0) (hp3 : L.padHTop = 0) (hp4 : L.padHBottom = 0)
    (hxw : L.inputWidth < 2 ^ 50 ∧ L.kernelWidth < 2 ^ 50 ∧ L.strideWidth < 2 ^ 50)
    (hxh : L.inputHeight < 2 ^ 50 ∧ L.kernelHeight < 2 ^ 50 ∧ L.strideHeight < 2 ^ 50)
    (s i j : Nat) (hs : s < st.outSize) (hi : i < st.outputWidth) (hj : j < st.outputHeight) :
    st.outputTemp.get i j s =
      (∑ r ∈ Finset.Ico (i * L.strideWidth) (i * L.strideWidth + L.kernelWidth),
        ∑ c ∈ Finset.Ico (j * L.strideHeight) (j * L.strideHeight + L.kernelHeight),
          st.inputTemp.get r c s) / ((L.kernelWidth : ℚ) * (L.kernelHeight : ℚ)) := by
  obtain ⟨hin, hjn⟩ := floor_windows_inside hF hfl hp1 hp2 hp3 hp4 hxw hxh
  obtain ⟨hot, -⟩ := Forward_unpadded hF hp
  obtain ⟨-, geo, -, -, -, -, -, -, -, ht, -⟩ := Forward_spec hF
  have hr : (st.inputTemp.slice s).n_rows = L.inputWidth := by rw [ht]; rfl
  have hc : (st.inputTemp.slice s).n_cols = L.inputHeight := by rw [ht]; rfl
  have hsl : s < st.inputTemp.n_slices := by rw [ht]; exact hs
  rw [hot, poolSlices_get L _ _ i j s hsl,
    windowCount_full L _ i j (by rw [hr]; exact hin i hi) (by rw [hc]; exact hjn j hj),
    windowRows_full L _ i (by rw [hr]; exact hin i hi),
    windowCols_full L _ j (by rw [hc]; exact hjn j hj)]
  push_cast
  rfl

theorem unpoolCell_get (L : MeanPooling) (input error acc : Mat) (ij : Nat × Nat) (r c : Nat) :
    (unpoolCell L input error acc ij).get r c =
      acc.get r c +
        (if r ∈ windowRows L input ij.1 ∧ c ∈ windowCols L input ij.2 then
          error.get ij.1 ij.2 / (windowCount L input ij.1 ij.2 : ℚ) else 0) := by
  unfold unpoolCell
  by_cases h : r ∈ windowRows L input ij.1 ∧ c ∈ windowCols L input ij.2
  · simp only [if_pos h]
  · simp only [if_neg h, add_zero]

theorem foldl_range_get (step : Mat → Nat → Mat) (f : Nat → ℚ) (r c : Nat)
    (hstep : ∀ acc i, (step acc i).get r c = acc.get r c + f i) (n : Nat) (acc : Mat) :
    ((List.range n).foldl step acc).get r c = acc.get r c + ∑ i ∈ Finset.range n, f i := by
  induction n with
  | zero => simp
  | succ n ih =>
    rw [List.range_succ, List.foldl_append, List.foldl_cons, List.foldl_nil, hstep, ih,
      Finset.sum_range_succ]
    ring

theorem Unpooling_get (L : MeanPooling) (input error output : Mat) (r c : Nat) :
    (Unpooling L input error output).get r c =
      output.get r c +
        ∑ j ∈ Finset.range error.n_cols, ∑ i ∈ Finset.range error.n_rows,
          (if r ∈ windowRows L input i ∧ c ∈ windowCols L input j then
            error.get i j / (windowCount L input i j : ℚ) else 0) := by
  unfold Unpooling
  apply foldl_range_get
  intro acc j
  apply foldl_range_get
  intro acc2 i
  exact unpoolCell_get L input error acc2 (i, j) r c

theorem padSlices_shape (L : MeanPooling) (src dst : Cube) :
    (padSlices L src dst).n_rows = dst.n_rows ∧ (padSlices L src dst).n_cols = dst.n_cols ∧
    (padSlices L src dst).n_slices = dst.n_slices :=
  foldl_setSlice_shape (fun _ i => L.padding.Forward (src.slice i)) _ dst

/-- What `Forward` leaves in the layer when padding is applied. -/
theorem Forward_padded {L : MeanPooling} {input : Mat} {st : MeanPooling} {out : Mat}
    (h : Forward L input = some (st, out)) (hp : L.isPadded = true) :
    st.isPadded = true ∧
    st.inputPaddedTemp.n_rows = addSz (addSz L.inputWidth L.padWLeft) L.padWRight ∧
    st.inputPaddedTemp.n_cols = addSz (addSz L.inputHeight L.padHTop) L.padHBottom ∧
    st.padding = L.padding ∧
    st.kernelWidth = L.kernelWidth ∧ st.kernelHeight = L.kernelHeight ∧
    st.strideWidth = L.strideWidth ∧ st.strideHeight = L.strideHeight := by
  unfold Forward at h
  by_cases hd : mulSz (mulSz L.inputWidth L.inputHeight) input.n_cols = 0
  · simp [hd] at h
  · simp only [hd, if_false, Option.bind_eq_some] at h
    obtain ⟨geo, hg, h⟩ := h
    simp only [Option.some.injEq, Prod.mk.injEq] at h
    obtain ⟨rfl, rfl⟩ := h
    simp [hp, padSlices_shape, Cube.zeros, Cube.ofMem]

theorem Unpooling_get_full (L : MeanPooling) (input error output : Mat) (r c : Nat)
    (hin : ∀ i, i < error.n_rows → i * L.strideWidth + L.kernelWidth ≤ input.n_rows)
    (hjn : ∀ j, j < error.n_cols → j * L.strideHeight + L.kernelHeight ≤ input.n_cols) :
    (Unpooling L input error output).get r c =
      output.get r c +
        ∑ j ∈ Finset.range error.n_cols, ∑ i ∈ Finset.range error.n_rows,
          (if r ∈ Finset.Ico (i * L.strideWidth) (i * L.strideWidth + L.kernelWidth) ∧
              c ∈ Finset.Ico (j * L.strideHeight) (j * L.strideHeight + L.kernelHeight) then
            error.get i j / ((L.kernelWidth : ℚ) * (L.kernelHeight : ℚ)) else 0) := by
  rw [Unpooling_get]
  congr 1
  apply Finset.sum_congr rfl
  intro j hj
  apply Finset.sum_congr rfl
  intro i hi
  have hi' := hin i (Finset.mem_range.mp hi)
  have hj' := hjn j (Finset.mem_range.mp hj)
  rw [windowRows_full L input i hi', windowCols_full L input j hj',
    windowCount_full L input i j hi' hj']
  push_cast
  rfl

theorem example_geometry_padded :
    outputGeometry (mkMeanPooling 2 2 1 1 true (1, 1) (1, 1) 2 2 "none".toList) =
      some (3, 3, 0) := by
  have hw : (if (mkMeanPooling 2 2 1 1 true (1, 1) (1, 1) 2 2 "none".toList).floor
      then ⌊(((addSz (addSz 2 1) 1 : ℕ) : ℚ) - ((2 : ℕ) : ℚ)) / ((1 : ℕ) : ℚ) + 1⌋
      else ⌈(((addSz (addSz 2 1) 1 : ℕ) : ℚ) - ((2 : ℕ) : ℚ)) / ((1 : ℕ) : ℚ) + 1⌉)
      = ((3 : ℕ) : ℤ) := by
    have e : addSz (addSz 2 1) 1 = 4 := by decide
    rw [e, if_pos (by decide)]
    norm_num
  exact outputGeometry_intro (mkMeanPooling 2 2 1 1 true (1, 1) (1, 1) 2 2 "none".toList)
    (by decide) (by decide) (by decide) (by decide) hw hw (by decide) (by decide)

/-- C8 (the code at a padded layer): input 2x2, kernel 2x2, stride 1x1, one cell
of padding on every side, output gradient all ones.  `Forward` pads the slice to
4x4, yet `Backward` accumulates into a gradient cube of the input size 2x2 and
returns its memory: `g(0, 0) = 1/4` is the share that landed on the padding cell
`(0, 0)`, whereas unpooling into a 4x4 buffer and extracting the interior with
the padding layer's backward operation gives 1 there. -/
theorem Backward_padded_gradient_buffer :
    ∃ st out st2 g,
      Forward (mkMeanPooling 2 2 1 1 true (1, 1) (1, 1) 2 2 "none".toList) (Mat.zeros 4 1) =
        some (st, out) ∧
      Backward st (Mat.zeros 4 1) { n_rows := 9, n_cols := 1, get := fun _ _ => 1 } =
        some (st2, g) ∧
      st.isPadded = true ∧
      st.inputPaddedTemp.n_rows = 4 ∧ st.inputPaddedTemp.n_cols = 4 ∧
      st2.gTemp.n_rows = 2 ∧ st2.gTemp.n_cols = 2 ∧
      g.n_rows = 4 ∧ g.n_cols = 1 ∧
      g.get 0 0 = 1 / 4 ∧
      (st.padding.Backward
        (Unpooling st (st.inputPaddedTemp.slice 0)
          ((Cube.ofMem (Mat.mem { n_rows := 9, n_cols := 1, get := fun _ _ => 1 })
            st.outputWidth st.outputHeight st.outSize).slice 0)
          (Mat.zeros 4 4))).get 0 0 = 1 := by
  obtain ⟨st, out, hF⟩ := Forward_isSome (Mat.zeros 4 1) (by decide) example_geometry_padded
  obtain ⟨-, geo, hg, hw, hh, -⟩ := Forward_spec hF
  rw [example_geometry_padded] at hg
  obtain rfl := Option.some.inj hg
  simp only at hw hh
  obtain ⟨b1, -, b3, b4, -⟩ :=
    Forward_sizes hF 1 (by decide) (by decide) (by decide) (by decide) (by decide) (by decide)
  obtain ⟨q1, q2, q3, q4, q5, q6, q7, q8⟩ := Forward_padded hF (by decide)
  have e4 : addSz (addSz 2 1) 1 = 4 := by decide
  have q2' : st.inputPaddedTemp.n_rows = 4 := by rw [q2]; exact e4
  have q3' : st.inputPaddedTemp.n_cols = 4 := by rw [q3]; exact e4
  have k1 : st.kernelWidth = 2 := by rw [q5]; decide
  have k2 : st.kernelHeight = 2 := by rw [q6]; decide
  have k3 : st.strideWidth = 1 := by rw [q7]; decide
  have k4 : st.strideHeight = 1 := by rw [q8]; decide
  have pd : st.padding = ⟨1, 1, 1, 1⟩ := by rw [q4]; rfl
  have hb0 : st.batchSize ≠ 0 := by rw [b1]; decide
  have hos : st.outSize = 1 := by rw [b3]; rfl
  obtain ⟨st2, g, hBk, hgT, hr, hc, hgm⟩ :=
    Backward_spec st (Mat.zeros 4 1) { n_rows := 9, n_cols := 1, get := fun _ _ => 1 } hb0
  obtain ⟨s1, s2, s3⟩ := unpoolSlices_shape st
    (Cube.ofMem (Mat.mem { n_rows := 9, n_cols := 1, get := fun _ _ => 1 })
      st.outputWidth st.outputHeight st.outSize)
    (Cube.zeros st.inputTemp.n_rows st.inputTemp.n_cols st.inputTemp.n_slices)
  have t1 : st.inputTemp.n_rows = 2 := by rw [b4]; rfl
  have t2 : st.inputTemp.n_cols = 2 := by rw [b4]; rfl
  have g1 : st2.gTemp.n_rows = 2 := by rw [hgT, s1]; exact t1
  have g2 : st2.gTemp.n_cols = 2 := by rw [hgT, s2]; exact t2
  have full : ∀ (output : Mat) (r c : Nat),
      (Unpooling st (st.inputPaddedTemp.slice 0)
        ((Cube.ofMem (Mat.mem { n_rows := 9, n_cols := 1, get := fun _ _ => 1 })
          st.outputWidth st.outputHeight st.outSize).slice 0) output).get r c =
      output.get r c +
        ∑ j ∈ Finset.range 3, ∑ i ∈ Finset.range 3,
          (if r ∈ Finset.Ico (i * 1) (i * 1 + 2) ∧ c ∈ Finset.Ico (j * 1) (j * 1 + 2) then
            (1 : ℚ) / (((2 : ℕ) : ℚ) * ((2 : ℕ) : ℚ)) else 0) := by
    intro output r c
    rw [Unpooling_get_full]
    · simp only [Cube.slice, Cube.ofMem, hw, hh, k1, k2, k3, k4, Mat.mem]
    · intro i hi
      simp only [Cube.slice, Cube.ofMem, hw, q2', k1, k3] at hi ⊢
      omega
    · intro j hj
      simp only [Cube.slice, Cube.ofMem, hh, q3', k2, k4] at hj ⊢
      omega
  refine ⟨st, out, st2, g, hF, hBk, q1, q2', q3', g1, g2, ?_, ?_, ?_, ?_⟩
  · rw [hr, b4, b1]; rfl
  · rw [hc, b1]; rfl
  · rw [hgm]
    simp only [Mat.ofMem, Cube.mem, g1, g2]
    norm_num
    rw [hgT, unpoolSlices_eq, foldl_setSlice_get _ _ (List.nodup_range _)]
    have hmem : 0 ∈ List.range (Cube.ofMem
        (Mat.mem { n_rows := 9, n_cols := 1, get := fun _ _ => 1 })
        st.outputWidth st.outputHeight st.outSize).n_slices := by
      simp [Cube.ofMem, hos]
    rw [if_pos hmem]
    simp only [q1, if_true]
    rw [full]
    simp [Cube.zeros, Cube.slice, Finset.sum_range_succ, Finset.mem_Ico]
    norm_num
  · rw [pd]
    simp only [Padding.Backward]
    rw [full]
    simp [Mat.zeros, Finset.sum_range_succ, Finset.mem_Ico]
    norm_num

/-! ## Inputs whose length is not a whole number of slices -/

/-- The channel count is a truncating division: the cube laid over the input
memory covers a leading part of it. -/
theorem Forward_leading_part {L : MeanPooling} {input : Mat} {st : MeanPooling} {out : Mat}
    (hF : Forward L input = some (st, out))
    (hiw : 1 ≤ L.inputWidth) (hih : 1 ≤ L.inputHeight) (hB : 1 ≤ input.n_cols)
    (hdfit : L.inputWidth * L.inputHeight * input.n_cols < 2 ^ 64)
    (hfit : input.n_rows * input.n_cols < 2 ^ 64) :
    st.inSize = input.n_rows * input.n_cols / (L.inputWidth * L.inputHeight * input.n_cols) ∧
    st.outSize = input.n_cols * st.inSize ∧
    st.inputTemp = Cube.ofMem input.mem L.inputWidth L.inputHeight (input.n_cols * st.inSize) ∧
    L.inputWidth * L.inputHeight * (input.n_cols * st.inSize) ≤ input.n_rows * input.n_cols ∧
    out.n_rows = st.outputWidth * st.outputHeight * st.inSize ∧
    out.n_cols = input.n_cols := by
  obtain ⟨-, geo, -, hw, hh, -, -, hi, ho, ht, -, hr, hc⟩ := Forward_spec hF
  have hpos : 0 < L.inputWidth * L.inputHeight := Nat.mul_pos hiw hih
  have h2 : L.inputWidth * L.inputHeight ≤ L.inputWidth * L.inputHeight * input.n_cols :=
    Nat.le_mul_of_pos_right _ hB
  have m1 : mulSz L.inputWidth L.inputHeight = L.inputWidth * L.inputHeight :=
    mulSz_of_lt (by omega)
  have m2 : mulSz (mulSz L.inputWidth L.inputHeight) input.n_cols =
      L.inputWidth * L.inputHeight * input.n_cols := by
    rw [m1]; exact mulSz_of_lt hdfit
  have hi2 : st.inSize =
      input.n_rows * input.n_cols / (L.inputWidth * L.inputHeight * input.n_cols) := by
    rw [hi, m2]; rfl
  have hle : L.inputWidth * L.inputHeight * input.n_cols * st.inSize ≤
      input.n_rows * input.n_cols := by
    rw [hi2, Nat.mul_comm]
    exact Nat.div_mul_le_self _ _
  have hle2 : L.inputWidth * L.inputHeight * (input.n_cols * st.inSize) ≤
      input.n_rows * input.n_cols := by
    rw [← Nat.mul_assoc]; exact hle
  have hle3 : input.n_cols * st.inSize ≤
      L.inputWidth * L.inputHeight * (input.n_cols * st.inSize) :=
    Nat.le_mul_of_pos_left _ hpos
  have m3 : mulSz input.n_cols st.inSize = input.n_cols * st.inSize :=
    mulSz_of_lt (by omega)
  have ho2 : st.outSize = input.n_cols * st.inSize := by rw [ho, m3]
  refine ⟨hi2, ho2, ?_, hle2, ?_, hc⟩
  · rw [ht, ho2]
  · rw [hr, ho2, hw, hh, ← Nat.mul_assoc, Nat.mul_comm (geo.1 * geo.2.1) input.n_cols,
      Nat.mul_assoc, Nat.mul_div_cancel_left _ (by omega : 0 < input.n_cols)]

theorem example_geometry_2x2 :
    outputGeometry (mkMeanPooling 2 2 2 2 true (0, 0) (0, 0) 2 2 "none".toList) =
      some (1, 1, 0) := by
  have hw : (if (mkMeanPooling 2 2 2 2 true (0, 0) (0, 0) 2 2 "none".toList).floor
      then ⌊(((addSz (addSz 2 0) 0 : ℕ) : ℚ) - ((2 : ℕ) : ℚ)) / ((2 : ℕ) : ℚ) + 1⌋
      else ⌈(((addSz (addSz 2 0) 0 : ℕ) : ℚ) - ((2 : ℕ) : ℚ)) / ((2 : ℕ) : ℚ) + 1⌉)
      = ((1 : ℕ) : ℤ) := by
    have e : addSz (addSz 2 0) 0 = 2 := by decide
    rw [e, if_pos (by decide)]
    norm_num
  exact outputGeometry_intro (mkMeanPooling 2 2 2 2 true (0, 0) (0, 0) 2 2 "none".toList)
    (by decide) (by decide) (by decide) (by decide) hw hw (by decide) (by decide)

/-- C11 (counterexample): a declared 2x2 input and a buffer of 5 rows, 1 column
holding 1..5; 5 is not a multiple of 4, yet `Forward` returns an output: it
takes one slice (the leading 4 elements) and the single output cell is their
mean 5/2; the fifth element is left out. -/
theorem Forward_accepts_ragged_input :
    ∃ st out,
      Forward (mkMeanPooling 2 2 2 2 true (0, 0) (0, 0) 2 2 "none".toList)
        { n_rows := 5, n_cols := 1, get := fun k _ => (k : ℚ) + 1 } = some (st, out) ∧
      5 % (2 * 2) ≠ 0 ∧
      st.inSize = 1 ∧ st.inputTemp.n_slices = 1 ∧ st.inputTemp.n_elem = 4 ∧
      out.n_rows = 1 ∧ out.n_cols = 1 ∧ out.get 0 0 = 5 / 2 := by
  obtain ⟨st, out, hF⟩ :=
    Forward_isSome { n_rows := 5, n_cols := 1, get := fun k _ => (k : ℚ) + 1 } (by decide)
      example_geometry_2x2
  obtain ⟨-, geo, hg, hw, hh, -⟩ := Forward_spec hF
  rw [example_geometry_2x2] at hg
  obtain rfl := Option.some.inj hg
  simp only at hw hh
  obtain ⟨h1, h2, h3, -, h5, h6⟩ :=
    Forward_leading_part hF (by decide) (by decide) (by decide) (by decide) (by decide)
  have hin : st.inSize = 1 := by rw [h1]; decide
  rw [hin] at h2 h3 h5
  obtain ⟨-, hout, -⟩ := Forward_unpadded hF (by decide)
  obtain ⟨s1, s2, -⟩ := Forward_outputTemp_shape hF
  have hor : st.outputTemp.n_rows = 1 := by rw [s1, hw]
  have hoc : st.outputTemp.n_cols = 1 := by rw [s2, hh]
  obtain ⟨-, -, -, -, -, c6, c7⟩ :=
    mkMeanPooling_config 2 2 2 2 true (0, 0) (0, 0) 2 2 "none".toList
  rw [c6, c7] at h3
  have cell : st.outputTemp.get 0 0 0 =
      (∑ r ∈ Finset.Ico (0 * 2) (0 * 2 + 2), ∑ c ∈ Finset.Ico (0 * 2) (0 * 2 + 2),
        st.inputTemp.get r c 0) / (((2 : ℕ) : ℚ) * ((2 : ℕ) : ℚ)) :=
    pooled_cell hF (by decide) (by decide) (by decide) (by decide) (by decide)
      (by decide) (by decide) (by decide) 0 0 0 (by rw [h2]; decide) (by rw [hw]; decide)
      (by rw [hh]; decide)
  refine ⟨st, out, hF, by decide, hin, ?_, ?_, ?_, h6, ?_⟩
  · rw [h3]; rfl
  · rw [h3]; rfl
  · rw [h5, hw, hh]
  · rw [hout]
    simp only [Mat.ofMem, Cube.mem, hor, hoc]
    norm_num
    rw [cell, h3]
    simp only [Cube.ofMem, Mat.mem]
    norm_num [Finset.sum_Ico_eq_sum_range, Finset.sum_range_succ]

/-- C11 (amended): `Forward` makes no shape check and never fails on the length
of the buffer.  For every input matrix with `B ≥ 1` columns (declared input
sizes positive, `inputWidth * inputHeight * B` and the element count below
`2^64`, output geometry resolved) it returns an output; the slice count it uses
is `D = B * inSize` with `inSize = n_elem / (inputWidth * inputHeight * B)`
(truncating division), the volume is laid over the leading
`inputWidth * inputHeight * D ≤ n_elem` elements of the buffer, and the output
has `outputWidth * outputHeight * inSize` rows and `B` columns; elements beyond
the leading part are left out. -/
theorem Forward_uses_leading_part (L : MeanPooling) (input : Mat) (geo : Nat × Nat × Nat)
    (hiw : 1 ≤ L.inputWidth) (hih : 1 ≤ L.inputHeight) (hB : 1 ≤ input.n_cols)
    (hdfit : L.inputWidth * L.inputHeight * input.n_cols < 2 ^ 64)
    (hfit : input.n_rows * input.n_cols < 2 ^ 64)
    (hg : outputGeometry L = some geo) :
    ∃ st out, Forward L input = some (st, out) ∧
      st.inSize = input.n_rows * input.n_cols / (L.inputWidth * L.inputHeight * input.n_cols) ∧
      st.outSize = input.n_cols * st.inSize ∧
      st.inputTemp = Cube.ofMem input.mem L.inputWidth L.inputHeight (input.n_cols * st.inSize) ∧
      L.inputWidth * L.inputHeight * (input.n_cols * st.inSize) ≤ input.n_rows * input.n_cols ∧
      out.n_rows = st.outputWidth * st.outputHeight * st.inSize ∧
      out.n_cols = input.n_cols := by
  have hpos : 0 < L.inputWidth * L.inputHeight := Nat.mul_pos hiw hih
  have h2 : L.inputWidth * L.inputHeight ≤ L.inputWidth * L.inputHeight * input.n_cols :=
    Nat.le_mul_of_pos_right _ hB
  have hd : mulSz (mulSz L.inputWidth L.inputHeight) input.n_cols ≠ 0 := by
    rw [mulSz_of_lt (show L.inputWidth * L.inputHeight < 2 ^ 64 by omega), mulSz_of_lt hdfit]
    exact (Nat.mul_pos hpos hB).ne'
  obtain ⟨st, out, hF⟩ := Forward_isSome input hd hg
  exact ⟨st, out, hF, Forward_leading_part hF hiw hih hB hdfit hfit⟩

/-- Witness for C11 (amended): a declared 2x2 input and a 7x2 buffer. -/
theorem Forward_uses_leading_part_witness :
    ∃ st out,
      Forward (mkMeanPooling 2 2 2 2 true (0, 0) (0, 0) 2 2 "none".toList) (Mat.zeros 7 2) =
        some (st, out) ∧
      st.inSize = 7 * 2 / (2 * 2 * 2) ∧ out.n_cols = 2 := by
  obtain ⟨st, out, hF, h1, -, -, -, -, h6⟩ :=
    Forward_uses_leading_part (mkMeanPooling 2 2 2 2 true (0, 0) (0, 0) 2 2 "none".toList)
      (Mat.zeros 7 2) (1, 1, 0) (by decide) (by decide) (by decide) (by decide) (by decide)
      example_geometry_2x2
  exact ⟨st, out, hF, h1, h6⟩

/-! ## Degenerate geometry -/

theorem example_geometry_empty :
    outputGeometry (mkMeanPooling 3 3 1 1 true (0, 0) (0, 0) 2 2 "none".toList) =
      some (0, 0, 0) := by
  have hw : (if (mkMeanPooling 3 3 1 1 true (0, 0) (0, 0) 2 2 "none".toList).floor
      then ⌊(((addSz (addSz 2 0) 0 : ℕ) : ℚ) - ((3 : ℕ) : ℚ)) / ((1 : ℕ) : ℚ) + 1⌋
      else ⌈(((addSz (addSz 2 0) 0 : ℕ) : ℚ) - ((3 : ℕ) : ℚ)) / ((1 : ℕ) : ℚ) + 1⌉)
      = ((0 : ℕ) : ℤ) := by
    have e : addSz (addSz 2 0) 0 = 2 := by decide
    rw [e, if_pos (by decide)]
    norm_num
  exact outputGeometry_intro (mkMeanPooling 3 3 1 1 true (0, 0) (0, 0) 2 2 "none".toList)
    (by decide) (by decide) (by decide) (by decide) hw hw (by decide) (by decide)

theorem Forward_of_geometry (L : MeanPooling) (input : Mat) {geo : Nat × Nat × Nat}
    (hd : mulSz (mulSz L.inputWidth L.inputHeight) input.n_cols ≠ 0)
    (hg : outputGeometry L = some geo) :
    ∃ st out, Forward L input = some (st, out) ∧ st.outputWidth = geo.1 ∧
      st.outputHeight = geo.2.1 ∧
      out.n_rows = geo.1 * geo.2.1 * st.outSize / input.n_cols ∧ out.n_cols = input.n_cols := by
  obtain ⟨st, out, hF⟩ := Forward_isSome input hd hg
  obtain ⟨-, geo2, hg2, hw, hh, -, -, -, -, -, -, hr, hc⟩ := Forward_spec hF
  rw [hg] at hg2
  obtain rfl := Option.some.inj hg2
  exact ⟨st, out, hF, hw, hh, hr, hc⟩

/-- C12 (counterexample): input 2x2, kernel 3x3, stride 1x1, floor rounding, no
padding, so kernel = input + stride and the resolved output size is
`floor((2 - 3) / 1 + 1) = 0`; the constructor builds the layer and `Forward`
returns an output matrix (with 0 rows and 1 column) instead of failing. -/
theorem Forward_returns_on_zero_geometry :
    ∃ st out,
      Forward (mkMeanPooling 3 3 1 1 true (0, 0) (0, 0) 2 2 "none".toList) (Mat.zeros 4 1) =
        some (st, out) ∧
      ⌊(((2 + 0 + 0 : ℕ) : ℚ) - ((3 : ℕ) : ℚ)) / ((1 : ℕ) : ℚ) + 1⌋ = 0 ∧
      st.outputWidth = 0 ∧ st.outputHeight = 0 ∧ out.n_rows = 0 ∧ out.n_cols = 1 := by
  obtain ⟨st, out, hF, hw, hh, hr, hc⟩ :=
    Forward_of_geometry (mkMeanPooling 3 3 1 1 true (0, 0) (0, 0) 2 2 "none".toList)
      (Mat.zeros 4 1) (by decide) example_geometry_empty
  refine ⟨st, out, hF, by norm_num, hw, hh, ?_, hc⟩
  rw [hr]
  simp

/-- C12 (amended): the layer has no geometry check.  For every configuration
for which `Forward` resolves an output width or an output height that is exactly
0 (for example input 3, kernel 4, stride 2 under floor rounding), `Forward` (on
an input with a non-zero channel-count divisor) does not fail: it records the
resolved sizes and returns an output matrix with 0 rows and `B` columns. -/
theorem Forward_zero_geometry (L : MeanPooling) (input : Mat) (ow oh off : Nat)
    (hg : outputGeometry L = some (ow, oh, off)) (hz : ow = 0 ∨ oh = 0)
    (hin : mulSz (mulSz L.inputWidth L.inputHeight) input.n_cols ≠ 0) :
    ∃ st out, Forward L input = some (st, out) ∧
      st.outputWidth = ow ∧ st.outputHeight = oh ∧
      out.n_rows = 0 ∧ out.n_cols = input.n_cols := by
  obtain ⟨st, out, hF, h1, h2, hr, hc⟩ := Forward_of_geometry L input hin hg
  refine ⟨st, out, hF, h1, h2, ?_, hc⟩
  rw [hr]
  rcases hz with h | h <;> simp [h]

/-- The geometry of a 3x5 input with kernel 4x2 and stride 2x1 under floor
rounding: width 0 and height 4. -/
theorem example_geometry_zero_width :
    outputGeometry (mkMeanPooling 4 2 2 1 true (0, 0) (0, 0) 3 5 "none".toList) =
      some (0, 4, 0) := by
  have hw : (if (mkMeanPooling 4 2 2 1 true (0, 0) (0, 0) 3 5 "none".toList).floor
      then ⌊(((addSz (addSz 3 0) 0 : ℕ) : ℚ) - ((4 : ℕ) : ℚ)) / ((2 : ℕ) : ℚ) + 1⌋
      else ⌈(((addSz (addSz 3 0) 0 : ℕ) : ℚ) - ((4 : ℕ) : ℚ)) / ((2 : ℕ) : ℚ) + 1⌉)
      = ((0 : ℕ) : ℤ) := by
    have e : addSz (addSz 3 0) 0 = 3 := by decide
    rw [e, if_pos (by decide), Int.floor_eq_iff]
    norm_num
  have hh : (if (mkMeanPooling 4 2 2 1 true (0, 0) (0, 0) 3 5 "none".toList).floor
      then ⌊(((addSz (addSz 5 0) 0 : ℕ) : ℚ) - ((2 : ℕ) : ℚ)) / ((1 : ℕ) : ℚ) + 1⌋
      else ⌈(((addSz (addSz 5 0) 0 : ℕ) : ℚ) - ((2 : ℕ) : ℚ)) / ((1 : ℕ) : ℚ) + 1⌉)
      = ((4 : ℕ) : ℤ) := by
    have e : addSz (addSz 5 0) 0 = 5 := by decide
    rw [e, if_pos (by decide)]
    norm_num
  exact outputGeometry_intro (mkMeanPooling 4 2 2 1 true (0, 0) (0, 0) 3 5 "none".toList)
    (by decide) (by decide) (by decide) (by decide) hw hh (by decide) (by decide)

/-- Witness for C12 (amended): input 3x5, kernel 4x2, stride 2x1, floor rounding:
the resolved width is 0 and the resolved height 4. -/
theorem Forward_zero_geometry_witness :
    ∃ st out,
      Forward (mkMeanPooling 4 2 2 1 true (0, 0) (0, 0) 3 5 "none".toList) (Mat.zeros 15 1) =
        some (st, out) ∧
      st.outputWidth = 0 ∧ st.outputHeight = 4 ∧ out.n_rows = 0 ∧ out.n_cols = 1 :=
  Forward_zero_geometry (mkMeanPooling 4 2 2 1 true (0, 0) (0, 0) 3 5 "none".toList)
    (Mat.zeros 15 1) 0 4 0 example_geometry_zero_width (Or.inl rfl) (by decide)

/-! ## Repeated `Backward` calls -/

/-- `Backward` writes `gTemp` and nothing else: what `Forward` retained is still
there, and calling it again on the layer it returned gives the same result. -/
theorem Backward_retains {L : MeanPooling} {x gy : Mat} {st2 : MeanPooling} {g : Mat}
    (h : Backward L x gy = some (st2, g)) :
    st2.batchSize = L.batchSize ∧ st2.batchSize ≠ 0 ∧ st2.inSize = L.inSize ∧
    st2.outSize = L.outSize ∧
    st2.outputWidth = L.outputWidth ∧ st2.outputHeight = L.outputHeight ∧
    st2.inputTemp = L.inputTemp ∧ st2.inputPaddedTemp = L.inputPaddedTemp ∧
    st2.outputTemp = L.outputTemp ∧
    Backward st2 x gy = some (st2, g) := by
  unfold Backward at h
  by_cases hb : L.batchSize = 0
  · simp [hb] at h
  · simp only [hb, if_false, Option.some.injEq, Prod.mk.injEq] at h
    obtain ⟨rfl, rfl⟩ := h
    refine ⟨rfl, hb, rfl, rfl, rfl, rfl, rfl, rfl, rfl, ?_⟩
    unfold Backward
    simp only [hb, if_false]
    rfl

/-- C13 (counterexample): a 4x4 input, kernel 2x2, stride 2x2; after `Forward`
and one `Backward`, a second `Backward` in a row does not fail: it returns a
16x1 gradient again, and batch size, slice count and output size recorded by
`Forward` are still in the layer. -/
theorem Backward_twice_returns :
    ∃ st out st2 g st3 g2,
      Forward (mkMeanPooling 2 2 2 2 true (0, 0) (0, 0) 4 4 "none".toList) (Mat.zeros 16 1) =
        some (st, out) ∧
      Backward st (Mat.zeros 16 1) (Mat.zeros 4 1) = some (st2, g) ∧
      Backward st2 (Mat.zeros 16 1) (Mat.zeros 4 1) = some (st3, g2) ∧
      g2.n_rows = 16 ∧ g2.n_cols = 1 ∧
      st2.batchSize = 1 ∧ st2.outSize = 1 ∧ st2.outputWidth = 2 ∧ st2.outputHeight = 2 := by
  obtain ⟨st, out, hF⟩ := Forward_isSome (Mat.zeros 16 1) (by decide) example_geometry
  obtain ⟨-, geo, hg, hw, hh, -⟩ := Forward_spec hF
  rw [example_geometry] at hg
  obtain rfl := Option.some.inj hg
  simp only at hw hh
  obtain ⟨h1, -, h3, h4, -⟩ :=
    Forward_sizes hF 1 (by decide) (by decide) (by decide) (by decide) (by decide) (by decide)
  obtain ⟨st2, g, hBk, -, hr, hc, -⟩ :=
    Backward_spec st (Mat.zeros 16 1) (Mat.zeros 4 1) (by rw [h1]; decide)
  obtain ⟨r1, -, -, r4, r5, r6, -, -, -, hagain⟩ := Backward_retains hBk
  refine ⟨st, out, st2, g, st2, g, hF, hBk, hagain, ?_, ?_, ?_, ?_, ?_, ?_⟩
  · rw [hr, h4, h1]; rfl
  · rw [hc, h1]; rfl
  · rw [r1, h1]; rfl
  · rw [r4, h3]; rfl
  · rw [r5, hw]
  · rw [r6, hh]

/-- C13 (amended): `Backward` makes no sequencing check and clears nothing.  For
every layer on which a `Backward` call has returned (in particular one whose most
recent `Forward` has just been consumed by that call), the batch size, slice
counts, output sizes and the cubes retained by `Forward` are unchanged, every
further `Backward` call returns a gradient, and a second `Backward` in a row with
the same argument returns the same gradient again. -/
theorem Backward_keeps_forward_state (L st2 : MeanPooling) (x gy : Mat) (g : Mat)
    (h : Backward L x gy = some (st2, g)) :
    st2.batchSize = L.batchSize ∧ st2.inSize = L.inSize ∧ st2.outSize = L.outSize ∧
    st2.outputWidth = L.outputWidth ∧ st2.outputHeight = L.outputHeight ∧
    st2.inputTemp = L.inputTemp ∧ st2.inputPaddedTemp = L.inputPaddedTemp ∧
    st2.outputTemp = L.outputTemp ∧
    (∀ x2 gy2 : Mat, ∃ st3 g2, Backward st2 x2 gy2 = some (st3, g2)) ∧
    Backward st2 x gy = some (st2, g) := by
  obtain ⟨r1, r2, r3, r4, r5, r6, r7, r8, r9, r10⟩ := Backward_retains h
  refine ⟨r1, r3, r4, r5, r6, r7, r8, r9, ?_, r10⟩
  intro x2 gy2
  obtain ⟨st3, g2, h3, -⟩ := Backward_spec st2 x2 gy2 r2
  exact ⟨st3, g2, h3⟩

/-- Witness for C13 (amended): `Forward`, then two `Backward` calls on a padded
2x2 layer. -/
theorem Backward_keeps_forward_state_witness :
    ∃ st out st2 g,
      Forward (mkMeanPooling 2 2 1 1 true (1, 1) (1, 1) 2 2 "none".toList) (Mat.zeros 4 1) =
        some (st, out) ∧
      Backward st (Mat.zeros 4 1) (Mat.zeros 9 1) = some (st2, g) ∧
      Backward st2 (Mat.zeros 4 1) (Mat.zeros 9 1) = some (st2, g) ∧
      st2.inputTemp = st.inputTemp := by
  obtain ⟨st, out, hF⟩ := Forward_isSome (Mat.zeros 4 1) (by decide) example_geometry_padded
  obtain ⟨h1, -⟩ :=
    Forward_sizes hF 1 (by decide) (by decide) (by decide) (by decide) (by decide) (by decide)
  obtain ⟨st2, g, hBk, -⟩ :=
    Backward_spec st (Mat.zeros 4 1) (Mat.zeros 9 1) (by rw [h1]; decide)
  have h := Backward_keeps_forward_state st st2 (Mat.zeros 4 1) (Mat.zeros 9 1) g hBk
  exact ⟨st, out, st2, g, hF, hBk, h.2.2.2.2.2.2.2.2.2, h.2.2.2.2.2.1⟩

/-- On a freshly constructed layer `batchSize` is 0, so the division
`gTemp.n_elem / batchSize` of `Backward` is a division by zero. -/
theorem Backward_fresh_undefined (kw kh sw sh : Nat) (fl : Bool) (padW padH : Nat × Nat)
    (iw ih : Nat) (pt : List Char) (x gy : Mat) :
    (mkMeanPooling kw kh sw sh fl padW padH iw ih pt).batchSize = 0 ∧
    Backward (mkMeanPooling kw kh sw sh fl padW padH iw ih pt) x gy = none := by
  have hb : (mkMeanPooling kw kh sw sh fl padW padH iw ih pt).batchSize = 0 := by
    unfold mkMeanPooling
    simp only []
    split_ifs <;> simp [initMembers, InitializeSamePadding]
  refine ⟨hb, ?_⟩
  unfold Backward
  simp [hb]

/-! ## Pooling windows and the slice that is pooled -/

theorem ceil_window_bound (N k s o i : Nat) (hs : s ≠ 0)
    (h : ⌈((N : ℚ) - (k : ℚ)) / (s : ℚ) + 1⌉ = (o : ℤ)) (hi : i < o) : i * s + k < N + s := by
  have hs0 : (0 : ℚ) < (s : ℚ) := by
    have : 0 < s := Nat.pos_of_ne_zero hs
    exact_mod_cast this
  have h1 : ((o : ℤ) : ℚ) < ((N : ℚ) - (k : ℚ)) / (s : ℚ) + 1 + 1 := by
    rw [← h]; exact Int.ceil_lt_add_one _
  have h1' : (o : ℚ) < ((N : ℚ) - (k : ℚ)) / (s : ℚ) + 1 + 1 := by exact_mod_cast h1
  have h3 : (i : ℚ) + 1 ≤ (o : ℚ) := by
    have : i + 1 ≤ o := hi
    exact_mod_cast this
  have h4 : (i : ℚ) - 1 < ((N : ℚ) - (k : ℚ)) / (s : ℚ) := by linarith
  have h5 : ((i : ℚ) - 1) * (s : ℚ) < (N : ℚ) - (k : ℚ) := (lt_div_iff₀ hs0).mp h4
  have h6 : ((i * s + k : ℕ) : ℚ) < ((N + s : ℕ) : ℚ) := by
    push_cast
    linarith
  exact_mod_cast h6

/-- The cube that `Forward` pools: the padded cube when the layer is padded, the
cube laid over the input memory otherwise; `outputTemp` is the result of the
slice loop over it. -/
theorem Forward_pooled {L : MeanPooling} {input : Mat} {st : MeanPooling} {out : Mat}
    (h : Forward L input = some (st, out)) :
    st.outputTemp =
      poolSlices L (if L.isPadded then st.inputPaddedTemp else st.inputTemp)
        (Cube.zeros st.outputWidth st.outputHeight st.outSize) ∧
    (if L.isPadded then st.inputPaddedTemp else st.inputTemp).n_slices = st.outSize ∧
    (L.isPadded = true →
      st.inputPaddedTemp =
        padSlices L st.inputTemp
          (Cube.zeros (addSz (addSz L.inputWidth L.padWLeft) L.padWRight)
            (addSz (addSz L.inputHeight L.padHTop) L.padHBottom) st.outSize)) := by
  unfold Forward at h
  by_cases hd : mulSz (mulSz L.inputWidth L.inputHeight) input.n_cols = 0
  · simp [hd] at h
  · simp only [hd, if_false, Option.bind_eq_some] at h
    obtain ⟨geo, hg, h⟩ := h
    simp only [Option.some.injEq, Prod.mk.injEq] at h
    obtain ⟨rfl, rfl⟩ := h
    by_cases hp : L.isPadded = true <;>
      simp [hp, poolSlices_shape, padSlices_shape, Cube.zeros, Cube.ofMem]

/-- The slice handed to `Pooling` is at least as large as the extent the
geometry was resolved from. -/
theorem pooled_slice_dims {L : MeanPooling} {input : Mat} {st : MeanPooling} {out : Mat}
    (hF : Forward L input = some (st, out))
    (hcons : L.isPadded =
      decide (L.padWLeft ≠ 0 ∨ L.padWRight ≠ 0 ∨ L.padHTop ≠ 0 ∨ L.padHBottom ≠ 0))
    (s : Nat) :
    addSz (addSz L.inputWidth L.padWLeft) L.padWRight ≤
      ((if L.isPadded then st.inputPaddedTemp else st.inputTemp).slice s).n_rows ∧
    addSz (addSz L.inputHeight L.padHTop) L.padHBottom ≤
      ((if L.isPadded then st.inputPaddedTemp else st.inputTemp).slice s).n_cols := by
  cases hp : L.isPadded
  · rw [hp] at hcons
    have hz : ¬ (L.padWLeft ≠ 0 ∨ L.padWRight ≠ 0 ∨ L.padHTop ≠ 0 ∨ L.padHBottom ≠ 0) := by
      intro hne
      have : decide (L.padWLeft ≠ 0 ∨ L.padWRight ≠ 0 ∨ L.padHTop ≠ 0 ∨ L.padHBottom ≠ 0) =
          true := decide_eq_true hne
      rw [this] at hcons
      exact Bool.false_ne_true hcons
    have z1 : L.padWLeft = 0 := by by_contra h; exact hz (Or.inl h)
    have z2 : L.padWRight = 0 := by by_contra h; exact hz (Or.inr (Or.inl h))
    have z3 : L.padHTop = 0 := by by_contra h; exact hz (Or.inr (Or.inr (Or.inl h)))
    have z4 : L.padHBottom = 0 := by by_contra h; exact hz (Or.inr (Or.inr (Or.inr h)))
    obtain ⟨-, geo, -, -, -, -, -, -, -, ht, -⟩ := Forward_spec hF
    simp only [Bool.false_eq_true, if_false]
    rw [z1, z2, z3, z4, addSz_addSz, addSz_addSz, ht]
    simp only [Cube.slice, Cube.ofMem, Nat.add_zero]
    exact ⟨Nat.mod_le _ _, Nat.mod_le _ _⟩
  · obtain ⟨-, q2, q3, -⟩ := Forward_padded hF hp
    simp only [if_true]
    simp only [Cube.slice]
    rw [q2, q3]
    exact ⟨le_rfl, le_rfl⟩

theorem mkMeanPooling_isPadded (kw kh sw sh : Nat) (fl : Bool) (padW padH : Nat × Nat)
    (iw ih : Nat) (pt : List Char) :
    (mkMeanPooling kw kh sw sh fl padW padH iw ih pt).isPadded =
      decide ((mkMeanPooling kw kh sw sh fl padW padH iw ih pt).padWLeft ≠ 0 ∨
        (mkMeanPooling kw kh sw sh fl padW padH iw ih pt).padWRight ≠ 0 ∨
        (mkMeanPooling kw kh sw sh fl padW padH iw ih pt).padHTop ≠ 0 ∨
        (mkMeanPooling kw kh sw sh fl padW padH iw ih pt).padHBottom ≠ 0) := by
  unfold mkMeanPooling
  simp only []
  split_ifs <;> simp_all

/-- C14 (amended): under floor rounding, with kernels at least 1 and at most
`N = input + padBefore + padAfter` on each axis and with `N` and the strides
below `2^50` (where the binary64 arithmetic that resolves the output size is
exact), for every output index `i < outputWidth` and `j < outputHeight` resolved
by `Forward`, `i * strideWidth + kernelWidth ≤ inputWidth + padWLeft +
padWRight` and likewise on the height axis.  `Forward` computes `outputTemp` by
the slice loop over the padded cube when the layer is padded and over the input
cube otherwise, and in every slice of that cube every window lies inside the
slice, its intersection with the slice bounds is the full kernel rectangle, the
divisor is `kernelWidth * kernelHeight > 0`, and the output cell is the sum over
the kernel rectangle divided by it (`isPadded` set as the constructor sets
it). -/
theorem floor_windows_full (L st : MeanPooling) (input out : Mat)
    (hF : Forward L input = some (st, out)) (hfl : L.floor = true)
    (hkw : 1 ≤ L.kernelWidth) (hkh : 1 ≤ L.kernelHeight)
    (hkwN : L.kernelWidth ≤ L.inputWidth + L.padWLeft + L.padWRight)
    (hkhN : L.kernelHeight ≤ L.inputHeight + L.padHTop + L.padHBottom)
    (hW : L.inputWidth + L.padWLeft + L.padWRight < 2 ^ 50)
    (hH : L.inputHeight + L.padHTop + L.padHBottom < 2 ^ 50)
    (hSW : L.strideWidth < 2 ^ 50) (hSH : L.strideHeight < 2 ^ 50)
    (hcons : L.isPadded =
      decide (L.padWLeft ≠ 0 ∨ L.padWRight ≠ 0 ∨ L.padHTop ≠ 0 ∨ L.padHBottom ≠ 0)) :
    (∀ i, i < st.outputWidth →
      i * L.strideWidth + L.kernelWidth ≤ L.inputWidth + L.padWLeft + L.padWRight) ∧
    (∀ j, j < st.outputHeight →
      j * L.strideHeight + L.kernelHeight ≤ L.inputHeight + L.padHTop + L.padHBottom) ∧
    st.outputTemp =
      poolSlices L (if L.isPadded then st.inputPaddedTemp else st.inputTemp)
        (Cube.zeros st.outputWidth st.outputHeight st.outSize) ∧
    (∀ (s i j : Nat), s < st.outSize → i < st.outputWidth → j < st.outputHeight →
      i * L.strideWidth + L.kernelWidth ≤
        ((if L.isPadded then st.inputPaddedTemp else st.inputTemp).slice s).n_rows ∧
      j * L.strideHeight + L.kernelHeight ≤
        ((if L.isPadded then st.inputPaddedTemp else st.inputTemp).slice s).n_cols ∧
      windowRows L ((if L.isPadded then st.inputPaddedTemp else st.inputTemp).slice s) i =
        Finset.Ico (i * L.strideWidth) (i * L.strideWidth + L.kernelWidth) ∧
      windowCols L ((if L.isPadded then st.inputPaddedTemp else st.inputTemp).slice s) j =
        Finset.Ico (j * L.strideHeight) (j * L.strideHeight + L.kernelHeight) ∧
      windowCount L ((if L.isPadded then st.inputPaddedTemp else st.inputTemp).slice s) i j =
        L.kernelWidth * L.kernelHeight ∧
      0 < L.kernelWidth * L.kernelHeight ∧
      st.outputTemp.get i j s =
        (∑ r ∈ Finset.Ico (i * L.strideWidth) (i * L.strideWidth + L.kernelWidth),
          ∑ c ∈ Finset.Ico (j * L.strideHeight) (j * L.strideHeight + L.kernelHeight),
            (if L.isPadded then st.inputPaddedTemp else st.inputTemp).get r c s) /
          ((L.kernelWidth : ℚ) * (L.kernelHeight : ℚ))) := by
  obtain ⟨-, geo, hg, hw, hh, -⟩ := Forward_spec hF
  have eW : addSz (addSz L.inputWidth L.padWLeft) L.padWRight =
      L.inputWidth + L.padWLeft + L.padWRight := addSz_addSz_of_lt (by omega)
  have eH : addSz (addSz L.inputHeight L.padHTop) L.padHBottom =
      L.inputHeight + L.padHTop + L.padHBottom := addSz_addSz_of_lt (by omega)
  obtain ⟨hsw, hsh, gw, gh, -⟩ := outputGeometry_spec hg
    ⟨by rw [eW]; exact hW, by omega, hSW⟩ ⟨by rw [eH]; exact hH, by omega, hSH⟩
  rw [hfl, if_pos rfl, eW] at gw
  rw [hfl, if_pos rfl, eH] at gh
  have bw : ∀ i, i < st.outputWidth → i * L.strideWidth + L.kernelWidth ≤
      L.inputWidth + L.padWLeft + L.padWRight := by
    intro i hi
    exact floor_window_inside _ _ _ _ i hsw gw (by rw [← hw]; exact hi)
  have bh : ∀ j, j < st.outputHeight → j * L.strideHeight + L.kernelHeight ≤
      L.inputHeight + L.padHTop + L.padHBottom := by
    intro j hj
    exact floor_window_inside _ _ _ _ j hsh gh (by rw [← hh]; exact hj)
  obtain ⟨hpool, hsl, -⟩ := Forward_pooled hF
  refine ⟨bw, bh, hpool, ?_⟩
  intro s i j hs hi hj
  obtain ⟨d1, d2⟩ := pooled_slice_dims hF hcons s
  rw [eW] at d1
  rw [eH] at d2
  have r1 := le_trans (bw i hi) d1
  have r2 := le_trans (bh j hj) d2
  refine ⟨r1, r2, windowRows_full L _ i r1, windowCols_full L _ j r2,
    windowCount_full L _ i j r1 r2, Nat.mul_pos hkw hkh, ?_⟩
  have hval := poolSlices_get L (if L.isPadded then st.inputPaddedTemp else st.inputTemp)
    (Cube.zeros st.outputWidth st.outputHeight st.outSize) i j s (by rw [hsl]; exact hs)
  rw [← hpool, windowCount_full L _ i j r1 r2, windowRows_full L _ i r1,
    windowCols_full L _ j r2] at hval
  rw [hval]
  push_cast
  rfl

/-- Witness for C14 (amended): the padded layer on a 2x2 input (pads 1, kernel 2x2, stride
1x1); the last window starts at row 2 and ends at the padded extent 4. -/
theorem floor_windows_full_witness :
    ∃ st out,
      Forward (mkMeanPooling 2 2 1 1 true (1, 1) (1, 1) 2 2 "none".toList) (Mat.zeros 4 1) =
        some (st, out) ∧
      st.outputWidth = 3 ∧ 2 * 1 + 2 ≤ 2 + 1 + 1 ∧
      windowCount (mkMeanPooling 2 2 1 1 true (1, 1) (1, 1) 2 2 "none".toList)
        ((if (mkMeanPooling 2 2 1 1 true (1, 1) (1, 1) 2 2 "none".toList).isPadded
          then st.inputPaddedTemp else st.inputTemp).slice 0) 2 2 = 2 * 2 := by
  obtain ⟨st, out, hF⟩ := Forward_isSome (Mat.zeros 4 1) (by decide) example_geometry_padded
  obtain ⟨-, geo, hg, hw, hh, -⟩ := Forward_spec hF
  rw [example_geometry_padded] at hg
  obtain rfl := Option.some.inj hg
  simp only at hw hh
  obtain ⟨-, -, h3, -⟩ :=
    Forward_sizes hF 1 (by decide) (by decide) (by decide) (by decide) (by decide) (by decide)
  have h := floor_windows_full (mkMeanPooling 2 2 1 1 true (1, 1) (1, 1) 2 2 "none".toList) st
    (Mat.zeros 4 1) out hF (by decide) (by decide) (by decide) (by decide) (by decide)
    (by decide) (by decide) (by decide) (by decide) (by decide)
  exact ⟨st, out, hF, hw, h.1 2 (by rw [hw]; decide),
    (h.2.2.2 0 2 2 (by rw [h3]; decide) (by rw [hw]; decide)
      (by rw [hh]; decide)).2.2.2.2.1⟩

theorem example_geometry_ceil :
    outputGeometry (mkMeanPooling 2 2 2 2 false (0, 0) (0, 0) 5 5 "none".toList) =
      some (3, 3, 1) := by
  have hw : (if (mkMeanPooling 2 2 2 2 false (0, 0) (0, 0) 5 5 "none".toList).floor
      then ⌊(((addSz (addSz 5 0) 0 : ℕ) : ℚ) - ((2 : ℕ) : ℚ)) / ((2 : ℕ) : ℚ) + 1⌋
      else ⌈(((addSz (addSz 5 0) 0 : ℕ) : ℚ) - ((2 : ℕ) : ℚ)) / ((2 : ℕ) : ℚ) + 1⌉)
      = ((3 : ℕ) : ℤ) := by
    have e : addSz (addSz 5 0) 0 = 5 := by decide
    rw [e, if_neg (by decide)]
    rw [Int.ceil_eq_iff]
    norm_num
  exact outputGeometry_intro (mkMeanPooling 2 2 2 2 false (0, 0) (0, 0) 5 5 "none".toList)
    (by decide) (by decide) (by decide) (by decide) hw hw (by decide) (by decide)

/-- C15 (amended): under ceil rounding with `stride ≤ kernel ≤ N` on each axis, where
`N = input + padBefore + padAfter` is below `2^50` (where the binary64
arithmetic that resolves the output size is exact), for every output index
`i < outputWidth` and `j < outputHeight` resolved by `Forward`, the window start
`i * stride` is below `N` and the window end satisfies
`i * stride + kernel < N + stride`.  `Forward` computes `outputTemp` by the
slice loop over the padded cube when the layer is padded and over the input cube
otherwise, and in every slice of that cube every window starts inside the slice,
ends fewer than `stride` cells past it, has a positive number of in-bounds
cells, and the output cell is the sum over the in-bounds cells divided by their
number (`isPadded` set as the constructor sets it). -/
theorem ceil_windows_overshoot (L st : MeanPooling) (input out : Mat)
    (hF : Forward L input = some (st, out)) (hfl : L.floor = false)
    (hskw : L.strideWidth ≤ L.kernelWidth) (hskh : L.strideHeight ≤ L.kernelHeight)
    (hkwN : L.kernelWidth ≤ L.inputWidth + L.padWLeft + L.padWRight)
    (hkhN : L.kernelHeight ≤ L.inputHeight + L.padHTop + L.padHBottom)
    (hW : L.inputWidth + L.padWLeft + L.padWRight < 2 ^ 50)
    (hH : L.inputHeight + L.padHTop + L.padHBottom < 2 ^ 50)
    (hcons : L.isPadded =
      decide (L.padWLeft ≠ 0 ∨ L.padWRight ≠ 0 ∨ L.padHTop ≠ 0 ∨ L.padHBottom ≠ 0)) :
    (∀ i, i < st.outputWidth →
      i * L.strideWidth < L.inputWidth + L.padWLeft + L.padWRight ∧
      i * L.strideWidth + L.kernelWidth <
        L.inputWidth + L.padWLeft + L.padWRight + L.strideWidth) ∧
    (∀ j, j < st.outputHeight →
      j * L.strideHeight < L.inputHeight + L.padHTop + L.padHBottom ∧
      j * L.strideHeight + L.kernelHeight <
        L.inputHeight + L.padHTop + L.padHBottom + L.strideHeight) ∧
    st.outputTemp =
      poolSlices L (if L.isPadded then st.inputPaddedTemp else st.inputTemp)
        (Cube.zeros st.outputWidth st.outputHeight st.outSize) ∧
    (∀ (s i j : Nat), s < st.outSize → i < st.outputWidth → j < st.outputHeight →
      i * L.strideWidth <
        ((if L.isPadded then st.inputPaddedTemp else st.inputTemp).slice s).n_rows ∧
      i * L.strideWidth + L.kernelWidth <
        ((if L.isPadded then st.inputPaddedTemp else st.inputTemp).slice s).n_rows +
          L.strideWidth ∧
      j * L.strideHeight <
        ((if L.isPadded then st.inputPaddedTemp else st.inputTemp).slice s).n_cols ∧
      j * L.strideHeight + L.kernelHeight <
        ((if L.isPadded then st.inputPaddedTemp else st.inputTemp).slice s).n_cols +
          L.strideHeight ∧
      0 < windowCount L
        ((if L.isPadded then st.inputPaddedTemp else st.inputTemp).slice s) i j ∧
      st.outputTemp.get i j s =
        (∑ r ∈ windowRows L
            ((if L.isPadded then st.inputPaddedTemp else st.inputTemp).slice s) i,
          ∑ c ∈ windowCols L
              ((if L.isPadded then st.inputPaddedTemp else st.inputTemp).slice s) j,
            (if L.isPadded then st.inputPaddedTemp else st.inputTemp).get r c s) /
          (windowCount L
            ((if L.isPadded then st.inputPaddedTemp else st.inputTemp).slice s) i j : ℚ)) := by
  obtain ⟨-, geo, hg, hw, hh, -⟩ := Forward_spec hF
  have eW : addSz (addSz L.inputWidth L.padWLeft) L.padWRight =
      L.inputWidth + L.padWLeft + L.padWRight := addSz_addSz_of_lt (by omega)
  have eH : addSz (addSz L.inputHeight L.padHTop) L.padHBottom =
      L.inputHeight + L.padHTop + L.padHBottom := addSz_addSz_of_lt (by omega)
  obtain ⟨hsw, hsh, gw, gh, -⟩ := outputGeometry_spec hg
    ⟨by rw [eW]; exact hW, by omega, by omega⟩ ⟨by rw [eH]; exact hH, by omega, by omega⟩
  rw [hfl, if_neg (by decide), eW] at gw
  rw [hfl, if_neg (by decide), eH] at gh
  have bw : ∀ i, i < st.outputWidth → i * L.strideWidth + L.kernelWidth <
      L.inputWidth + L.padWLeft + L.padWRight + L.strideWidth := by
    intro i hi
    exact ceil_window_bound _ _ _ _ i hsw gw (by rw [← hw]; exact hi)
  have bh : ∀ j, j < st.outputHeight → j * L.strideHeight + L.kernelHeight <
      L.inputHeight + L.padHTop + L.padHBottom + L.strideHeight := by
    intro j hj
    exact ceil_window_bound _ _ _ _ j hsh gh (by rw [← hh]; exact hj)
  obtain ⟨hpool, hsl, -⟩ := Forward_pooled hF
  refine ⟨?_, ?_, hpool, ?_⟩
  · intro i hi
    have := bw i hi
    constructor <;> omega
  · intro j hj
    have := bh j hj
    constructor <;> omega
  · intro s i j hs hi hj
    obtain ⟨d1, d2⟩ := pooled_slice_dims hF hcons s
    rw [eW] at d1
    rw [eH] at d2
    have b1 := bw i hi
    have b2 := bh j hj
    have r1 : i * L.strideWidth <
        ((if L.isPadded then st.inputPaddedTemp else st.inputTemp).slice s).n_rows := by omega
    have r2 : j * L.strideHeight <
        ((if L.isPadded then st.inputPaddedTemp else st.inputTemp).slice s).n_cols := by omega
    have hval := poolSlices_get L (if L.isPadded then st.inputPaddedTemp else st.inputTemp)
      (Cube.zeros st.outputWidth st.outputHeight st.outSize) i j s (by rw [hsl]; exact hs)
    rw [← hpool] at hval
    refine ⟨r1, by omega, r2, by omega, ?_, hval⟩
    unfold windowCount
    apply Nat.mul_pos
    · apply Finset.card_pos.mpr
      refine ⟨i * L.strideWidth, ?_⟩
      unfold windowRows
      rw [Finset.mem_filter, Finset.mem_Ico]
      exact ⟨⟨le_rfl, by omega⟩, r1⟩
    · apply Finset.card_pos.mpr
      refine ⟨j * L.strideHeight, ?_⟩
      unfold windowCols
      rw [Finset.mem_filter, Finset.mem_Ico]
      exact ⟨⟨le_rfl, by omega⟩, r2⟩

/-- Witness for C15 (amended): a 5x5 input, kernel 2x2, stride 2x2, ceil rounding: three
windows per axis, the last one starts at 4 and ends one cell past the slice. -/
theorem ceil_windows_overshoot_witness :
    ∃ st out,
      Forward (mkMeanPooling 2 2 2 2 false (0, 0) (0, 0) 5 5 "none".toList) (Mat.zeros 25 1) =
        some (st, out) ∧
      st.outputWidth = 3 ∧ 2 * 2 < 5 + 0 + 0 ∧ 2 * 2 + 2 < 5 + 0 + 0 + 2 ∧
      0 < windowCount (mkMeanPooling 2 2 2 2 false (0, 0) (0, 0) 5 5 "none".toList)
        ((if (mkMeanPooling 2 2 2 2 false (0, 0) (0, 0) 5 5 "none".toList).isPadded
          then st.inputPaddedTemp else st.inputTemp).slice 0) 2 2 := by
  obtain ⟨st, out, hF⟩ := Forward_isSome (Mat.zeros 25 1) (by decide) example_geometry_ceil
  obtain ⟨-, geo, hg, hw, hh, -⟩ := Forward_spec hF
  rw [example_geometry_ceil] at hg
  obtain rfl := Option.some.inj hg
  simp only at hw hh
  obtain ⟨-, -, h3, -⟩ :=
    Forward_sizes hF 1 (by decide) (by decide) (by decide) (by decide) (by decide) (by decide)
  have h := ceil_windows_overshoot (mkMeanPooling 2 2 2 2 false (0, 0) (0, 0) 5 5 "none".toList)
    st (Mat.zeros 25 1) out hF (by decide) (by decide) (by decide) (by decide) (by decide)
    (by decide) (by decide) (by decide)
  exact ⟨st, out, hF, hw, (h.1 2 (by rw [hw]; decide)).1, (h.1 2 (by rw [hw]; decide)).2,
    (h.2.2.2 0 2 2 (by rw [h3]; decide) (by rw [hw]; decide)
      (by rw [hh]; decide)).2.2.2.2.1⟩

/-! ## Output sizes that exceed the slice extent -/

/-- Between `2^53` and `2^54` the doubles are the even integers. -/
theorem toDouble_natCast_53 (n : ℕ) (h1 : 2 ^ 53 ≤ n) (h2 : n < 2 ^ 54) :
    toDouble (n : ℚ) = (roundEven ((n : ℚ) / 2) : ℚ) * 2 := by
  have hlog : Int.log 2 |(n : ℚ)| = 53 := by
    rw [Nat.abs_cast, Int.log_natCast, Nat.log_eq_of_pow_le_of_lt_pow h1 h2]
    rfl
  have hne : (n : ℚ) ≠ 0 := by
    have : 0 < n := by omega
    exact_mod_cast this.ne'
  have hu : (2 : ℚ) ^ ((53 : ℤ) - 52) = 2 := by norm_num
  unfold toDouble
  rw [if_neg hne, hlog, hu]

/-- The integer `2^53 + 3` lies halfway between two neighbouring doubles and is
rounded to the one with the even significand, `2^53 + 4`. -/
theorem toDouble_two_pow_53_add_3 : toDouble ((2 ^ 53 + 3 : ℕ) : ℚ) = ((2 ^ 53 + 4 : ℕ) : ℚ) := by
  rw [toDouble_natCast_53 _ (by norm_num) (by norm_num)]
  have hq : ((2 ^ 53 + 3 : ℕ) : ℚ) / 2 = 4503599627370497 + 1 / 2 := by norm_num
  have hfl : ⌊(4503599627370497 + 1 / 2 : ℚ)⌋ = 4503599627370497 := by
    rw [Int.floor_eq_iff]; norm_num
  rw [hq]
  unfold roundEven
  rw [hfl]
  norm_num

/-- The even integer `2^53 + 4` is a double. -/
theorem toDouble_two_pow_53_add_4 : toDouble ((2 ^ 53 + 4 : ℕ) : ℚ) = ((2 ^ 53 + 4 : ℕ) : ℚ) := by
  rw [toDouble_natCast_53 _ (by norm_num) (by norm_num)]
  have hq : ((2 ^ 53 + 4 : ℕ) : ℚ) / 2 = ((4503599627370498 : ℤ) : ℚ) := by norm_num
  rw [hq, roundEven_intCast]
  norm_num

/-- The integer `2^53 + 5` is rounded down to `2^53 + 4`. -/
theorem toDouble_two_pow_53_add_5 : toDouble ((2 ^ 53 + 5 : ℕ) : ℚ) = ((2 ^ 53 + 4 : ℕ) : ℚ) := by
  rw [toDouble_natCast_53 _ (by norm_num) (by norm_num)]
  have hq : ((2 ^ 53 + 5 : ℕ) : ℚ) / 2 = 4503599627370498 + 1 / 2 := by norm_num
  have hfl : ⌊(4503599627370498 + 1 / 2 : ℚ)⌋ = 4503599627370498 := by
    rw [Int.floor_eq_iff]; norm_num
  rw [hq]
  unfold roundEven
  rw [hfl]
  norm_num

/-- The axis expression at extent `2^53 + 3`, kernel 1, stride 1: every step
rounds, and the result is `2^53 + 4`. -/
theorem axisDouble_two_pow_53_add_3 :
    axisDouble (2 ^ 53 + 3) 1 1 = some (((2 ^ 53 + 4 : ℕ) : ℚ)) := by
  have h1 : toDouble ((1 : ℕ) : ℚ) = ((1 : ℕ) : ℚ) := toDouble_natCast 1 (by norm_num)
  have e1 : ((2 ^ 53 + 4 : ℕ) : ℚ) - ((1 : ℕ) : ℚ) = ((2 ^ 53 + 3 : ℕ) : ℚ) := by norm_num
  have e2 : ((2 ^ 53 + 4 : ℕ) : ℚ) / ((1 : ℕ) : ℚ) = ((2 ^ 53 + 4 : ℕ) : ℚ) := by norm_num
  have e3 : ((2 ^ 53 + 4 : ℕ) : ℚ) + 1 = ((2 ^ 53 + 5 : ℕ) : ℚ) := by norm_num
  have hne : ¬ (((1 : ℕ) : ℚ) = 0) := by norm_num
  unfold axisDouble divDouble subDouble addDouble
  rw [toDouble_two_pow_53_add_3, h1, e1, toDouble_two_pow_53_add_3, if_neg hne, e2,
    toDouble_two_pow_53_add_4]
  simp only [Option.map_some']
  rw [e3, toDouble_two_pow_53_add_5]

/-- The geometry of a layer without padding, kernel 1, stride 1 and declared
input `(2^53 + 3) x 1`: the width is resolved as `2^53 + 4`, in both rounding
modes. -/
theorem geometry_exceeds_extent (fl : Bool) :
    outputGeometry (mkMeanPooling 1 1 1 1 fl (0, 0) (0, 0) (2 ^ 53 + 3) 1 "none".toList) =
      some (2 ^ 53 + 4, 1, if fl then 0 else 1) := by
  have eW : addSz (addSz
      (mkMeanPooling 1 1 1 1 fl (0, 0) (0, 0) (2 ^ 53 + 3) 1 "none".toList).inputWidth
      (mkMeanPooling 1 1 1 1 fl (0, 0) (0, 0) (2 ^ 53 + 3) 1 "none".toList).padWLeft)
      (mkMeanPooling 1 1 1 1 fl (0, 0) (0, 0) (2 ^ 53 + 3) 1 "none".toList).padWRight =
      2 ^ 53 + 3 := by cases fl <;> decide
  have eH : addSz (addSz
      (mkMeanPooling 1 1 1 1 fl (0, 0) (0, 0) (2 ^ 53 + 3) 1 "none".toList).inputHeight
      (mkMeanPooling 1 1 1 1 fl (0, 0) (0, 0) (2 ^ 53 + 3) 1 "none".toList).padHTop)
      (mkMeanPooling 1 1 1 1 fl (0, 0) (0, 0) (2 ^ 53 + 3) 1 "none".toList).padHBottom =
      1 := by cases fl <;> decide
  obtain ⟨c1, c2, c3, c4, c5, -, -⟩ :=
    mkMeanPooling_config 1 1 1 1 fl (0, 0) (0, 0) (2 ^ 53 + 3) 1 "none".toList
  obtain ⟨hgt, hh, fh, ch⟩ := axisDouble_exact 1 1 1 le_rfl (by norm_num) (by norm_num)
    (by norm_num)
  have hw : axisDouble (addSz (addSz
      (mkMeanPooling 1 1 1 1 fl (0, 0) (0, 0) (2 ^ 53 + 3) 1 "none".toList).inputWidth
      (mkMeanPooling 1 1 1 1 fl (0, 0) (0, 0) (2 ^ 53 + 3) 1 "none".toList).padWLeft)
      (mkMeanPooling 1 1 1 1 fl (0, 0) (0, 0) (2 ^ 53 + 3) 1 "none".toList).padWRight)
      (mkMeanPooling 1 1 1 1 fl (0, 0) (0, 0) (2 ^ 53 + 3) 1 "none".toList).kernelWidth
      (mkMeanPooling 1 1 1 1 fl (0, 0) (0, 0) (2 ^ 53 + 3) 1 "none".toList).strideWidth =
      some (((2 ^ 53 + 4 : ℕ) : ℚ)) := by
    rw [eW, c1, c3]; exact axisDouble_two_pow_53_add_3
  have hh2 : axisDouble (addSz (addSz
      (mkMeanPooling 1 1 1 1 fl (0, 0) (0, 0) (2 ^ 53 + 3) 1 "none".toList).inputHeight
      (mkMeanPooling 1 1 1 1 fl (0, 0) (0, 0) (2 ^ 53 + 3) 1 "none".toList).padHTop)
      (mkMeanPooling 1 1 1 1 fl (0, 0) (0, 0) (2 ^ 53 + 3) 1 "none".toList).padHBottom)
      (mkMeanPooling 1 1 1 1 fl (0, 0) (0, 0) (2 ^ 53 + 3) 1 "none".toList).kernelHeight
      (mkMeanPooling 1 1 1 1 fl (0, 0) (0, 0) (2 ^ 53 + 3) 1 "none".toList).strideHeight =
      some hgt := by
    rw [eH, c2, c4]; exact hh
  have h := outputGeometry_of_axes
    (mkMeanPooling 1 1 1 1 fl (0, 0) (0, 0) (2 ^ 53 + 3) 1 "none".toList) hw hh2
    (show _ = ((2 ^ 53 + 4 : ℕ) : ℤ) by
      have e : ((2 ^ 53 + 4 : ℕ) : ℚ) = ((((2 ^ 53 + 4 : ℕ) : ℤ) : ℤ) : ℚ) := by norm_num
      rw [e, Int.floor_intCast, Int.ceil_intCast]
      simp)
    (show _ = ((1 : ℕ) : ℤ) by
      rw [fh, ch]
      norm_num)
    (by norm_num) (by norm_num)
  rw [c5] at h
  exact h

/-- C14 (counterexample): floor rounding, no padding, kernel 1, stride 1 and
declared input width `N = 2^53 + 3` (height 1), on a 1x1 buffer: stride is at
least 1 and kernel at most `N`, yet the binary64 expression rounds up and
`Forward` resolves `outputWidth = 2^53 + 4`, so the output index `i = N` is below
`outputWidth` while `i * stride + kernel = N + 1` exceeds `N`. -/
theorem floor_window_past_extent :
    ∃ st out,
      Forward (mkMeanPooling 1 1 1 1 true (0, 0) (0, 0) (2 ^ 53 + 3) 1 "none".toList)
        (Mat.zeros 1 1) = some (st, out) ∧
      st.outputWidth = 2 ^ 53 + 4 ∧
      2 ^ 53 + 3 < st.outputWidth ∧
      ¬ ((2 ^ 53 + 3) * 1 + 1 ≤ (2 ^ 53 + 3) + 0 + 0) := by
  obtain ⟨st, out, hF⟩ := Forward_isSome (Mat.zeros 1 1) (by decide)
    (geometry_exceeds_extent true)
  obtain ⟨-, geo, hg2, hgw, -⟩ := Forward_spec hF
  rw [geometry_exceeds_extent true] at hg2
  obtain rfl := Option.some.inj hg2
  exact ⟨st, out, hF, hgw, by rw [hgw]; norm_num, by norm_num⟩

/-- C15 (counterexample): ceil rounding, no padding, kernel 1, stride 1 and
declared input width `N = 2^53 + 3` (height 1), on a 1x1 buffer:
`1 ≤ stride ≤ kernel ≤ N` holds, yet the binary64 expression rounds up and
`Forward` resolves `outputWidth = 2^53 + 4`, so the output index `i = N` is below
`outputWidth` while the window start `i * stride = N` is not below `N`. -/
theorem ceil_window_past_extent :
    ∃ st out,
      Forward (mkMeanPooling 1 1 1 1 false (0, 0) (0, 0) (2 ^ 53 + 3) 1 "none".toList)
        (Mat.zeros 1 1) = some (st, out) ∧
      st.outputWidth = 2 ^ 53 + 4 ∧
      2 ^ 53 + 3 < st.outputWidth ∧
      ¬ ((2 ^ 53 + 3) * 1 < (2 ^ 53 + 3) + 0 + 0) := by
  obtain ⟨st, out, hF⟩ := Forward_isSome (Mat.zeros 1 1) (by decide)
    (geometry_exceeds_extent false)
  obtain ⟨-, geo, hg2, hgw, -⟩ := Forward_spec hF
  rw [geometry_exceeds_extent false] at hg2
  obtain rfl := Option.some.inj hg2
  exact ⟨st, out, hF, hgw, by rw [hgw]; norm_num, by norm_num⟩

end mlpack.ann
